import Mathlib

/-! # schemer: `definition/comment.go`

A shallow embedding of `handleComment`, `removeTypeNameFromComment` and
`joinIfNotEmpty`, together with the parts of Go's `strings` and `regexp`
packages they call.

* Go strings are modelled as lists of code points (`Str`).
* Regular expressions are modelled by a small backtracking matcher that tries
  alternatives in the order of Go's leftmost-first semantics; every pattern of
  `comment.go` is written down as a syntax tree that mirrors its source text.
* The collaborators of `handleComment` that live in other files
  (`interpretReference`, `handleEnumComments`, `parserAsValue`,
  `newPropertyRef`) or other modules (`go/parser`, `blackfriday`) are fields of
  an environment record `Env`.
-/

namespace Schemer

/-- Go strings, as sequences of code points. -/
abbrev Str := List Char

/-- The back-quote character (U+0060). -/
def backquote : Char := Char.ofNat 96

/-- The line feed character (U+000A). -/
def newline : Char := Char.ofNat 10

/-- The horizontal tab character (U+0009). -/
def tab : Char := Char.ofNat 9

/-! ## The `strings` package -/

/-- Go `strings.HasPrefix`. -/
def hasPrefix (s pre : Str) : Bool := pre.isPrefixOf s

/-- Go `strings.HasSuffix`. -/
def hasSuffix (s suf : Str) : Bool := suf.isSuffixOf s

/-- Go `unicode.IsSpace`: the Latin-1 spaces and the code points with the
White_Space property. -/
def isSpace (c : Char) : Bool :=
  let n := c.toNat
  n = 0x09 || n = 0x0A || n = 0x0B || n = 0x0C || n = 0x0D || n = 0x20 ||
  n = 0x85 || n = 0xA0 || n = 0x1680 || (0x2000 ≤ n && n ≤ 0x200A) ||
  n = 0x2028 || n = 0x2029 || n = 0x202F || n = 0x205F || n = 0x3000

/-- Go `strings.TrimSpace`. -/
def trimSpace (s : Str) : Str := (s.dropWhile isSpace).rdropWhile isSpace

/-- The scan of `strings.ReplaceAll` for a non-empty `old`: `skip` counts the
characters of the occurrence of `old` found last that are still to be dropped. -/
def replaceAllAux (old new : Str) : Nat → Str → Str
  | _, [] => []
  | skip + 1, _ :: cs => replaceAllAux old new skip cs
  | 0, c :: cs =>
    if old.isPrefixOf (c :: cs) then new ++ replaceAllAux old new (old.length - 1) cs
    else c :: replaceAllAux old new 0 cs

/-- Go `strings.ReplaceAll`: the non-overlapping occurrences of `old`, found
left to right, are replaced by `new`; an empty `old` matches before every code
point and at the end. -/
def replaceAll (s old new : Str) : Str :=
  match old with
  | [] => new ++ s.flatMap (fun c => c :: new)
  | _ :: _ => replaceAllAux old new 0 s

/-- Go `strings.Join`. -/
def join (elems : List Str) (sep : Str) : Str := sep.intercalate elems

/-! ## The `regexp` package -/

/-- Regular expression syntax trees, as far as `comment.go` uses them. -/
inductive RE where
  /-- one character satisfying a predicate (a literal, `.`, a class) -/
  | cls (p : Char → Bool)
  /-- `^` under the flag `(?m)`: beginning of a line -/
  | bol
  /-- `$` under the flag `(?m)`: end of a line -/
  | eol
  /-- `^` without flags: beginning of the text -/
  | bot
  /-- the empty expression -/
  | empty
  /-- concatenation -/
  | seq (a b : RE)
  /-- alternation `a|b`, `a` preferred -/
  | alt (a b : RE)
  /-- greedy repetition -/
  | star (a : RE)
  /-- capturing group number `i` -/
  | group (i : Nat) (a : RE)

namespace RE

/-- A literal character. -/
def chr (c : Char) : RE := .cls (fun x => x == c)

/-- The expression `.`: any character but a line feed. -/
def any : RE := .cls (fun x => x != newline)

/-- A negated one-character class, as in `[^c]`. -/
def notChr (c : Char) : RE := .cls (fun x => x != c)

/-- A character class listing its members, as in `[ \t]`. -/
def oneOf (cs : List Char) : RE := .cls (fun x => cs.contains x)

/-- A literal string. -/
def lit (s : Str) : RE := s.foldr (fun c r => .seq (.chr c) r) .empty

/-- Concatenation of a list of expressions. -/
def cat (rs : List RE) : RE := rs.foldr .seq .empty

/-- Greedy `a+`. -/
def plus (a : RE) : RE := .seq a (.star a)

/-- Greedy `a?`. -/
def opt (a : RE) : RE := .alt a .empty

end RE

/-- The state of a match in progress: the character before the current
position (`none` at the beginning of the text), the text from the current
position on, and the text captured by each group so far. -/
structure St where
  prev : Option Char
  rest : Str
  caps : Nat → Option Str

/-- The captures before any group has matched. -/
def noCaps : Nat → Option Str := fun _ => none

/-- Record the text captured by group `i`. -/
def setCap (caps : Nat → Option Str) (i : Nat) (v : Str) : Nat → Option Str :=
  fun j => if j = i then some v else caps j

/-- The greedy loop of `a*`: one more iteration of `a` that consumes input is
tried before leaving the loop. `fuel` bounds the number of iterations; the
length of the remaining text is enough, since every iteration consumes. -/
def starLoop (step : St → (St → Option St) → Option St) :
    Nat → St → (St → Option St) → Option St
  | 0, st, k => k st
  | fuel + 1, st, k =>
    match step st (fun st' =>
        if st'.rest.length < st.rest.length then starLoop step fuel st' k else none) with
    | some r => some r
    | none => k st

/-- The backtracking matcher: `run r st k` matches `r` at `st` and hands every
state in which `r` can end to the continuation `k`, in order of preference,
until `k` accepts one. -/
def run : RE → St → (St → Option St) → Option St
  | .cls p, st, k =>
    match st.rest with
    | [] => none
    | c :: cs => if p c then k ⟨some c, cs, st.caps⟩ else none
  | .bol, st, k =>
    match st.prev with
    | none => k st
    | some c => if c = newline then k st else none
  | .eol, st, k =>
    match st.rest with
    | [] => k st
    | c :: _ => if c = newline then k st else none
  | .bot, st, k =>
    match st.prev with
    | none => k st
    | some _ => none
  | .empty, st, k => k st
  | .seq a b, st, k => run a st (fun st' => run b st' k)
  | .alt a b, st, k =>
    match run a st k with
    | some r => some r
    | none => run b st k
  | .star a, st, k => starLoop (run a) st.rest.length st k
  | .group i a, st, k =>
    run a st (fun st' =>
      k ⟨st'.prev, st'.rest,
        setCap st'.caps i (st.rest.take (st.rest.length - st'.rest.length))⟩)

/-- The leftmost match of `r` in the text `rest` that follows the character
`prev`: the number of characters skipped before the match, and the state at
its end. -/
def searchFrom (r : RE) : Option Char → Str → Option (Nat × St)
  | prev, [] => (run r ⟨prev, [], noCaps⟩ some).map (fun st => (0, st))
  | prev, c :: cs =>
    match run r ⟨prev, c :: cs, noCaps⟩ some with
    | some st => some (0, st)
    | none => (searchFrom r (some c) cs).map (fun x => (x.1 + 1, x.2))

/-- A compiled pattern: its syntax tree and the number of its capturing
groups. -/
structure Regexp where
  re : RE
  numSubexp : Nat

/-- The slice a match is reported as: the matched text, then the text of the
groups `1..numSubexp`, empty for a group that took no part. `text` is the
searched text from the beginning of the match on. -/
def submatches (re : Regexp) (text : Str) (st : St) : List Str :=
  text.take (text.length - st.rest.length) ::
    (List.range re.numSubexp).map (fun j => (st.caps (j + 1)).getD [])

/-- Go `(*Regexp).FindStringSubmatch`; `none` is the nil slice. -/
def findStringSubmatch (re : Regexp) (s : Str) : Option (List Str) :=
  match searchFrom re.re none s with
  | none => none
  | some (i, st) => some (submatches re (s.drop i) st)

/-- The loop of `(*Regexp).allMatches`: `pos` is the position of `rest` in the
text and `prevEnd` the end of the match before.  An empty match right after the
match before is dropped, and the search moves on by one character after an
empty match. -/
def findAllLoop (re : Regexp) : Nat → Nat → Option Nat → Option Char → Str → List (List Str)
  | 0, _, _, _, _ => []
  | fuel + 1, pos, prevEnd, prev, rest =>
    match searchFrom re.re prev rest with
    | none => []
    | some (i, st) =>
      let stop := pos + (rest.length - st.rest.length)
      let m := submatches re (rest.drop i) st
      if stop = pos then
        let out := if prevEnd = some pos then [] else [m]
        match rest with
        | [] => out
        | c :: cs => out ++ findAllLoop re fuel (pos + 1) (some stop) (some c) cs
      else
        m :: findAllLoop re fuel stop (some stop) st.prev st.rest

/-- Go `(*Regexp).FindAllStringSubmatch(s, -1)`; the empty list is the nil
slice. -/
def findAllStringSubmatch (re : Regexp) (s : Str) : List (List Str) :=
  findAllLoop re (s.length + 1) 0 none none s

/-- The loop of `(*Regexp).replaceAll`: `lastEnd` is the end of the match
before, `pos` the position of `rest` in `src`, where the search goes on. -/
def replaceLoop (re : Regexp) (repl : List Str → Str) (src : Str) :
    Nat → Nat → Nat → Option Char → Str → Str
  | 0, lastEnd, _, _, _ => src.drop lastEnd
  | fuel + 1, lastEnd, pos, prev, rest =>
    match searchFrom re.re prev rest with
    | none => src.drop lastEnd
    | some (i, st) =>
      let start := pos + i
      let stop := pos + (rest.length - st.rest.length)
      let copied := (src.drop lastEnd).take (start - lastEnd)
      let ins := if lastEnd < stop ∨ start = 0 then repl (submatches re (rest.drop i) st) else []
      if stop ≤ pos then
        match rest with
        | [] => copied ++ ins ++ src.drop stop
        | c :: cs => copied ++ ins ++ replaceLoop re repl src fuel stop (pos + 1) (some c) cs
      else
        copied ++ ins ++ replaceLoop re repl src fuel stop stop st.prev st.rest

/-- Go `(*Regexp).ReplaceAllString`, the template given as the function `repl`
of the submatches that its expansion computes. -/
def replaceAllString (re : Regexp) (src : Str) (repl : List Str → Str) : Str :=
  replaceLoop re repl src (src.length + 1) 0 0 none src

/-! ## The patterns of `comment.go` -/

/-- The shape shared by three patterns: `(.*)`, a phrase that ends in a
back-quote, `(.*)`, a back-quote. -/
def clauseRE (phrase : Str) : RE :=
  .cat [.group 1 (.star .any), .lit phrase, .group 2 (.star .any), .chr backquote]

/-- The pattern "(.*)Defaults to `(.*)`". -/
def regexpDefaults : Regexp := ⟨clauseRE "Defaults to `".toList, 2⟩

/-- The pattern "(?m)^Required$". -/
def regexpRequired : Regexp := ⟨.cat [.bol, .lit "Required".toList, .eol], 0⟩

/-- The pattern "(?m)^\+required$". -/
def regexpPlusRequired : Regexp := ⟨.cat [.bol, .lit "+required".toList, .eol], 0⟩

/-- The pattern "(.*)For example: `(.*)`". -/
def regexpExample : Regexp := ⟨clauseRE "For example: `".toList, 2⟩

/-- The pattern "(.*)Schema type is `(.*)`". -/
def typeOverridePattern : Regexp := ⟨clauseRE "Schema type is `".toList, 2⟩

/-- The pattern text "`([^`]+)`,?[ \t]*", its group being number `g` of the
pattern it is spliced into. -/
def oneOfEntry (g : Nat) : RE :=
  .cat [.chr backquote, .group g (.plus (.notChr backquote)), .chr backquote,
    .opt (.chr ','), .star (.oneOf [' ', tab])]

/-- The pattern `oneOfEntry` compiled on its own. -/
def oneOfEntryPattern : Regexp := ⟨oneOfEntry 1, 1⟩

/-- The pattern "(.*)Schema type is one of ((?:" + oneOfEntry + ")*)". -/
def typeOneOfPattern : Regexp :=
  ⟨.cat [.group 1 (.star .any), .lit "Schema type is one of ".toList,
    .group 2 (.star (oneOfEntry 3))], 3⟩

/-- The pattern "(<p>)|(</p>)". -/
def pTags : Regexp := ⟨.alt (.group 1 (.lit "<p>".toList)) (.group 2 (.lit "</p>".toList)), 2⟩

/-- The characters that have a meaning in the syntax of Go regular
expressions: the ones `regexp.QuoteMeta` escapes. -/
def regexpMeta : List Char :=
  ['\\', '.', '+', '*', '?', '(', ')', '|', '[', ']', '{', '}', '^', '$']

/-- A name stands for itself when spliced into a pattern text: it has no
character of `regexpMeta`. Go identifiers are such names. -/
def plainName (name : Str) : Bool := name.all (fun c => !regexpMeta.contains c)

/-- The group `(\*.*\* )` of the pattern of `removeTypeNameFromComment`. -/
def asideGroup : RE := .group 1 (.cat [.chr '*', .star .any, .chr '*', .chr ' '])

/-- The group `((is (the )?)|(are (the )?)|(lists ))` of the pattern of
`removeTypeNameFromComment`. -/
def verbGroup : RE :=
  .group 2 (.alt (.alt
    (.group 3 (.cat [.lit "is ".toList, .opt (.group 4 (.lit "the ".toList))]))
    (.group 5 (.cat [.lit "are ".toList, .opt (.group 6 (.lit "the ".toList))])))
    (.group 7 (.lit "lists ".toList)))

/-- The pattern "^" + name + " (\*.*\* )?((is (the )?)|(are (the )?)|(lists ))?"
for a name that stands for itself. -/
def typeNamePattern (name : Str) : Regexp :=
  ⟨.cat [.bot, .lit name, .chr ' ', .opt asideGroup, .opt verbGroup], 7⟩

/-! ## The data model -/

/-- The struct `Meta`. -/
structure Meta where
  Required : Bool
  NoDerive : Bool
deriving DecidableEq, Repr

/-- The struct `Definition`, declared outside `comment.go`: the five fields
`handleComment` assigns, and `other` for all the fields it does not name.
`V` is the type of the values an `interface{}` default can hold. -/
structure Definition (V R : Type) where
  Default : V
  OneOf : List (Definition V R)
  Examples : List Str
  Description : Str
  HTMLDescription : Str
  other : R

/-- The result of the enum pass, as far as `handleComment` reads it. -/
structure EnumCommentInformation where
  RemainingComment : Str
  SynthesizedComment : Str

/-- The struct `Generator`, declared outside `comment.go`: the two fields
`handleComment` reads, and `state` for what the schema-node builder may
change (the definitions collected so far). -/
structure Generator (I G : Type) where
  Strict : Bool
  Importer : I
  state : G

/-- How a call can end without a result. -/
inductive Failure where
  /-- a returned `error`, with its message -/
  | error (msg : Str)
  /-- a call of `panic` -/
  | panic (msg : Str)
  /-- the name has a character of `regexpMeta`, so that the pattern of
  `removeTypeNameFromComment` is not the one modelled here -/
  | unsupportedName
deriving DecidableEq, Repr

/-- The functions `handleComment` calls that are not defined in `comment.go`.
`X` is the type of parsed expressions (`ast.Expr`); errors are given by their
messages. The enum pass receives the definition by pointer, so it returns the
definition as it leaves it; the schema-node builder is a method of the
generator, so it returns the generator state as it leaves it. -/
structure Env (I G V X R : Type) where
  /-- the function `interpretReference` -/
  interpretReference : Str → Str × Str
  /-- the function `handleEnumComments`; `none` is a nil `*EnumCommentInformation` -/
  handleEnumComments : I → Definition V R → Str →
    Except Str (Definition V R × Option EnumCommentInformation)
  /-- the function `parserAsValue` -/
  parserAsValue : Str → Except Str V
  /-- the function `parser.ParseExpr` of `go/parser` -/
  parseExpr : Str → Except Str X
  /-- the method `newPropertyRef`, its second result dropped -/
  newPropertyRef : Generator I G → Str → X → Str → Bool → Definition V R × G
  /-- the function `blackfriday.Run` under `WithNoExtensions` -/
  markdown : Str → Str

/-! ## `comment.go` -/

/-- The function `joinIfNotEmpty`. -/
def joinIfNotEmpty (sep : Str) (elems : List Str) : Str :=
  join (elems.filter (fun e => e != [])) sep

/-- The replacement of `removeTypeNameFromComment` for a name that stands for
itself: every match of the pattern is replaced by the expansion of `$1`. -/
def stripTypeName (name description : Str) : Str :=
  replaceAllString (typeNamePattern name) description (fun m => m.getD 1 [])

/-- The function `removeTypeNameFromComment`. The name is spliced into the
pattern text as it is; `none` for a name that does not stand for itself there. -/
def removeTypeNameFromComment (name description : Str) : Option Str :=
  if plainName name then some (stripTypeName name description) else none

/-- Lines 57-64 of `handleComment`: the annotation tokens are removed, line
feeds become spaces, the result is trimmed. -/
def stripAnnotations (comment : Str) : Str :=
  trimSpace
    (replaceAll
      (replaceAll
        (replaceAll comment "+required".toList [])
        "+optional".toList [])
      [newline] [' '])

/-- Lines 66-74 of `handleComment`: the default clause. -/
def extractDefault {I G V X R : Type} (env : Env I G V X R) (description : Str)
    (d : Definition V R) : Except Failure (Str × Definition V R) :=
  match findStringSubmatch regexpDefaults description with
  | some m =>
    match env.parserAsValue (m.getD 2 []) with
    | .error err =>
      .error (.error ("couldn't parse default value from ".toList ++ m.getD 2 [] ++
        ": ".toList ++ err))
    | .ok parsedDefault => .ok (trimSpace (m.getD 1 []), { d with Default := parsedDefault })
  | none => .ok (description, d)

/-- Lines 92-101 of `handleComment`: the loop over the entries of a oneOf
clause. -/
def oneOfDefs {I G V X R : Type} (env : Env I G V X R) (dg : Generator I G) :
    List (List Str) → G → List (Definition V R) → Except Failure (List (Definition V R) × G)
  | [], g, defs => .ok (defs, g)
  | t :: n, g, defs =>
    let schemaRef := t.getD 1 []
    match env.parseExpr schemaRef with
    | .error err =>
      .error (.error ("couldn't parse `oneOf` type ".toList ++ schemaRef ++ ": ".toList ++ err))
    | .ok expr =>
      let r := env.newPropertyRef { dg with state := g } [] expr [] false
      oneOfDefs env dg n r.2 (defs ++ [r.1])

/-- Lines 76-103 of `handleComment`: the type override, else the oneOf
clause. The result is the description, `noDerive`, the definition and the
generator state. -/
def extractSchemaType {I G V X R : Type} (env : Env I G V X R) (dg : Generator I G)
    (description : Str) (d : Definition V R) :
    Except Failure (Str × Bool × Definition V R × G) :=
  match findStringSubmatch typeOverridePattern description with
  | some m =>
    match env.parseExpr (m.getD 2 []) with
    | .error err =>
      .error (.error ("couldn't parse type override ".toList ++ m.getD 2 [] ++
        ": ".toList ++ err))
    | .ok expr =>
      let r := env.newPropertyRef dg [] expr [] false
      .ok (trimSpace (m.getD 1 []), true, r.1, r.2)
  | none =>
    match findStringSubmatch typeOneOfPattern description with
    | some m =>
      match findAllStringSubmatch oneOfEntryPattern (m.getD 2 []) with
      | [] => .error (.panic "error matching oneOf comment with regex".toList)
      | t :: n =>
        match oneOfDefs env dg (t :: n) dg.state [] with
        | .error f => .error f
        | .ok (defs, g) => .ok (trimSpace (m.getD 1 []), false, { d with OneOf := defs }, g)
    | none => .ok (description, false, d, dg.state)

/-- Lines 105-109 of `handleComment`: the example clause. -/
def extractExample {V R : Type} (description : Str) (d : Definition V R) :
    Str × Definition V R :=
  match findStringSubmatch regexpExample description with
  | some m => (trimSpace (m.getD 1 []), { d with Examples := [m.getD 2 []] })
  | none => (description, d)

/-- Lines 111-127 of `handleComment`: the type prefix is removed, strict mode
checks the description, the description and its HTML form are stored. -/
def finishComment {I G V X R : Type} (env : Env I G V X R) (strict : Bool) (name : Str)
    (description synthesizedComment : Str) (required noDerive : Bool)
    (d : Definition V R) (g : G) : Except Failure (Meta × Definition V R × G) :=
  match removeTypeNameFromComment name description with
  | none => .error .unsupportedName
  | some description =>
    if strict && name != [] && description == [] then
      .error (.error ("no description on field ".toList ++ name))
    else if strict && name != [] && !hasSuffix description ".".toList then
      .error (.error ("description should end with a dot on field ".toList ++ name))
    else
      let text := joinIfNotEmpty " ".toList [description, synthesizedComment]
      let html := env.markdown text
      .ok (⟨required, noDerive⟩,
        { d with
          Description := text
          HTMLDescription := trimSpace (replaceAllString pTags html (fun _ => [])) },
        g)

/-- The method `handleComment`. The definition behind the pointer `def` is the
argument `d`; a successful call returns the `Meta`, the definition and the
generator state as the call leaves them. -/
def handleComment {I G V X R : Type} (env : Env I G V X R) (dg : Generator I G)
    (rawName comment : Str) (d : Definition V R) :
    Except Failure (Meta × Definition V R × G) :=
  let name := (env.interpretReference rawName).2
  if dg.Strict && name != [] && !hasPrefix comment (name ++ " ".toList) then
    .error (.error ("comment should start with field name on field ".toList ++ name))
  else
    match env.handleEnumComments dg.Importer d comment with
    | .error err => .error (.error err)
    | .ok (d, enumInformation) =>
      let comment := match enumInformation with
        | some info => info.RemainingComment
        | none => comment
      let synthesizedComment := match enumInformation with
        | some info => info.SynthesizedComment
        | none => []
      let required := (findStringSubmatch regexpPlusRequired comment).isSome ||
        (findStringSubmatch regexpRequired comment).isSome
      match extractDefault env (stripAnnotations comment) d with
      | .error f => .error f
      | .ok (description, d) =>
        match extractSchemaType env dg description d with
        | .error f => .error f
        | .ok (description, noDerive, d, g) =>
          let r := extractExample description d
          finishComment env dg.Strict name r.1 synthesizedComment required noDerive r.2 g

/-! ## Vocabulary of the statements -/

/-- The character before the position reached by reading `x`. -/
def lastOr (pv : Option Char) : Str → Option Char
  | [] => pv
  | c :: cs => lastOr (some c) cs

/-- The lines of a text: Go `strings.Split(s, "\n")`. -/
def lines (s : Str) : List Str := s.splitOn newline

/-- The position after `prev` begins a line. -/
def lineStart (prev : Option Char) : Prop := prev = none ∨ prev = some newline

/-- The text `t` begins with the end of a line. -/
def lineEnd (t : Str) : Prop := t = [] ∨ ∃ u, t = newline :: u

instance (prev : Option Char) : Decidable (lineStart prev) := by
  unfold lineStart; infer_instance

/-- A text has a line that is exactly `x`. -/
def hasLine (s x : Str) : Prop := x ∈ lines s

/-- The comment the passes of `handleComment` work on after the enum pass: the
remainder the enum pass returned, or the comment itself when the enum pass
returned nil. -/
def workingComment (comment : Str) (info : Option EnumCommentInformation) : Str :=
  match info with
  | some i => i.RemainingComment
  | none => comment

/-! ## A concrete environment -/

/-- An identifier of letters, digits and underscores. -/
def demoIdent (s : Str) : Bool := s != [] && s.all (fun c => c.isAlphanum || c == '_')

/-- A string literal in double quotes without escapes. -/
def demoStringLit (s : Str) : Bool :=
  2 ≤ s.length && s.head? == some '"' && s.getLast? == some '"' &&
    (s.drop 1).dropLast.all (fun c => c != '"' && c != '\\')

/-- A struct type with one tagged field: `struct{`, a field name, a type
name, a tag that is a string literal, `}`. -/
def demoTaggedStruct (s : Str) : Bool :=
  let body := (s.drop 7).dropLast
  let afterName := (body.dropWhile (fun c => c != ' ')).drop 1
  "struct\x7b".toList.isPrefixOf s && s.getLast? == some '}' &&
    demoIdent (body.takeWhile (fun c => c != ' ')) &&
    demoIdent (afterName.takeWhile (fun c => c != ' ')) &&
    demoStringLit ((afterName.dropWhile (fun c => c != ' ')).drop 1)

/-- An expression text the demo parser accepts: an identifier, a plain string
literal, or a struct type with one tagged field. `go/parser` accepts each of
them. -/
def demoExprOk (s : Str) : Bool := demoIdent s || demoStringLit s || demoTaggedStruct s

/-- A small environment to evaluate the embedding on concrete comments: names
are not references, the enum pass recognises nothing, a literal is its own
value, expressions are the texts of `demoExprOk`, the builder
makes a stub that records the expression and counts its calls, and Markdown
wraps the text in one paragraph. -/
def demoEnv : Env Unit Nat Str Str Str where
  interpretReference := fun r => ([], r)
  handleEnumComments := fun _ d _ => .ok (d, none)
  parserAsValue := fun s => if s = [] then .error "empty literal".toList else .ok s
  parseExpr := fun s => if demoExprOk s then .ok s else .error "bad expression".toList
  newPropertyRef := fun dg _ x _ _ => (⟨[], [], [], [], [], x⟩, dg.state + 1)
  markdown := fun s => "<p>".toList ++ s ++ "</p>\n".toList

/-- A generator for `demoEnv`, strict or not, that has built nothing yet. -/
def demoGen (strict : Bool) : Generator Unit Nat := ⟨strict, (), 0⟩

/-- An empty definition for `demoEnv`. -/
def demoDef : Definition Str Str := ⟨[], [], [], [], [], []⟩

/-! ## The match relation and further vocabulary -/

/-- The ways an expression can match: `Matches r s t` holds when `r`, started
in state `s`, can end in state `t`. An iteration of a repetition consumes
input, as in `starLoop`. -/
inductive Matches : RE → St → St → Prop
  | cls (p : Char → Bool) (pv : Option Char) (c : Char) (cs : Str) (cp : Nat → Option Str) :
      p c = true → Matches (.cls p) ⟨pv, c :: cs, cp⟩ ⟨some c, cs, cp⟩
  | bol (s : St) : lineStart s.prev → Matches .bol s s
  | eol (s : St) : lineEnd s.rest → Matches .eol s s
  | bot (s : St) : s.prev = none → Matches .bot s s
  | empty (s : St) : Matches .empty s s
  | seq {a b : RE} {s t u : St} : Matches a s t → Matches b t u → Matches (.seq a b) s u
  | altL {a : RE} (b : RE) {s t : St} : Matches a s t → Matches (.alt a b) s t
  | altR (a : RE) {b : RE} {s t : St} : Matches b s t → Matches (.alt a b) s t
  | starNil (a : RE) (s : St) : Matches (.star a) s s
  | starCons {a : RE} {s t u : St} : Matches a s t → t.rest.length < s.rest.length →
      Matches (.star a) t u → Matches (.star a) s u
  | group {a : RE} (i : Nat) {s t : St} : Matches a s t →
      Matches (.group i a) s
        ⟨t.prev, t.rest, setCap t.caps i (s.rest.take (s.rest.length - t.rest.length))⟩

/-- The numbers of the capturing groups of an expression. -/
def RE.groups : RE → List Nat
  | .seq a b => a.groups ++ b.groups
  | .alt a b => a.groups ++ b.groups
  | .star a => a.groups
  | .group i a => i :: a.groups
  | _ => []

/-- The texts the verb group of the pattern of `removeTypeNameFromComment`
matches, and the empty text for an absent group. -/
def verbPhrases : List Str :=
  [[], "is ".toList, "is the ".toList, "are ".toList, "are the ".toList, "lists ".toList]

/-- The texts the aside group of the pattern of `removeTypeNameFromComment`
matches (an aside between asterisks, then a space), and the empty text for an
absent group. -/
def asideText (a : Str) : Prop :=
  a = [] ∨ ∃ y, newline ∉ y ∧ a = '*' :: y ++ ['*', ' ']

/-- The fragment the enum pass synthesized, empty when it returned nil. -/
def synthesizedFragment (info : Option EnumCommentInformation) : Str :=
  match info with
  | some i => i.SynthesizedComment
  | none => []

/-- The value of `required` that `handleComment` computes from the working
comment. -/
def requiredOf (comment : Str) : Bool :=
  (findStringSubmatch regexpPlusRequired comment).isSome ||
    (findStringSubmatch regexpRequired comment).isSome

instance (s x : Str) : Decidable (hasLine s x) := by
  unfold hasLine; infer_instance

/-- A text between back-quotes. -/
def quoted (e : Str) : Str := backquote :: (e ++ [backquote])

/-- The entries of a oneOf clause as the specification writes them: each
between back-quotes, a comma and a space between two of them. -/
def oneOfClause (es : List Str) : Str := ", ".toList.intercalate (es.map quoted)

/-- The captures after group `g` has matched each of `es` in turn. -/
def capsAfter (cp : Nat → Option Str) (g : Nat) (es : List Str) : Nat → Option Str :=
  es.foldl (fun c e => setCap c g e) cp

/-- The phrase that opens a oneOf clause. -/
def oneOfPhrase : Str := "Schema type is one of ".toList

/-- The definitions `defs` are the schema-node builder's results for the
expressions parsed from the texts `es`, built in the order written: the first
in the generator state `g`, each next one in the state the build before left,
the last build leaving the state `g'`. -/
def builtInOrder {I G V X R : Type} (env : Env I G V X R) (dg : Generator I G) :
    G → List Str → List (Definition V R) → G → Prop
  | g, [], [], g' => g' = g
  | g, e :: es, d :: ds, g' =>
    ∃ x, env.parseExpr e = .ok x ∧
      d = (env.newPropertyRef { dg with state := g } [] x [] false).1 ∧
      builtInOrder env dg (env.newPropertyRef { dg with state := g } [] x [] false).2 es ds g'
  | _, _ :: _, [], _ => False
  | _, [], _ :: _, _ => False

/-- A description has none of the four clauses: it matches neither the
default, the type-override, the oneOf nor the example pattern. -/
def noClause (s : Str) : Prop :=
  findStringSubmatch regexpDefaults s = none ∧
  findStringSubmatch typeOverridePattern s = none ∧
  findStringSubmatch typeOneOfPattern s = none ∧
  findStringSubmatch regexpExample s = none

instance (s : Str) : Decidable (noClause s) := by
  unfold noClause; infer_instance

/-- A text does not end in a white-space character. -/
def noTrailingSpace (s : Str) : Prop := ∀ c ∈ s.getLast?, isSpace c = false

/-- A text does not begin with a white-space character. -/
def noLeadingSpace (s : Str) : Prop := ∀ c ∈ s.head?, isSpace c = false

instance (s : Str) : Decidable (noTrailingSpace s) := by
  unfold noTrailingSpace; infer_instance

instance (s : Str) : Decidable (noLeadingSpace s) := by
  unfold noLeadingSpace; infer_instance

/-- An environment as `demoEnv` whose enum pass recognises every comment: it
leaves the comment as it is and synthesizes the fragment "Valid variants are:
`a`.". -/
def demoEnumEnv : Env Unit Nat Str Str Str :=
  { demoEnv with
    handleEnumComments := fun _ d c => .ok (d, some ⟨c, "Valid variants are: `a`.".toList⟩) }

/-- The scan that removes every `<p>` and every `</p>` from a text, left to
right: `skip` counts the characters of the tag found last that are still to be
dropped. -/
def withoutTagsAux : Nat → Str → Str
  | _, [] => []
  | skip + 1, _ :: cs => withoutTagsAux skip cs
  | 0, c :: cs =>
    if hasPrefix (c :: cs) "<p>".toList then withoutTagsAux 2 cs
    else if hasPrefix (c :: cs) "</p>".toList then withoutTagsAux 3 cs
    else c :: withoutTagsAux 0 cs

/-- A text with every `<p>` and every `</p>` removed. -/
def withoutPTags (s : Str) : Str := withoutTagsAux 0 s

/-- The text `x` occurs at least twice in `s`, the two occurrences apart. -/
def occursTwice (x s : Str) : Prop := ∃ a b c, s = a ++ x ++ b ++ x ++ c

/-- A text as the passes see it, before it is trimmed: the tokens `+required`
and `+optional` deleted and every line feed replaced by a space (lines 57-63
of `handleComment` without `TrimSpace`). -/
def untagged (s : Str) : Str :=
  replaceAll (replaceAll (replaceAll s "+required".toList []) "+optional".toList [])
    [newline] [' ']

/-- The verb phrases that `removeTypeNameFromComment` removes after the name. -/
def verbs : List Str :=
  ["is the ".toList, "is ".toList, "are the ".toList, "are ".toList, "lists ".toList]

/-- Every `+` of the text is followed by one of the texts `ws`. -/
def plusBegins (ws : List Str) : Str → Bool
  | [] => true
  | c :: cs => (c != '+' || ws.any (fun w => hasPrefix cs w)) && plusBegins ws cs

/-- Every `+` of the text begins a token `+required` or `+optional`. -/
def plusBeginsTag (s : Str) : Bool := plusBegins ["required".toList, "optional".toList] s

/-! ## Theorems -/

theorem lit_nil : RE.lit [] = RE.empty := rfl

theorem lit_cons (c : Char) (cs : Str) : RE.lit (c :: cs) = .seq (.chr c) (.lit cs) := rfl

theorem run_chr (c : Char) (st : St) (k : St → Option St) :
    run (RE.chr c) st k =
      match st.rest with
      | [] => none
      | d :: ds => if d = c then k ⟨some d, ds, st.caps⟩ else none := by
  simp only [RE.chr, run]
  cases st.rest with
  | nil => rfl
  | cons d ds => simp

theorem run_lit_append (x t : Str) (pv : Option Char) (cp : Nat → Option Str)
    (k : St → Option St) :
    run (RE.lit x) ⟨pv, x ++ t, cp⟩ k = k ⟨lastOr pv x, t, cp⟩ := by
  induction x generalizing pv with
  | nil => simp [lit_nil, run, lastOr]
  | cons c cs ih =>
    rw [lit_cons, run, run_chr]
    simp [lastOr, ih]

theorem run_lit_none (x : Str) (st : St) (k : St → Option St) (h : ¬ x <+: st.rest) :
    run (RE.lit x) st k = none := by
  obtain ⟨pv, s, cp⟩ := st
  induction x generalizing pv s with
  | nil => exact absurd (List.nil_prefix) h
  | cons c cs ih =>
    rw [lit_cons, run, run_chr]
    cases s with
    | nil => rfl
    | cons d ds =>
      simp only
      by_cases hd : d = c
      · subst hd
        simp only [if_true]
        apply ih
        intro hp
        exact h ((List.prefix_cons_inj d).mpr hp)
      · simp [hd]

theorem run_lit (x : Str) (st : St) (k : St → Option St) :
    run (RE.lit x) st k =
      if x <+: st.rest then k ⟨lastOr st.prev x, st.rest.drop x.length, st.caps⟩ else none := by
  by_cases h : x <+: st.rest
  · obtain ⟨t, ht⟩ := h
    obtain ⟨pv, s, cp⟩ := st
    simp only at ht
    subst ht
    simp [run_lit_append]
  · simp [h, run_lit_none]

theorem lines_nil : lines [] = [[]] := rfl

theorem lines_cons (c : Char) (cs : Str) :
    lines (c :: cs) =
      if c = newline then [] :: lines cs else (lines cs).modifyHead (List.cons c) := by
  simp [lines, List.splitOn, List.splitOnP_cons]

theorem lines_ne_nil (s : Str) : lines s ≠ [] := List.splitOnP_ne_nil _ _

theorem run_linePattern (x s : Str) (pv : Option Char) (cp : Nat → Option Str) :
    (run (.cat [.bol, .lit x, .eol]) ⟨pv, s, cp⟩ some).isSome ↔
      lineStart pv ∧ ∃ t, s = x ++ t ∧ lineEnd t := by
  simp only [RE.cat, List.foldr_cons, List.foldr_nil, run, run_lit]
  constructor
  · intro h
    have hpv : lineStart pv := by
      rcases pv with _ | c
      · exact Or.inl rfl
      · by_cases hc : c = newline
        · exact Or.inr (by rw [hc])
        · simp [hc] at h
    refine ⟨hpv, ?_⟩
    have h2 : (if x <+: s then
        (match s.drop x.length with
          | [] => some (⟨lastOr pv x, s.drop x.length, cp⟩ : St)
          | c :: _ => if c = newline then some ⟨lastOr pv x, s.drop x.length, cp⟩ else none)
        else none).isSome := by
      rcases pv with _ | c
      · simpa using h
      · by_cases hc : c = newline
        · simpa [hc] using h
        · simp [hc] at h
    by_cases hx : x <+: s
    · obtain ⟨t, rfl⟩ := hx
      refine ⟨t, rfl, ?_⟩
      simp only [List.prefix_append, if_true, List.drop_left] at h2
      cases t with
      | nil => exact Or.inl rfl
      | cons d ds =>
        by_cases hd : d = newline
        · exact Or.inr ⟨ds, by rw [hd]⟩
        · simp [hd] at h2
    · simp [hx] at h2
  · rintro ⟨hpv, t, rfl, ht⟩
    have h2 : (match t with
          | [] => some (⟨lastOr pv x, t, cp⟩ : St)
          | c :: _ => if c = newline then some ⟨lastOr pv x, t, cp⟩ else none).isSome := by
      rcases ht with rfl | ⟨u, rfl⟩ <;> simp
    rcases hpv with rfl | rfl <;> simpa using h2

theorem firstLine_iff (x : Str) (hx : newline ∉ x) (s : Str) :
    (∃ t, s = x ++ t ∧ lineEnd t) ↔ (lines s).head? = some x := by
  induction s generalizing x with
  | nil =>
    simp only [lines_nil, List.head?_cons, Option.some.injEq]
    constructor
    · rintro ⟨t, h, -⟩
      have := List.append_eq_nil.mp h.symm
      exact this.1.symm
    · rintro rfl
      exact ⟨[], rfl, Or.inl rfl⟩
  | cons c cs ih =>
    rw [lines_cons]
    by_cases hc : c = newline
    · subst hc
      simp only [if_true, List.head?_cons, Option.some.injEq]
      constructor
      · rintro ⟨t, h, -⟩
        cases x with
        | nil => rfl
        | cons y ys =>
          simp only [List.cons_append, List.cons.injEq] at h
          exact absurd (h.1 ▸ List.mem_cons_self _ _) hx
      · rintro rfl
        exact ⟨_, rfl, Or.inr ⟨cs, rfl⟩⟩
    · simp only [hc, if_false]
      obtain ⟨h, tl, hl⟩ := List.exists_cons_of_ne_nil (lines_ne_nil cs)
      rw [hl] at ih ⊢
      simp only [List.modifyHead_cons, List.head?_cons, Option.some.injEq] at ih ⊢
      constructor
      · rintro ⟨t, hs, ht⟩
        cases x with
        | nil =>
          simp only [List.nil_append] at hs
          subst hs
          rcases ht with ht | ⟨u, ht⟩
          · exact absurd ht (List.cons_ne_nil _ _)
          · simp only [List.cons.injEq] at ht
            exact absurd ht.1 hc
        | cons y ys =>
          simp only [List.cons_append, List.cons.injEq] at hs
          obtain ⟨rfl, hs⟩ := hs
          have hys : newline ∉ ys := fun hm => hx (List.mem_cons_of_mem _ hm)
          rw [(ih ys hys).mp ⟨t, hs, ht⟩]
      · intro hx2
        subst hx2
        have hys : newline ∉ h := fun hm => hx (List.mem_cons_of_mem _ hm)
        obtain ⟨t, hs, ht⟩ := (ih h hys).mpr rfl
        exact ⟨t, by rw [hs]; rfl, ht⟩

theorem search_linePattern (x : Str) (hx : newline ∉ x) (pv : Option Char) (s : Str) :
    (searchFrom (.cat [.bol, .lit x, .eol]) pv s).isSome ↔
      (lineStart pv ∧ (lines s).head? = some x) ∨ x ∈ (lines s).tail := by
  induction s generalizing pv with
  | nil =>
    simp only [searchFrom, Option.isSome_map', run_linePattern, firstLine_iff x hx, lines_nil,
      List.tail_cons, List.not_mem_nil, or_false]
  | cons c cs ih =>
    have h0 := run_linePattern x (c :: cs) pv noCaps
    rw [firstLine_iff x hx] at h0
    simp only [searchFrom]
    cases hr : run (.cat [.bol, .lit x, .eol]) ⟨pv, c :: cs, noCaps⟩ some with
    | some st =>
      rw [hr] at h0
      simp only [Option.isSome_some, true_iff] at h0 ⊢
      exact Or.inl h0
    | none =>
      rw [hr] at h0
      simp only [Option.isSome_none, Bool.false_eq_true, false_iff] at h0
      simp only [Option.isSome_map', ih]
      rw [lines_cons] at h0 ⊢
      obtain ⟨h, tl, hl⟩ := List.exists_cons_of_ne_nil (lines_ne_nil cs)
      rw [hl] at h0 ⊢
      by_cases hc : c = newline
      · subst hc
        simp only [if_true, List.tail_cons, List.head?_cons, List.mem_cons, lineStart,
          or_true, true_and, Option.some.injEq] at h0 ⊢
        constructor
        · rintro (h1 | h1)
          · exact Or.inr (Or.inl h1.symm)
          · exact Or.inr (Or.inr h1)
        · rintro (h1 | h1 | h1)
          · exact absurd h1 h0
          · exact Or.inl h1.symm
          · exact Or.inr h1
      · simp only [hc, if_false, List.modifyHead_cons, List.tail_cons, List.head?_cons,
          lineStart, Option.some.injEq, or_self, false_and, false_or,
          reduceCtorEq] at h0 ⊢
        constructor
        · intro h1; exact Or.inr h1
        · rintro (h1 | h1)
          · exact absurd h1 h0
          · exact h1

theorem find_linePattern (x : Str) (hx : newline ∉ x) (n : Nat) (s : Str) :
    (findStringSubmatch ⟨.cat [.bol, .lit x, .eol], n⟩ s).isSome ↔ hasLine s x := by
  have h := search_linePattern x hx none s
  have hl : hasLine s x ↔
      (lineStart none ∧ (lines s).head? = some x) ∨ x ∈ (lines s).tail := by
    unfold hasLine
    obtain ⟨h, tl, hl⟩ := List.exists_cons_of_ne_nil (lines_ne_nil s)
    rw [hl]
    simp [lineStart, eq_comm]
  rw [hl, ← h]
  unfold findStringSubmatch
  cases searchFrom (.cat [.bol, .lit x, .eol]) none s with
  | none => simp
  | some r => simp

theorem finishComment_meta {I G V X R : Type} (env : Env I G V X R) (strict : Bool)
    (name description synth : Str) (required noDerive : Bool) (d : Definition V R) (g : G)
    (res : Meta × Definition V R × G)
    (h : finishComment env strict name description synth required noDerive d g = .ok res) :
    res.1 = ⟨required, noDerive⟩ := by
  unfold finishComment at h
  split at h
  · cases h
  · split at h
    · cases h
    · split at h
      · cases h
      · simp only [Except.ok.injEq] at h
        rw [← h]

/-- C1: on a successful call, `Meta.Required` is true exactly when the working
comment (the remainder of the enum pass if it recognised an enum block, else
the comment) has a line that is exactly `+required` or a line that is exactly
`Required`. -/
theorem handleComment_required_iff {I G V X R : Type} (env : Env I G V X R)
    (dg : Generator I G) (rawName comment : Str) (d d1 : Definition V R)
    (info : Option EnumCommentInformation) (res : Meta × Definition V R × G)
    (henum : env.handleEnumComments dg.Importer d comment = .ok (d1, info))
    (hok : handleComment env dg rawName comment d = .ok res) :
    res.1.Required = true ↔
      hasLine (workingComment comment info) "+required".toList ∨
      hasLine (workingComment comment info) "Required".toList := by
  have hreq : ∀ s : Str,
      ((findStringSubmatch regexpPlusRequired s).isSome ||
        (findStringSubmatch regexpRequired s).isSome) = true ↔
      hasLine s "+required".toList ∨ hasLine s "Required".toList := by
    intro s
    rw [Bool.or_eq_true]
    exact or_congr (find_linePattern _ (by decide) 0 s) (find_linePattern _ (by decide) 0 s)
  unfold handleComment at hok
  simp only [henum] at hok
  split at hok
  · cases hok
  · split at hok
    · cases hok
    · split at hok
      · cases hok
      · have hm := finishComment_meta _ _ _ _ _ _ _ _ _ _ hok
        rw [hm]
        cases info <;> exact hreq _

/-- C1 at a concrete comment with a `+required` line. -/
theorem handleComment_required_iff_witness :
    demoEnv.handleEnumComments (demoGen false).Importer demoDef
        "Foo is the bar.\n+required".toList = .ok (demoDef, none) ∧
    handleComment demoEnv (demoGen false) "Foo".toList "Foo is the bar.\n+required".toList
        demoDef =
      .ok (⟨true, false⟩, ⟨[], [], [], "bar.".toList, "bar.".toList, []⟩, 0) ∧
    ((⟨true, false⟩ : Meta).Required = true ↔
      hasLine (workingComment "Foo is the bar.\n+required".toList none) "+required".toList ∨
      hasLine (workingComment "Foo is the bar.\n+required".toList none) "Required".toList) :=
  ⟨rfl, rfl, handleComment_required_iff demoEnv (demoGen false) "Foo".toList
    "Foo is the bar.\n+required".toList demoDef demoDef none
    (⟨true, false⟩, ⟨[], [], [], "bar.".toList, "bar.".toList, []⟩, 0) rfl rfl⟩

theorem starLoop_sound (a : RE)
    (ih : ∀ (st : St) (k : St → Option St) (res : St), run a st k = some res →
      ∃ st', Matches a st st' ∧ k st' = some res)
    (n : Nat) (st : St) (k : St → Option St) (res : St)
    (h : starLoop (run a) n st k = some res) :
    ∃ st', Matches (.star a) st st' ∧ k st' = some res := by
  induction n generalizing st with
  | zero => exact ⟨st, .starNil a st, h⟩
  | succ n ihn =>
    simp only [starLoop] at h
    split at h
    · rename_i r hr
      cases h
      obtain ⟨t, hat, hk⟩ := ih _ _ _ hr
      split at hk
      · rename_i hlt
        obtain ⟨u, hu, hku⟩ := ihn t hk
        exact ⟨u, .starCons hat hlt hu, hku⟩
      · cases hk
    · exact ⟨st, .starNil a st, h⟩

theorem run_sound (r : RE) (st : St) (k : St → Option St) (res : St)
    (h : run r st k = some res) : ∃ st', Matches r st st' ∧ k st' = some res := by
  induction r generalizing st k res with
  | cls p =>
    obtain ⟨pv, s, cp⟩ := st
    cases s with
    | nil => simp [run] at h
    | cons c cs =>
      simp only [run] at h
      split at h
      · rename_i hp
        exact ⟨_, .cls p pv c cs cp hp, h⟩
      · cases h
  | bol =>
    obtain ⟨pv, s, cp⟩ := st
    cases pv with
    | none => exact ⟨_, .bol _ (Or.inl rfl), h⟩
    | some c =>
      simp only [run] at h
      split at h
      · rename_i hc
        exact ⟨_, .bol _ (Or.inr (by rw [hc])), h⟩
      · cases h
  | eol =>
    obtain ⟨pv, s, cp⟩ := st
    cases s with
    | nil => exact ⟨_, .eol _ (Or.inl rfl), h⟩
    | cons c cs =>
      simp only [run] at h
      split at h
      · rename_i hc
        exact ⟨_, .eol _ (Or.inr ⟨cs, by rw [hc]⟩), h⟩
      · cases h
  | bot =>
    obtain ⟨pv, s, cp⟩ := st
    cases pv with
    | none => exact ⟨_, .bot _ rfl, h⟩
    | some c => simp [run] at h
  | empty => exact ⟨st, .empty st, h⟩
  | seq a b iha ihb =>
    simp only [run] at h
    obtain ⟨t, hat, hk⟩ := iha _ _ _ h
    obtain ⟨u, hbu, hku⟩ := ihb _ _ _ hk
    exact ⟨u, .seq hat hbu, hku⟩
  | alt a b iha ihb =>
    simp only [run] at h
    split at h
    · rename_i r hr
      cases h
      obtain ⟨t, hat, hk⟩ := iha _ _ _ hr
      exact ⟨t, .altL b hat, hk⟩
    · obtain ⟨t, hbt, hk⟩ := ihb _ _ _ h
      exact ⟨t, .altR a hbt, hk⟩
  | star a iha =>
    simp only [run] at h
    exact starLoop_sound a iha _ _ _ _ h
  | group i a iha =>
    simp only [run] at h
    obtain ⟨t, hat, hk⟩ := iha _ _ _ h
    exact ⟨_, .group i hat, hk⟩

theorem run_complete_aux {r : RE} {s u : St} (h : Matches r s u) :
    ∀ k : St → Option St, (k u).isSome →
      (run r s k).isSome ∧
      ∀ a, r = .star a → ∀ n, s.rest.length ≤ n → (starLoop (run a) n s k).isSome := by
  induction h with
  | cls p pv c cs cp hp =>
    intro k hk
    exact ⟨by simpa [run, hp] using hk, fun a ha => by cases ha⟩
  | bol s hs =>
    intro k hk
    refine ⟨?_, fun a ha => by cases ha⟩
    obtain ⟨pv, x, cp⟩ := s
    rcases hs with hs | hs <;> simp only at hs <;> subst hs <;> simpa [run] using hk
  | eol s hs =>
    intro k hk
    refine ⟨?_, fun a ha => by cases ha⟩
    obtain ⟨pv, x, cp⟩ := s
    rcases hs with hs | ⟨v, hs⟩ <;> simp only at hs <;> subst hs <;> simpa [run] using hk
  | bot s hs =>
    intro k hk
    refine ⟨?_, fun a ha => by cases ha⟩
    obtain ⟨pv, x, cp⟩ := s
    simp only at hs
    subst hs
    simpa [run] using hk
  | empty s =>
    intro k hk
    exact ⟨by simpa [run] using hk, fun a ha => by cases ha⟩
  | seq _ _ iha ihb =>
    intro k hk
    refine ⟨?_, fun a ha => by cases ha⟩
    simp only [run]
    exact (iha _ ((ihb k hk).1)).1
  | altL b _ iha =>
    intro k hk
    refine ⟨?_, fun a ha => by cases ha⟩
    simp only [run]
    have := (iha k hk).1
    split
    · rfl
    · rename_i hn
      rw [hn] at this
      cases this
  | altR a _ ihb =>
    intro k hk
    refine ⟨?_, fun a ha => by cases ha⟩
    simp only [run]
    split
    · rfl
    · exact (ihb k hk).1
  | starNil a s =>
    intro k hk
    have key : ∀ n, (starLoop (run a) n s k).isSome := by
      intro n
      cases n with
      | zero => simpa [starLoop] using hk
      | succ n =>
        simp only [starLoop]
        split
        · rfl
        · exact hk
    refine ⟨?_, ?_⟩
    · simp only [run]
      exact key _
    · intro a' ha' n _
      cases ha'
      exact key n
  | @starCons a s t u _ hlt _ iha ihs =>
    intro k hk
    have key : ∀ n, s.rest.length ≤ n → (starLoop (run a) n s k).isSome := by
      intro n hn
      cases n with
      | zero => omega
      | succ n =>
        simp only [starLoop]
        have h1 := (ihs k hk).2 a rfl n (by omega)
        have h2 := (iha (fun st' =>
          if st'.rest.length < s.rest.length then starLoop (run a) n st' k else none)
          (by simpa [hlt] using h1)).1
        split
        · rfl
        · rename_i hnone
          rw [hnone] at h2
          cases h2
    refine ⟨?_, ?_⟩
    · simp only [run]
      exact key _ (le_refl _)
    · intro a' ha' n hn
      cases ha'
      exact key n hn
  | group i _ iha =>
    intro k hk
    refine ⟨?_, fun a ha => by cases ha⟩
    simp only [run]
    exact (iha _ hk).1

theorem run_complete {r : RE} {s u : St} (h : Matches r s u) (k : St → Option St)
    (hk : (k u).isSome) : (run r s k).isSome :=
  (run_complete_aux h k hk).1

theorem lastOr_append (pv : Option Char) (x y : Str) :
    lastOr pv (x ++ y) = lastOr (lastOr pv x) y := by
  induction x generalizing pv with
  | nil => rfl
  | cons c cs ih => simp [lastOr, ih]

theorem lastOr_ne_none (pv : Option Char) (x : Str) (h : pv ≠ none ∨ x ≠ []) :
    lastOr pv x ≠ none := by
  induction x generalizing pv with
  | nil =>
    rcases h with h | h
    · exact h
    · exact absurd rfl h
  | cons c cs ih => exact ih (some c) (Or.inl (by simp))

theorem matches_rest {r : RE} {s t : St} (h : Matches r s t) :
    ∃ x, s.rest = x ++ t.rest ∧ t.prev = lastOr s.prev x := by
  induction h with
  | cls p pv c cs cp hp => exact ⟨[c], rfl, rfl⟩
  | bol s _ => exact ⟨[], rfl, rfl⟩
  | eol s _ => exact ⟨[], rfl, rfl⟩
  | bot s _ => exact ⟨[], rfl, rfl⟩
  | empty s => exact ⟨[], rfl, rfl⟩
  | seq _ _ iha ihb =>
    obtain ⟨x, hx, hp⟩ := iha
    obtain ⟨y, hy, hq⟩ := ihb
    exact ⟨x ++ y, by rw [hx, hy, List.append_assoc], by rw [hq, hp, lastOr_append]⟩
  | altL b _ iha => exact iha
  | altR a _ ihb => exact ihb
  | starNil a s => exact ⟨[], rfl, rfl⟩
  | starCons _ _ _ iha ihs =>
    obtain ⟨x, hx, hp⟩ := iha
    obtain ⟨y, hy, hq⟩ := ihs
    exact ⟨x ++ y, by rw [hx, hy, List.append_assoc], by rw [hq, hp, lastOr_append]⟩
  | group i _ iha => exact iha

theorem matches_seq {a b : RE} {s u : St} :
    Matches (.seq a b) s u ↔ ∃ t, Matches a s t ∧ Matches b t u := by
  constructor
  · intro h
    cases h with
    | seq ha hb => exact ⟨_, ha, hb⟩
  · rintro ⟨t, ha, hb⟩
    exact .seq ha hb

theorem matches_empty {s u : St} : Matches .empty s u ↔ u = s := by
  constructor
  · intro h
    cases h
    rfl
  · rintro rfl
    exact .empty _

theorem matches_alt {a b : RE} {s u : St} :
    Matches (.alt a b) s u ↔ Matches a s u ∨ Matches b s u := by
  constructor
  · intro h
    cases h with
    | altL _ ha => exact Or.inl ha
    | altR _ hb => exact Or.inr hb
  · rintro (h | h)
    · exact .altL b h
    · exact .altR a h

theorem matches_group {a : RE} {i : Nat} {s u : St} :
    Matches (.group i a) s u ↔
      ∃ t, Matches a s t ∧
        u = ⟨t.prev, t.rest, setCap t.caps i (s.rest.take (s.rest.length - t.rest.length))⟩ := by
  constructor
  · intro h
    cases h with
    | group _ ha => exact ⟨_, ha, rfl⟩
  · rintro ⟨t, ha, rfl⟩
    exact .group i ha

theorem matches_cls {p : Char → Bool} {s u : St} :
    Matches (.cls p) s u ↔
      ∃ c cs, s.rest = c :: cs ∧ p c = true ∧ u = ⟨some c, cs, s.caps⟩ := by
  constructor
  · intro h
    cases h with
    | cls _ pv c cs cp hp => exact ⟨c, cs, rfl, hp, rfl⟩
  · rintro ⟨c, cs, hs, hp, rfl⟩
    obtain ⟨pv, x, cp⟩ := s
    simp only at hs
    subst hs
    exact .cls p pv c cs cp hp

theorem matches_chr {c : Char} {s u : St} :
    Matches (.chr c) s u ↔ ∃ cs, s.rest = c :: cs ∧ u = ⟨some c, cs, s.caps⟩ := by
  unfold RE.chr
  rw [matches_cls]
  constructor
  · rintro ⟨d, cs, hs, hp, rfl⟩
    have : d = c := by simpa using hp
    subst this
    exact ⟨cs, hs, rfl⟩
  · rintro ⟨cs, hs, rfl⟩
    exact ⟨c, cs, hs, by simp, rfl⟩

theorem matches_lit {x : Str} {s u : St} :
    Matches (.lit x) s u ↔ ∃ t, s.rest = x ++ t ∧ u = ⟨lastOr s.prev x, t, s.caps⟩ := by
  induction x generalizing s with
  | nil =>
    rw [lit_nil, matches_empty]
    constructor
    · rintro rfl
      exact ⟨u.rest, rfl, rfl⟩
    · rintro ⟨t, ht, rfl⟩
      obtain ⟨pv, r, cp⟩ := s
      simp only [List.nil_append] at ht
      subst ht
      rfl
  | cons c cs ih =>
    rw [lit_cons, matches_seq]
    constructor
    · rintro ⟨t, hc, hl⟩
      obtain ⟨ds, hs, rfl⟩ := matches_chr.mp hc
      obtain ⟨t, ht, rfl⟩ := ih.mp hl
      simp only at ht
      exact ⟨t, by rw [hs, ht]; rfl, rfl⟩
    · rintro ⟨t, hs, rfl⟩
      refine ⟨⟨some c, cs ++ t, s.caps⟩, matches_chr.mpr ⟨cs ++ t, hs, rfl⟩, ?_⟩
      exact ih.mpr ⟨t, rfl, rfl⟩

theorem matches_star_cls {p : Char → Bool} {s u : St} :
    Matches (.star (.cls p)) s u ↔
      ∃ x, s.rest = x ++ u.rest ∧ (∀ c ∈ x, p c = true) ∧
        u = ⟨lastOr s.prev x, u.rest, s.caps⟩ := by
  constructor
  · intro h
    generalize hr : RE.star (.cls p) = r at h
    induction h with
    | starNil a s => exact ⟨[], rfl, by simp, rfl⟩
    | starCons ha hlt _ _ ihs =>
      cases hr
      obtain ⟨c, cs, hs, hp, rfl⟩ := matches_cls.mp ha
      obtain ⟨x, hx, hall, hu⟩ := ihs rfl
      simp only at hx hu
      refine ⟨c :: x, by rw [hs, hx]; rfl, ?_, ?_⟩
      · intro d hd
        rcases List.mem_cons.mp hd with rfl | hd
        · exact hp
        · exact hall d hd
      · rw [hu]
        rfl
    | _ => cases hr
  · rintro ⟨x, hs, hall, hu⟩
    rw [hu]
    clear hu
    obtain ⟨pv, r, cp⟩ := s
    simp only at hs ⊢
    subst hs
    induction x generalizing pv with
    | nil => exact .starNil _ _
    | cons c cs ih =>
      refine .starCons (.cls p pv c (cs ++ u.rest) cp (hall c (List.mem_cons_self _ _)))
        (by simp) ?_
      exact ih (fun d hd => hall d (List.mem_cons_of_mem _ hd)) (some c)

theorem take_consumed (x t : Str) : (x ++ t).take ((x ++ t).length - t.length) = x := by
  simp

theorem searchFrom_some {r : RE} {pv : Option Char} {s : Str} {i : Nat} {st : St}
    (h : searchFrom r pv s = some (i, st)) :
    i ≤ s.length ∧ run r ⟨lastOr pv (s.take i), s.drop i, noCaps⟩ some = some st ∧
      ∀ j, j < i → run r ⟨lastOr pv (s.take j), s.drop j, noCaps⟩ some = none := by
  induction s generalizing pv i with
  | nil =>
    simp only [searchFrom, Option.map_eq_some'] at h
    obtain ⟨a, ha, he⟩ := h
    cases he
    exact ⟨le_refl _, ha, fun j hj => absurd hj (Nat.not_lt_zero _)⟩
  | cons c cs ih =>
    simp only [searchFrom] at h
    split at h
    · rename_i st' hr
      cases h
      exact ⟨Nat.zero_le _, hr, fun j hj => absurd hj (Nat.not_lt_zero _)⟩
    · rename_i hr
      simp only [Option.map_eq_some'] at h
      obtain ⟨⟨i', st'⟩, ha, he⟩ := h
      cases he
      obtain ⟨h1, h2, h3⟩ := ih ha
      refine ⟨Nat.succ_le_succ h1, h2, ?_⟩
      intro j hj
      cases j with
      | zero => exact hr
      | succ j => exact h3 j (Nat.lt_of_succ_lt_succ hj)

theorem searchFrom_none {r : RE} {pv : Option Char} {s : Str}
    (h : searchFrom r pv s = none) :
    ∀ j, j ≤ s.length → run r ⟨lastOr pv (s.take j), s.drop j, noCaps⟩ some = none := by
  induction s generalizing pv with
  | nil =>
    intro j hj
    simp only [searchFrom, Option.map_eq_none'] at h
    have : j = 0 := Nat.le_zero.mp hj
    subst this
    exact h
  | cons c cs ih =>
    simp only [searchFrom] at h
    split at h
    · cases h
    · rename_i hr
      simp only [Option.map_eq_none'] at h
      intro j hj
      cases j with
      | zero => exact hr
      | succ j => exact ih h j (Nat.le_of_succ_le_succ hj)

theorem searchFrom_isSome_iff (r : RE) (pv : Option Char) (s : Str) :
    (searchFrom r pv s).isSome ↔
      ∃ pre t u, s = pre ++ t ∧ Matches r ⟨lastOr pv pre, t, noCaps⟩ u := by
  constructor
  · intro h
    obtain ⟨⟨i, st⟩, hs⟩ := Option.isSome_iff_exists.mp h
    obtain ⟨_, h2, _⟩ := searchFrom_some hs
    obtain ⟨u, hu, _⟩ := run_sound _ _ _ _ h2
    exact ⟨s.take i, s.drop i, u, (List.take_append_drop i s).symm, hu⟩
  · rintro ⟨pre, t, u, rfl, hm⟩
    by_contra hn
    have hnone : searchFrom r pv (pre ++ t) = none := by
      cases hsr : searchFrom r pv (pre ++ t) with
      | none => rfl
      | some x => rw [hsr] at hn; exact absurd rfl hn
    have := searchFrom_none hnone pre.length (by simp)
    simp only [List.take_left', List.drop_left'] at this
    have hc := run_complete hm some rfl
    rw [this] at hc
    cases hc

theorem matches_clause {phrase s : Str} {pv : Option Char} {cp : Nat → Option Str} {u : St} :
    Matches (clauseRE phrase) ⟨pv, s, cp⟩ u ↔
      ∃ x1 x2, s = x1 ++ phrase ++ x2 ++ backquote :: u.rest ∧
        newline ∉ x1 ∧ newline ∉ x2 ∧
        u = ⟨some backquote, u.rest, setCap (setCap cp 1 x1) 2 x2⟩ := by
  simp only [clauseRE, RE.cat, List.foldr_cons, List.foldr_nil, matches_seq, matches_group,
    matches_empty, RE.any, matches_star_cls, matches_lit, matches_chr]
  constructor
  · rintro ⟨t1, ⟨t1', ⟨x1, h1, hx1, e1⟩, rfl⟩, t2, ⟨y, hy, rfl⟩, t3,
      ⟨t3', ⟨x2, h2, hx2, e2⟩, rfl⟩, t4, ⟨cs, hcs, rfl⟩, rfl⟩
    simp only at h1 hy h2 hcs e1 e2 ⊢
    refine ⟨x1, x2, ?_, ?_, ?_, ?_⟩
    · rw [h1, hy, h2, hcs]
      simp
    · intro hm
      simpa using hx1 _ hm
    · intro hm
      simpa using hx2 _ hm
    · rw [e2, e1]
      simp only [St.mk.injEq, true_and]
      rw [h1, take_consumed, h2, take_consumed]
  · rintro ⟨x1, x2, hs, hx1, hx2, hu⟩
    refine ⟨_, ⟨⟨lastOr pv x1, phrase ++ x2 ++ backquote :: u.rest, cp⟩,
      ⟨x1, by simp [hs], ?_, rfl⟩, rfl⟩, _, ⟨x2 ++ backquote :: u.rest, by simp, rfl⟩, _,
      ⟨⟨lastOr (lastOr (lastOr pv x1) phrase) x2, backquote :: u.rest, setCap cp 1
        (s.take (s.length - (phrase ++ x2 ++ backquote :: u.rest).length))⟩,
        ⟨x2, rfl, ?_, rfl⟩, rfl⟩, _, ⟨u.rest, rfl, rfl⟩, ?_⟩
    · intro c hc
      have : c ≠ newline := fun h => hx1 (h ▸ hc)
      simpa using this
    · intro c hc
      have : c ≠ newline := fun h => hx2 (h ▸ hc)
      simpa using this
    · rw [hu]
      simp only [St.mk.injEq, true_and]
      have e1 : s.take (s.length - (phrase ++ x2 ++ backquote :: u.rest).length) = x1 := by
        rw [hs]
        simp [List.append_assoc]
      rw [e1, take_consumed]

theorem find_clause_some {phrase s : Str} {m : List Str}
    (h : findStringSubmatch ⟨clauseRE phrase, 2⟩ s = some m) :
    ∃ pre x1 x2 post, s = pre ++ (x1 ++ phrase ++ x2 ++ backquote :: post) ∧
      newline ∉ x1 ∧ newline ∉ x2 ∧ m = [x1 ++ phrase ++ x2 ++ [backquote], x1, x2] ∧
      ∀ j, j < pre.length →
        run (clauseRE phrase) ⟨lastOr none (s.take j), s.drop j, noCaps⟩ some = none := by
  unfold findStringSubmatch at h
  split at h
  · cases h
  · rename_i i st hs
    simp only [Option.some.injEq] at h
    obtain ⟨hi, hrun, hleft⟩ := searchFrom_some hs
    obtain ⟨u, hu, hk⟩ := run_sound _ _ _ _ hrun
    cases hk
    obtain ⟨x1, x2, hd, hx1, hx2, hst⟩ := matches_clause.mp hu
    refine ⟨s.take i, x1, x2, st.rest, ?_, hx1, hx2, ?_, ?_⟩
    · rw [← hd, List.take_append_drop]
    · have ht := take_consumed (x1 ++ phrase ++ x2 ++ [backquote]) st.rest
      have e : x1 ++ phrase ++ x2 ++ [backquote] ++ st.rest =
          x1 ++ phrase ++ x2 ++ backquote :: st.rest := by simp
      rw [e] at ht
      rw [← h, submatches, hd, ht, hst]
      simp [List.range_succ, setCap]
    · intro j hj
      apply hleft
      simpa [Nat.min_eq_left hi] using hj

theorem clause_complete (phrase x1 x2 post : Str) (pv : Option Char)
    (hx1 : newline ∉ x1) (hx2 : newline ∉ x2) :
    (run (clauseRE phrase) ⟨pv, x1 ++ phrase ++ x2 ++ backquote :: post, noCaps⟩ some).isSome := by
  apply run_complete (u := ⟨some backquote, post, setCap (setCap noCaps 1 x1) 2 x2⟩) _ some rfl
  exact matches_clause.mpr ⟨x1, x2, rfl, hx1, hx2, rfl⟩

theorem find_clause_line {phrase s : Str} {m : List Str} (hs : newline ∉ s)
    (h : findStringSubmatch ⟨clauseRE phrase, 2⟩ s = some m) :
    ∃ x1 x2 post, s = x1 ++ phrase ++ x2 ++ backquote :: post ∧
      m = [x1 ++ phrase ++ x2 ++ [backquote], x1, x2] := by
  obtain ⟨pre, x1, x2, post, hd, hx1, hx2, hm, hleft⟩ := find_clause_some h
  cases pre with
  | nil => exact ⟨x1, x2, post, by simpa using hd, hm⟩
  | cons c cs =>
    exfalso
    have h0 := hleft 0 (by simp)
    simp only [List.take_zero, lastOr, List.drop_zero] at h0
    have hpre : newline ∉ (c :: cs) ++ x1 := by
      intro hmem
      apply hs
      rw [hd]
      rcases List.mem_append.mp hmem with h1 | h1
      · exact List.mem_append_left _ h1
      · exact absurd h1 hx1
    have hc := clause_complete phrase ((c :: cs) ++ x1) x2 post none hpre hx2
    have e : (c :: cs) ++ x1 ++ phrase ++ x2 ++ backquote :: post = s := by
      rw [hd]; simp
    rw [e, h0] at hc
    cases hc

theorem find_clause_isSome_iff (phrase s : Str) :
    (findStringSubmatch ⟨clauseRE phrase, 2⟩ s).isSome ↔
      ∃ a x b, s = a ++ phrase ++ x ++ backquote :: b ∧ newline ∉ x := by
  have e : (findStringSubmatch ⟨clauseRE phrase, 2⟩ s).isSome =
      (searchFrom (clauseRE phrase) none s).isSome := by
    unfold findStringSubmatch
    cases searchFrom (clauseRE phrase) none s <;> rfl
  rw [e, searchFrom_isSome_iff]
  constructor
  · rintro ⟨pre, t, u, rfl, hm⟩
    obtain ⟨x1, x2, ht, -, hx2, -⟩ := matches_clause.mp hm
    exact ⟨pre ++ x1, x2, u.rest, by rw [ht]; simp, hx2⟩
  · rintro ⟨a, x, b, rfl, hx⟩
    refine ⟨a, phrase ++ x ++ backquote :: b,
      ⟨some backquote, b, setCap (setCap noCaps 1 []) 2 x⟩, by simp, ?_⟩
    exact matches_clause.mpr ⟨[], x, by simp, by simp, hx, rfl⟩

theorem find_clause_mono {phrase s t : Str} (hts : t <:+: s)
    (h : (findStringSubmatch ⟨clauseRE phrase, 2⟩ t).isSome) :
    (findStringSubmatch ⟨clauseRE phrase, 2⟩ s).isSome := by
  rw [find_clause_isSome_iff] at h ⊢
  obtain ⟨a, x, b, rfl, hx⟩ := h
  obtain ⟨p, q, rfl⟩ := hts
  exact ⟨p ++ a, x, b ++ q, by simp, hx⟩

theorem replaceAllAux_single (a b : Char) (s : Str) :
    replaceAllAux [a] [b] 0 s = s.map (fun c => if c = a then b else c) := by
  induction s with
  | nil => rfl
  | cons c cs ih =>
    simp only [replaceAllAux, List.length_singleton, Nat.sub_self, ih, List.map_cons]
    by_cases h : c = a
    · subst h
      simp [List.isPrefixOf]
    · have h' : ¬ a = c := fun e => h e.symm
      simp [List.isPrefixOf, h, h']

theorem replaceAll_single (a b : Char) (s : Str) :
    replaceAll s [a] [b] = s.map (fun c => if c = a then b else c) :=
  replaceAllAux_single a b s

theorem replaceAllAux_absent (old new : Str) (s : Str) (h : ¬ old <:+: s) :
    replaceAllAux old new 0 s = s := by
  induction s with
  | nil => rfl
  | cons c cs ih =>
    have hp : ¬ old <+: c :: cs := fun hp => h hp.isInfix
    have hi : ¬ old <:+: cs := fun ⟨u, v, e⟩ => h ⟨c :: u, v, by simp [← e]⟩
    simp only [replaceAllAux]
    rw [if_neg (by simpa using hp), ih hi]

theorem replaceAll_absent (old new : Str) (s : Str) (hold : old ≠ []) (h : ¬ old <:+: s) :
    replaceAll s old new = s := by
  cases old with
  | nil => exact absurd rfl hold
  | cons c cs => exact replaceAllAux_absent _ _ _ h

theorem infix_of_infix_map (f : Char → Char) (x s : Str)
    (hf : ∀ c, f c ∈ x → f c = c) (h : x <:+: s.map f) : x <:+: s := by
  obtain ⟨u, v, e⟩ := h
  obtain ⟨s1, v', hs, h1, hv⟩ := List.append_eq_map_iff.mp e
  obtain ⟨u', x', hs1, hu, hx⟩ := List.map_eq_append_iff.mp h1
  have : x' = x := by
    rw [← hx]
    symm
    calc x'.map f = x'.map id := by
          apply List.map_congr_left
          intro c hc
          apply hf
          rw [← hx]
          exact List.mem_map_of_mem f hc
      _ = x' := List.map_id x'
  subst this
  exact ⟨u', v', by rw [hs, hs1]⟩

theorem trimSpace_sub (s : Str) : trimSpace s <:+: s :=
  (List.rdropWhile_prefix isSpace _).isInfix.trans (List.dropWhile_suffix isSpace).isInfix

theorem not_mem_of_infix {c : Char} {t s : Str} (h : t <:+: s) (hc : c ∉ s) : c ∉ t :=
  fun hm => hc (h.subset hm)

theorem newline_not_mem_stripAnnotations (comment : Str) :
    newline ∉ stripAnnotations comment := by
  unfold stripAnnotations
  apply not_mem_of_infix (trimSpace_sub _)
  rw [replaceAll_single]
  intro h
  obtain ⟨c, -, hc⟩ := List.mem_map.mp h
  by_cases h1 : c = newline
  · rw [if_pos h1] at hc
    exact absurd hc (by decide)
  · rw [if_neg h1] at hc
    exact h1 hc

theorem matches_caps_frame {r : RE} {s t : St} (h : Matches r s t) (i : Nat)
    (hi : i ∉ r.groups) : t.caps i = s.caps i := by
  induction h with
  | cls p pv c cs cp hp => rfl
  | bol s _ => rfl
  | eol s _ => rfl
  | bot s _ => rfl
  | empty s => rfl
  | seq _ _ iha ihb =>
    simp only [RE.groups, List.mem_append, not_or] at hi
    rw [ihb hi.2, iha hi.1]
  | altL b _ iha =>
    simp only [RE.groups, List.mem_append, not_or] at hi
    exact iha hi.1
  | altR a _ ihb =>
    simp only [RE.groups, List.mem_append, not_or] at hi
    exact ihb hi.2
  | starNil a s => rfl
  | starCons _ _ _ iha ihs =>
    simp only [RE.groups] at hi iha ihs
    rw [ihs hi, iha hi]
  | group j _ iha =>
    simp only [RE.groups, List.mem_cons, not_or] at hi
    simp only [setCap, if_neg hi.1]
    exact iha hi.2

theorem matches_bot {s u : St} : Matches .bot s u ↔ s.prev = none ∧ u = s := by
  constructor
  · intro h
    cases h with
    | bot _ hp => exact ⟨hp, rfl⟩
  · rintro ⟨hp, rfl⟩
    exact .bot _ hp

theorem matches_opt {a : RE} {s u : St} :
    Matches (.opt a) s u ↔ Matches a s u ∨ u = s := by
  unfold RE.opt
  rw [matches_alt, matches_empty]

theorem matches_asideGroup {s u : St} (h : Matches (.opt asideGroup) s u) :
    ∃ a, s.rest = a ++ u.rest ∧ asideText a ∧ u.prev = lastOr s.prev a ∧
      (u.caps 1).getD [] = (if a = [] then (s.caps 1).getD [] else a) := by
  rcases matches_opt.mp h with h | rfl
  · simp only [asideGroup, RE.cat, List.foldr_cons, List.foldr_nil, matches_seq, matches_group,
      matches_empty, RE.any, matches_star_cls, matches_chr] at h
    obtain ⟨t, ⟨t1, ⟨cs1, h1, rfl⟩, t2, ⟨y, h2, hy, e2⟩, t3, ⟨cs3, h3, rfl⟩, t4,
      ⟨cs4, h4, rfl⟩, rfl⟩, rfl⟩ := h
    simp only at h2 h3 h4 e2 ⊢
    have hs : s.rest = ('*' :: y ++ ['*', ' ']) ++ cs4 := by
      rw [h1, h2, h3, h4]
      simp
    refine ⟨'*' :: y ++ ['*', ' '], hs, Or.inr ⟨y, ?_, rfl⟩, ?_, ?_⟩
    · intro hm
      simpa using hy _ hm
    · simp [lastOr_append, lastOr]
    · rw [hs, take_consumed]
      simp [setCap]
  · exact ⟨[], rfl, Or.inl rfl, rfl, by simp⟩

theorem matches_group_lit {g : Nat} {w : Str} {s t : St}
    (h : Matches (.group g (.lit w)) s t) : s.rest = w ++ t.rest := by
  obtain ⟨t1, h1, rfl⟩ := matches_group.mp h
  obtain ⟨x, hx, rfl⟩ := matches_lit.mp h1
  exact hx

theorem matches_verbAlt {g j : Nat} {w w2 : Str} {s t : St}
    (h : Matches (.group g (.cat [.lit w, .opt (.group j (.lit w2))])) s t) :
    s.rest = w ++ t.rest ∨ s.rest = (w ++ w2) ++ t.rest := by
  obtain ⟨t1, h1, rfl⟩ := matches_group.mp h
  simp only [RE.cat, List.foldr_cons, List.foldr_nil, matches_seq, matches_empty] at h1
  obtain ⟨t2, h2, t3, h3, rfl⟩ := h1
  obtain ⟨x, hx, rfl⟩ := matches_lit.mp h2
  rcases matches_opt.mp h3 with h3 | rfl
  · have := matches_group_lit h3
    simp only at this
    right
    rw [hx, this, List.append_assoc]
  · left
    exact hx

theorem matches_verbGroup {s u : St} (h : Matches (.opt verbGroup) s u) :
    ∃ v, s.rest = v ++ u.rest ∧ v ∈ verbPhrases ∧ u.prev = lastOr s.prev v ∧
      u.caps 1 = s.caps 1 := by
  have hc : u.caps 1 = s.caps 1 :=
    matches_caps_frame h 1 (by simp [RE.opt, verbGroup, RE.groups, RE.cat, RE.lit, RE.chr])
  obtain ⟨v, hv, hp⟩ := matches_rest h
  refine ⟨v, hv, ?_, hp, hc⟩
  have key : ∀ x : Str, x ∈ verbPhrases → s.rest = x ++ u.rest → v ∈ verbPhrases := by
    intro x hx hs
    rw [hs] at hv
    rw [← List.append_cancel_right hv]
    exact hx
  rcases matches_opt.mp h with h1 | rfl
  · simp only [verbGroup] at h1
    obtain ⟨t, h2, rfl⟩ := matches_group.mp h1
    rcases matches_alt.mp h2 with h3 | h3
    · rcases matches_alt.mp h3 with h4 | h4
      · rcases matches_verbAlt h4 with h5 | h5
        · exact key _ (by simp [verbPhrases]) h5
        · exact key _ (by simp [verbPhrases]) h5
      · rcases matches_verbAlt h4 with h5 | h5
        · exact key _ (by simp [verbPhrases]) h5
        · exact key _ (by simp [verbPhrases]) h5
    · have h5 := matches_group_lit h3
      exact key _ (by simp [verbPhrases]) h5
  · exact key [] (by simp [verbPhrases]) rfl

theorem matches_typeName {name d : Str} {cp : Nat → Option Str} {u : St}
    (h : Matches (typeNamePattern name).re ⟨none, d, cp⟩ u) :
    ∃ a v, d = name ++ ' ' :: (a ++ v ++ u.rest) ∧ asideText a ∧ v ∈ verbPhrases ∧
      u.prev = lastOr (some ' ') (a ++ v) ∧
      (u.caps 1).getD [] = (if a = [] then (cp 1).getD [] else a) := by
  simp only [typeNamePattern, RE.cat, List.foldr_cons, List.foldr_nil, matches_seq,
    matches_bot, matches_lit, matches_chr, matches_empty] at h
  obtain ⟨t1, ⟨-, rfl⟩, t2, ⟨w, hw, rfl⟩, t3, ⟨cs, hcs, rfl⟩, t4, ha, t5, hv, rfl⟩ := h
  simp only at hw hcs
  obtain ⟨a, hsa, hat, hpa, hca⟩ := matches_asideGroup ha
  obtain ⟨v, hsv, hvm, hpv, hcv⟩ := matches_verbGroup hv
  simp only at hsa hpa hca
  refine ⟨a, v, ?_, hat, hvm, ?_, ?_⟩
  · rw [hw, hcs, hsa, hsv]
    simp
  · rw [hpv, hpa, lastOr_append]
  · rw [hcv, hca]

theorem searchFrom_bot (r : RE) (c : Char) (s : Str) :
    searchFrom (.seq .bot r) (some c) s = none := by
  induction s generalizing c with
  | nil => rfl
  | cons d ds ih => simp [searchFrom, run, ih]

theorem replaceLoop_bot (r : RE) (n : Nat) (repl : List Str → Str) (src : Str)
    (fuel lastEnd pos : Nat) (c : Char) (rest : Str) :
    replaceLoop ⟨.seq .bot r, n⟩ repl src fuel lastEnd pos (some c) rest = src.drop lastEnd := by
  cases fuel with
  | zero => rfl
  | succ fuel => simp [replaceLoop, searchFrom_bot]

theorem typeNamePattern_re (name : Str) :
    (typeNamePattern name).re =
      .seq .bot (.cat [.lit name, .chr ' ', .opt asideGroup, .opt verbGroup]) := rfl

theorem stripTypeName_eq (name d : Str) :
    stripTypeName name d =
      match run (typeNamePattern name).re ⟨none, d, noCaps⟩ some with
      | none => d
      | some st => (st.caps 1).getD [] ++ st.rest := by
  have hsearch : searchFrom (typeNamePattern name).re none d =
      (run (typeNamePattern name).re ⟨none, d, noCaps⟩ some).map (fun st => (0, st)) := by
    cases d with
    | nil => rfl
    | cons c cs =>
      simp only [searchFrom]
      cases hr : run (typeNamePattern name).re ⟨none, c :: cs, noCaps⟩ some with
      | some st => rfl
      | none =>
        simp only [Option.map_none']
        rw [typeNamePattern_re, searchFrom_bot]
        rfl
  unfold stripTypeName replaceAllString
  simp only [replaceLoop, hsearch]
  cases hr : run (typeNamePattern name).re ⟨none, d, noCaps⟩ some with
  | none => simp
  | some st =>
    obtain ⟨u, hu, hk⟩ := run_sound _ _ _ _ hr
    cases hk
    obtain ⟨a, v, hd, -, -, hp, -⟩ := matches_typeName hu
    have hlen : st.rest.length < d.length := by
      rw [hd]
      simp
      omega
    obtain ⟨c, hc⟩ : ∃ c, st.prev = some c := by
      cases hst : st.prev with
      | none =>
        rw [hst] at hp
        exact absurd hp.symm (lastOr_ne_none _ _ (Or.inl (by simp)))
      | some c => exact ⟨c, rfl⟩
    have hstop : ¬ (d.length - st.rest.length ≤ 0) := by omega
    have hdrop : d.drop (d.length - st.rest.length) = st.rest := by
      have h1 : d = (name ++ ' ' :: (a ++ v)) ++ st.rest := by
        rw [hd]; simp
      have h2 : d.length - st.rest.length = (name ++ ' ' :: (a ++ v)).length := by
        have := congrArg List.length h1
        simp only [List.length_append, List.length_cons] at this ⊢
        omega
      rw [h2]
      conv_lhs => rw [h1]
      exact List.drop_left' rfl
    simp only [Option.map_some', Nat.zero_add, List.drop_zero, Nat.sub_self, List.take_zero,
      List.nil_append, or_true, if_true, hstop, if_false, hc]
    have e : typeNamePattern name =
        ⟨.seq .bot (.cat [.lit name, .chr ' ', .opt asideGroup, .opt verbGroup]), 7⟩ := rfl
    rw [e, replaceLoop_bot, hdrop]
    simp [submatches, List.range_succ]

theorem stripTypeName_cases (name d : Str) :
    stripTypeName name d = d ∨
      ∃ a v r, d = name ++ ' ' :: (a ++ v ++ r) ∧ asideText a ∧ v ∈ verbPhrases ∧
        stripTypeName name d = a ++ r := by
  rw [stripTypeName_eq]
  cases hr : run (typeNamePattern name).re ⟨none, d, noCaps⟩ some with
  | none => exact Or.inl rfl
  | some st =>
    right
    obtain ⟨u, hu, hk⟩ := run_sound _ _ _ _ hr
    cases hk
    obtain ⟨a, v, hd, ha, hv, -, hc⟩ := matches_typeName hu
    refine ⟨a, v, st.rest, hd, ha, hv, ?_⟩
    simp only [hc]
    by_cases h : a = []
    · simp [h, noCaps]
    · simp [h]

theorem stripTypeName_of_not_prefix (name d : Str) (h : ¬ (name ++ [' ']) <+: d) :
    stripTypeName name d = d := by
  rcases stripTypeName_cases name d with h1 | ⟨a, v, r, hd, -, -, -⟩
  · exact h1
  · exact absurd ⟨a ++ v ++ r, by rw [hd]; simp⟩ h

theorem submatches_getD_one (re : RE) (n : Nat) (text : Str) (st : St) :
    (submatches ⟨re, n + 1⟩ text st).getD 1 [] = (st.caps 1).getD [] := by
  simp [submatches, List.range_succ_eq_map]

theorem find_group1 {r : RE} {n : Nat} {s : Str} {m : List Str} (h1 : 1 ∉ r.groups)
    (h : findStringSubmatch ⟨.seq (.group 1 (.star .any)) r, n + 1⟩ s = some m) :
    ∃ pre post, s = pre ++ m.getD 1 [] ++ post ∧ newline ∉ m.getD 1 [] := by
  unfold findStringSubmatch at h
  split at h
  · cases h
  · rename_i i st hs
    simp only [Option.some.injEq] at h
    obtain ⟨-, hrun, -⟩ := searchFrom_some hs
    obtain ⟨u, hu, hk⟩ := run_sound _ _ _ _ hrun
    cases hk
    obtain ⟨t, hg, hr⟩ := matches_seq.mp hu
    obtain ⟨t', hstar, rfl⟩ := matches_group.mp hg
    obtain ⟨x, hx, hall, -⟩ := matches_star_cls.mp hstar
    simp only at hx
    have hcap : (st.caps 1).getD [] = x := by
      rw [matches_caps_frame hr 1 h1]
      simp only [setCap, if_true, Option.getD_some]
      rw [hx, take_consumed]
    have hm : m.getD 1 [] = x := by
      rw [← h, submatches_getD_one, hcap]
    have hnl : newline ∉ x := by
      intro hmem
      simpa [RE.any] using hall _ hmem
    refine ⟨s.take i, t'.rest, ?_, ?_⟩
    · rw [hm, List.append_assoc, ← hx, List.take_append_drop]
    · rw [hm]; exact hnl

theorem handleComment_eq {I G V X R : Type} (env : Env I G V X R) (dg : Generator I G)
    (rawName comment : Str) (d d1 : Definition V R) (info : Option EnumCommentInformation)
    (hpre : (dg.Strict && (env.interpretReference rawName).2 != [] &&
      !hasPrefix comment ((env.interpretReference rawName).2 ++ " ".toList)) = false)
    (henum : env.handleEnumComments dg.Importer d comment = .ok (d1, info)) :
    handleComment env dg rawName comment d =
      match extractDefault env (stripAnnotations (workingComment comment info)) d1 with
      | .error f => .error f
      | .ok (s1, d2) =>
        match extractSchemaType env dg s1 d2 with
        | .error f => .error f
        | .ok (s2, nd, d3, g) =>
          finishComment env dg.Strict (env.interpretReference rawName).2
            (extractExample s2 d3).1 (synthesizedFragment info)
            (requiredOf (workingComment comment info)) nd (extractExample s2 d3).2 g := by
  unfold handleComment
  simp only [hpre, henum]
  cases info <;> rfl

theorem handleComment_ok {I G V X R : Type} {env : Env I G V X R} {dg : Generator I G}
    {rawName comment : Str} {d : Definition V R} {res : Meta × Definition V R × G}
    (hok : handleComment env dg rawName comment d = .ok res) :
    ∃ d1 info s1 d2 s2 nd d3 g,
      (dg.Strict && (env.interpretReference rawName).2 != [] &&
        !hasPrefix comment ((env.interpretReference rawName).2 ++ " ".toList)) = false ∧
      env.handleEnumComments dg.Importer d comment = .ok (d1, info) ∧
      extractDefault env (stripAnnotations (workingComment comment info)) d1 = .ok (s1, d2) ∧
      extractSchemaType env dg s1 d2 = .ok (s2, nd, d3, g) ∧
      finishComment env dg.Strict (env.interpretReference rawName).2
        (extractExample s2 d3).1 (synthesizedFragment info)
        (requiredOf (workingComment comment info)) nd (extractExample s2 d3).2 g = .ok res := by
  cases hpre : (dg.Strict && (env.interpretReference rawName).2 != [] &&
      !hasPrefix comment ((env.interpretReference rawName).2 ++ " ".toList)) with
  | true =>
    unfold handleComment at hok
    simp only [hpre, if_true] at hok
    cases hok
  | false =>
    cases henum : env.handleEnumComments dg.Importer d comment with
    | error e =>
      unfold handleComment at hok
      simp only [hpre, henum] at hok
      cases hok
    | ok r =>
      obtain ⟨d1, info⟩ := r
      rw [handleComment_eq env dg rawName comment d d1 info hpre henum] at hok
      split at hok
      · cases hok
      · rename_i s1 d2 h1
        split at hok
        · cases hok
        · rename_i s2 nd d3 g h2
          exact ⟨d1, info, s1, d2, s2, nd, d3, g, rfl, rfl, h1, h2, hok⟩

theorem finishComment_ok {I G V X R : Type} {env : Env I G V X R} {strict : Bool}
    {name description synth : Str} {required noDerive : Bool} {d : Definition V R} {g : G}
    {res : Meta × Definition V R × G}
    (h : finishComment env strict name description synth required noDerive d g = .ok res) :
    plainName name = true ∧
    res = (⟨required, noDerive⟩,
      { d with
        Description := joinIfNotEmpty " ".toList [stripTypeName name description, synth]
        HTMLDescription := trimSpace (replaceAllString pTags
          (env.markdown (joinIfNotEmpty " ".toList [stripTypeName name description, synth]))
          (fun _ => [])) }, g) := by
  unfold finishComment removeTypeNameFromComment at h
  by_cases hp : plainName name = true
  · simp only [hp, if_true] at h
    split at h
    · cases h
    · split at h
      · cases h
      · simp only [Except.ok.injEq] at h
        exact ⟨hp, h.symm⟩
  · simp only [hp] at h
    cases h

theorem joinIfNotEmpty_pair_nil (sep x : Str) : joinIfNotEmpty sep [x, []] = x := by
  cases x with
  | nil => rfl
  | cons c cs => simp [joinIfNotEmpty, join, List.intercalate]

theorem infix_split {x u w : Str} {c : Char} (hc : c ∉ x) (h : x <:+: u ++ c :: w) :
    x <:+: u ∨ x <:+: w := by
  obtain ⟨p, q, e⟩ := h
  rw [List.append_assoc] at e
  rcases List.append_eq_append_iff.mp e with ⟨a, hu, hxq⟩ | ⟨b, hp, hcw⟩
  · rcases List.append_eq_append_iff.mp hxq with ⟨b, ha, hq⟩ | ⟨b, hx, hcw⟩
    · left
      exact ⟨p, b, by rw [hu, ha, List.append_assoc]⟩
    · cases b with
      | nil =>
        left
        simp only [List.append_nil] at hx
        exact ⟨p, [], by rw [hu, hx, List.append_nil]⟩
      | cons b bs =>
        simp only [List.cons_append, List.cons.injEq] at hcw
        exact absurd (by rw [hx, hcw.1]; simp) hc
  · cases b with
    | nil =>
      simp only [List.nil_append] at hcw
      cases x with
      | nil => exact Or.inl (List.nil_infix)
      | cons y ys =>
        simp only [List.cons_append, List.cons.injEq] at hcw
        exact absurd (by rw [hcw.1]; simp) hc
    | cons b bs =>
      simp only [List.cons_append, List.cons.injEq] at hcw
      right
      exact ⟨bs, q, by rw [hcw.2, List.append_assoc]⟩

theorem infix_stripTypeName {x name d : Str} (hx : ' ' ∉ x)
    (h : x <:+: stripTypeName name d) : x <:+: d := by
  rcases stripTypeName_cases name d with h1 | ⟨a, v, r, hd, ha, -, h1⟩
  · rwa [h1] at h
  · rw [h1] at h
    have hr : r <:+: d := ⟨name ++ ' ' :: (a ++ v), [], by rw [hd]; simp⟩
    have hainf : a <:+: d := ⟨name ++ [' '], v ++ r, by rw [hd]; simp⟩
    rcases ha with rfl | ⟨y, -, rfl⟩
    · exact (by simpa using h : x <:+: r).trans hr
    · have e : '*' :: y ++ ['*', ' '] ++ r = ('*' :: y ++ ['*']) ++ ' ' :: r := by simp
      rw [e] at h
      rcases infix_split hx h with h2 | h2
      · have h3 : ('*' :: y ++ ['*']) <:+: ('*' :: y ++ ['*', ' ']) := ⟨[], [' '], by simp⟩
        exact h2.trans (h3.trans hainf)
      · exact h2.trans hr

theorem extractDefault_sub {I G V X R : Type} {env : Env I G V X R} {s s' : Str}
    {d d' : Definition V R} (h : extractDefault env s d = .ok (s', d')) : s' <:+: s := by
  unfold extractDefault at h
  split at h
  · rename_i m hm
    split at h
    · cases h
    · simp only [Except.ok.injEq, Prod.mk.injEq] at h
      obtain ⟨pre, post, hs, -⟩ := find_group1 (n := 1) (r := .cat [.lit "Defaults to `".toList,
        .group 2 (.star .any), .chr backquote])
        (by simp [RE.groups, RE.cat, RE.lit, RE.chr, RE.any]) hm
      rw [← h.1]
      exact (trimSpace_sub _).trans ⟨pre, post, hs.symm⟩
  · simp only [Except.ok.injEq, Prod.mk.injEq] at h
    rw [h.1]

theorem extractExample_sub {V R : Type} (s : Str) (d : Definition V R) :
    (extractExample s d).1 <:+: s := by
  unfold extractExample
  split
  · rename_i m hm
    obtain ⟨pre, post, hs, -⟩ := find_group1 (n := 1) (r := .cat [.lit "For example: `".toList,
      .group 2 (.star .any), .chr backquote])
      (by simp [RE.groups, RE.cat, RE.lit, RE.chr, RE.any]) hm
    exact (trimSpace_sub _).trans ⟨pre, post, hs.symm⟩
  · exact List.infix_refl _

theorem extractSchemaType_sub {I G V X R : Type} {env : Env I G V X R} {dg : Generator I G}
    {s s' : Str} {nd : Bool} {d d' : Definition V R} {g : G}
    (h : extractSchemaType env dg s d = .ok (s', nd, d', g)) : s' <:+: s := by
  unfold extractSchemaType at h
  split at h
  · rename_i m hm
    split at h
    · cases h
    · simp only [Except.ok.injEq, Prod.mk.injEq] at h
      obtain ⟨pre, post, hs, -⟩ := find_group1 (n := 1) (r := .cat [.lit "Schema type is `".toList,
        .group 2 (.star .any), .chr backquote])
        (by simp [RE.groups, RE.cat, RE.lit, RE.chr, RE.any]) hm
      rw [← h.1]
      exact (trimSpace_sub _).trans ⟨pre, post, hs.symm⟩
  · split at h
    · rename_i m hm
      split at h
      · cases h
      · split at h
        · cases h
        · simp only [Except.ok.injEq, Prod.mk.injEq] at h
          obtain ⟨pre, post, hs, -⟩ := find_group1 (n := 2)
            (r := .cat [.lit "Schema type is one of ".toList, .group 2 (.star (oneOfEntry 3))])
            (by simp [RE.groups, RE.cat, RE.lit, RE.chr, RE.any, oneOfEntry, RE.plus, RE.notChr,
              RE.opt, RE.oneOf]) hm
          rw [← h.1]
          exact (trimSpace_sub _).trans ⟨pre, post, hs.symm⟩
    · simp only [Except.ok.injEq, Prod.mk.injEq] at h
      rw [h.1]

theorem handleComment_description {I G V X R : Type} {env : Env I G V X R}
    {dg : Generator I G} {rawName comment : Str} {d d1 : Definition V R}
    {res : Meta × Definition V R × G}
    (henum : env.handleEnumComments dg.Importer d comment = .ok (d1, none))
    (hok : handleComment env dg rawName comment d = .ok res) :
    ∃ s3, s3 <:+: stripAnnotations comment ∧
      res.2.1.Description = stripTypeName (env.interpretReference rawName).2 s3 ∧
      res.1.Required = requiredOf comment := by
  obtain ⟨d1', info, s1, d2, s2, nd, d3, g, -, henum', h1, h2, h3⟩ := handleComment_ok hok
  rw [henum] at henum'
  simp only [Except.ok.injEq, Prod.mk.injEq] at henum'
  obtain ⟨rfl, rfl⟩ := henum'
  obtain ⟨-, rfl⟩ := finishComment_ok h3
  refine ⟨(extractExample s2 d3).1, ?_, ?_, rfl⟩
  · exact (extractExample_sub s2 d3).trans
      ((extractSchemaType_sub h2).trans (extractDefault_sub h1))
  · simp only [synthesizedFragment, joinIfNotEmpty_pair_nil]

theorem requiredOf_iff (s : Str) :
    requiredOf s = true ↔ hasLine s "+required".toList ∨ hasLine s "Required".toList := by
  unfold requiredOf
  rw [Bool.or_eq_true]
  exact or_congr (find_linePattern _ (by decide) 0 s) (find_linePattern _ (by decide) 0 s)

theorem infix_stripAnnotations {x comment : Str} (hx : ' ' ∉ x)
    (h : x <:+: stripAnnotations comment) :
    x <:+: replaceAll (replaceAll comment "+required".toList []) "+optional".toList [] := by
  unfold stripAnnotations at h
  have h1 := h.trans (trimSpace_sub _)
  rw [replaceAll_single] at h1
  apply infix_of_infix_map _ _ _ _ h1
  intro c hc
  by_cases hn : c = newline
  · rw [if_pos hn] at hc
    exact absurd hc hx
  · rw [if_neg hn]

theorem extractExample_fields {V R : Type} (s : Str) (d : Definition V R) :
    (extractExample s d).2.Default = d.Default ∧ (extractExample s d).2.OneOf = d.OneOf ∧
      (extractExample s d).2.other = d.other := by
  unfold extractExample
  split <;> exact ⟨rfl, rfl, rfl⟩

theorem extractSchemaType_no_override {I G V X R : Type} {env : Env I G V X R}
    {dg : Generator I G} {s s' : Str} {nd : Bool} {d d' : Definition V R} {g : G}
    (hno : findStringSubmatch typeOverridePattern s = none)
    (h : extractSchemaType env dg s d = .ok (s', nd, d', g)) :
    nd = false ∧ d'.Default = d.Default ∧ d'.Examples = d.Examples ∧ d'.other = d.other := by
  unfold extractSchemaType at h
  rw [hno] at h
  simp only at h
  split at h
  · split at h
    · cases h
    · split at h
      · cases h
      · simp only [Except.ok.injEq, Prod.mk.injEq] at h
        obtain ⟨-, rfl, rfl, -⟩ := h
        exact ⟨rfl, rfl, rfl, rfl⟩
  · simp only [Except.ok.injEq, Prod.mk.injEq] at h
    obtain ⟨-, rfl, rfl, -⟩ := h
    exact ⟨rfl, rfl, rfl, rfl⟩

theorem find_none_of_sub {phrase s t : Str} (hts : t <:+: s)
    (h : findStringSubmatch ⟨clauseRE phrase, 2⟩ s = none) :
    findStringSubmatch ⟨clauseRE phrase, 2⟩ t = none := by
  cases ht : findStringSubmatch ⟨clauseRE phrase, 2⟩ t with
  | none => rfl
  | some m =>
    have := find_clause_mono hts (by rw [ht]; rfl)
    rw [h] at this
    cases this

/-- C3: when the tag-stripped description matches the default pattern and not
the type-override pattern, the description splits into the text before the
phrase, the phrase "Defaults to" with its back-quote, the quoted literal, a
back-quote and a tail. If the literal-value parser accepts the literal, the
default pass hands the trimmed text before the phrase to the later passes and
every successful call ends with `Default` equal to the parsed value; if the
parser rejects the literal, the call fails. -/
theorem handleComment_default {I G V X R : Type} (env : Env I G V X R)
    (dg : Generator I G) (rawName comment : Str) (d d1 : Definition V R)
    (info : Option EnumCommentInformation) (m : List Str)
    (henum : env.handleEnumComments dg.Importer d comment = .ok (d1, info))
    (hm : findStringSubmatch regexpDefaults (stripAnnotations (workingComment comment info)) =
      some m)
    (hno : findStringSubmatch typeOverridePattern
      (stripAnnotations (workingComment comment info)) = none) :
    ∃ before tail,
      stripAnnotations (workingComment comment info) =
        before ++ "Defaults to `".toList ++ m.getD 2 [] ++ backquote :: tail ∧
      (∀ v, env.parserAsValue (m.getD 2 []) = .ok v →
        extractDefault env (stripAnnotations (workingComment comment info)) d1 =
          .ok (trimSpace before, { d1 with Default := v }) ∧
        ∀ res, handleComment env dg rawName comment d = .ok res → res.2.1.Default = v) ∧
      (∀ e, env.parserAsValue (m.getD 2 []) = .error e →
        ∃ f, handleComment env dg rawName comment d = .error f) := by
  obtain ⟨x1, x2, post, hs, hmeq⟩ :=
    find_clause_line (newline_not_mem_stripAnnotations _) hm
  have hm1 : m.getD 1 [] = x1 := by rw [hmeq]; rfl
  have hm2 : m.getD 2 [] = x2 := by rw [hmeq]; rfl
  refine ⟨x1, post, by rw [hm2]; exact hs, ?_, ?_⟩
  · intro v hv
    have hpass : extractDefault env (stripAnnotations (workingComment comment info)) d1 =
        .ok (trimSpace x1, { d1 with Default := v }) := by
      unfold extractDefault
      rw [hm]
      simp only [hv, hm1]
    refine ⟨hpass, ?_⟩
    intro res hok
    obtain ⟨d1', info', s1, d2, s2, nd, d3, g, -, henum', h1, h2, h3⟩ := handleComment_ok hok
    rw [henum] at henum'
    simp only [Except.ok.injEq, Prod.mk.injEq] at henum'
    obtain ⟨rfl, rfl⟩ := henum'
    rw [hpass] at h1
    simp only [Except.ok.injEq, Prod.mk.injEq] at h1
    obtain ⟨rfl, rfl⟩ := h1
    have hsub : trimSpace x1 <:+: stripAnnotations (workingComment comment info) :=
      (trimSpace_sub x1).trans ⟨[], "Defaults to `".toList ++ x2 ++ backquote :: post,
        by rw [hs]; simp⟩
    obtain ⟨-, hdef, -, -⟩ := extractSchemaType_no_override (find_none_of_sub hsub hno) h2
    obtain ⟨-, rfl⟩ := finishComment_ok h3
    simp only
    rw [(extractExample_fields s2 d3).1, hdef]
  · intro e he
    have hpass : extractDefault env (stripAnnotations (workingComment comment info)) d1 =
        .error (.error ("couldn't parse default value from ".toList ++ m.getD 2 [] ++
          ": ".toList ++ e)) := by
      unfold extractDefault
      rw [hm]
      simp only [he]
    cases hpre : (dg.Strict && (env.interpretReference rawName).2 != [] &&
        !hasPrefix comment ((env.interpretReference rawName).2 ++ " ".toList)) with
    | true =>
      refine ⟨.error ("comment should start with field name on field ".toList ++
        (env.interpretReference rawName).2), ?_⟩
      unfold handleComment
      simp only [hpre, if_true]
    | false =>
      refine ⟨.error ("couldn't parse default value from ".toList ++ m.getD 2 [] ++
        ": ".toList ++ e), ?_⟩
      rw [handleComment_eq env dg rawName comment d d1 info hpre henum, hpass]

/-- C3 at the comment of the specification: the name `Foo` and the comment
"Foo is the bar. Defaults to `\"baz\"`." give the description "bar." and the
default parsed from the quoted literal. -/
theorem handleComment_default_witness :
    demoEnv.handleEnumComments (demoGen false).Importer demoDef
      "Foo is the bar. Defaults to `\"baz\"`.".toList = .ok (demoDef, none) ∧
    findStringSubmatch regexpDefaults
        (stripAnnotations (workingComment "Foo is the bar. Defaults to `\"baz\"`.".toList none)) =
      some ["Foo is the bar. Defaults to `\"baz\"`".toList, "Foo is the bar. ".toList,
        "\"baz\"".toList] ∧
    findStringSubmatch typeOverridePattern
        (stripAnnotations (workingComment "Foo is the bar. Defaults to `\"baz\"`.".toList none)) =
      none ∧
    demoEnv.parserAsValue "\"baz\"".toList = .ok "\"baz\"".toList ∧
    handleComment demoEnv (demoGen false) "Foo".toList
        "Foo is the bar. Defaults to `\"baz\"`.".toList demoDef =
      .ok (⟨false, false⟩,
        ⟨"\"baz\"".toList, [], [], "bar.".toList, "bar.".toList, []⟩, 0) ∧
    ∃ before tail,
      stripAnnotations (workingComment "Foo is the bar. Defaults to `\"baz\"`.".toList none) =
        before ++ "Defaults to `".toList ++ "\"baz\"".toList ++ backquote :: tail ∧
      (∀ v, demoEnv.parserAsValue "\"baz\"".toList = .ok v →
        extractDefault demoEnv
            (stripAnnotations (workingComment "Foo is the bar. Defaults to `\"baz\"`.".toList none))
            demoDef =
          .ok (trimSpace before, { demoDef with Default := v }) ∧
        ∀ res, handleComment demoEnv (demoGen false) "Foo".toList
            "Foo is the bar. Defaults to `\"baz\"`.".toList demoDef = .ok res →
          res.2.1.Default = v) ∧
      (∀ e, demoEnv.parserAsValue "\"baz\"".toList = .error e →
        ∃ f, handleComment demoEnv (demoGen false) "Foo".toList
          "Foo is the bar. Defaults to `\"baz\"`.".toList demoDef = .error f) :=
  ⟨rfl, rfl, rfl, rfl, rfl,
    handleComment_default demoEnv (demoGen false) "Foo".toList
      "Foo is the bar. Defaults to `\"baz\"`.".toList demoDef demoDef none
      ["Foo is the bar. Defaults to `\"baz\"`".toList, "Foo is the bar. ".toList,
        "\"baz\"".toList] rfl rfl rfl⟩

theorem extractSchemaType_override {I G V X R : Type} (env : Env I G V X R)
    (dg : Generator I G) (s : Str) (d : Definition V R) (m : List Str) (expr : X)
    (hm : findStringSubmatch typeOverridePattern s = some m)
    (hparse : env.parseExpr (m.getD 2 []) = .ok expr) :
    extractSchemaType env dg s d =
      .ok (trimSpace (m.getD 1 []), true, (env.newPropertyRef dg [] expr [] false).1,
        (env.newPropertyRef dg [] expr [] false).2) := by
  unfold extractSchemaType
  rw [hm]
  simp only [hparse]

theorem finishComment_lenient {I G V X R : Type} (env : Env I G V X R) (strict : Bool)
    (name description synth : Str) (required noDerive : Bool) (d : Definition V R) (g : G)
    (hname : plainName name = true) (hlen : strict = false ∨ name = []) :
    finishComment env strict name description synth required noDerive d g =
      .ok (⟨required, noDerive⟩,
        { d with
          Description := joinIfNotEmpty " ".toList [stripTypeName name description, synth]
          HTMLDescription := trimSpace (replaceAllString pTags
            (env.markdown (joinIfNotEmpty " ".toList [stripTypeName name description, synth]))
            (fun _ => [])) }, g) := by
  unfold finishComment removeTypeNameFromComment
  rcases hlen with h | h
  · subst h
    simp only [hname, if_true, Bool.false_and, Bool.false_eq_true, if_false]
  · subst h
    simp only [hname, if_true, bne_self_eq_false, Bool.and_false, Bool.false_and,
      Bool.false_eq_true, if_false]

/-- C4, as stated, fails: the description matches the type-override pattern
and the quoted expression parses, yet in strict mode the call does not
succeed, because the prose left before the clause does not end with a dot. -/
theorem handleComment_override_strict_fails :
    demoEnv.handleEnumComments (demoGen true).Importer demoDef
      "Foo Schema type is `T`".toList = .ok (demoDef, none) ∧
    extractDefault demoEnv (stripAnnotations "Foo Schema type is `T`".toList) demoDef =
      .ok ("Foo Schema type is `T`".toList, demoDef) ∧
    findStringSubmatch typeOverridePattern "Foo Schema type is `T`".toList =
      some ["Foo Schema type is `T`".toList, "Foo ".toList, "T".toList] ∧
    demoEnv.parseExpr "T".toList = .ok "T".toList ∧
    handleComment demoEnv (demoGen true) "Foo".toList "Foo Schema type is `T`".toList demoDef =
      .error (.error "description should end with a dot on field Foo".toList) :=
  ⟨rfl, rfl, rfl, rfl, rfl⟩

/-- C4, amended: when the description after the default pass matches the
type-override pattern and the quoted expression parses, every successful call
has `NoDerive = true`, the fields of the definition other than `Description`,
`HTMLDescription` and `Examples` are those of the stub the schema-node builder
returns for the expression (whatever the caller and the default pass had
stored), and the generator is left as that one call of the builder leaves it;
the call succeeds whenever strict mode is off or the name is empty, so that it
can only fail in strict-mode validation. -/
theorem handleComment_override {I G V X R : Type} (env : Env I G V X R)
    (dg : Generator I G) (rawName comment : Str) (d d1 d2 : Definition V R)
    (info : Option EnumCommentInformation) (s1 : Str) (m : List Str) (expr : X)
    (hname : plainName (env.interpretReference rawName).2 = true)
    (henum : env.handleEnumComments dg.Importer d comment = .ok (d1, info))
    (hdef : extractDefault env (stripAnnotations (workingComment comment info)) d1 =
      .ok (s1, d2))
    (hm : findStringSubmatch typeOverridePattern s1 = some m)
    (hparse : env.parseExpr (m.getD 2 []) = .ok expr) :
    (∀ res, handleComment env dg rawName comment d = .ok res →
      res.1.NoDerive = true ∧
      res.2.1.Default = (env.newPropertyRef dg [] expr [] false).1.Default ∧
      res.2.1.OneOf = (env.newPropertyRef dg [] expr [] false).1.OneOf ∧
      res.2.1.other = (env.newPropertyRef dg [] expr [] false).1.other ∧
      res.2.2 = (env.newPropertyRef dg [] expr [] false).2) ∧
    (dg.Strict = false ∨ (env.interpretReference rawName).2 = [] →
      ∃ res, handleComment env dg rawName comment d = .ok res) := by
  have hpass := extractSchemaType_override env dg s1 d2 m expr hm hparse
  constructor
  · intro res hok
    obtain ⟨d1', info', s1', d2', s2, nd, d3, g, -, henum', h1, h2, h3⟩ := handleComment_ok hok
    rw [henum] at henum'
    simp only [Except.ok.injEq, Prod.mk.injEq] at henum'
    obtain ⟨rfl, rfl⟩ := henum'
    rw [hdef] at h1
    simp only [Except.ok.injEq, Prod.mk.injEq] at h1
    obtain ⟨rfl, rfl⟩ := h1
    rw [hpass] at h2
    simp only [Except.ok.injEq, Prod.mk.injEq] at h2
    obtain ⟨rfl, rfl, rfl, rfl⟩ := h2
    obtain ⟨-, rfl⟩ := finishComment_ok h3
    obtain ⟨e1, e2, e3⟩ := extractExample_fields (trimSpace (m.getD 1 []))
      (env.newPropertyRef dg [] expr [] false).1
    exact ⟨rfl, e1, e2, e3, rfl⟩
  · intro hlen
    have hpre : (dg.Strict && (env.interpretReference rawName).2 != [] &&
        !hasPrefix comment ((env.interpretReference rawName).2 ++ " ".toList)) = false := by
      rcases hlen with h | h
      · rw [h]; rfl
      · rw [h]; simp
    rw [handleComment_eq env dg rawName comment d d1 info hpre henum, hdef]
    simp only [hpass]
    rw [finishComment_lenient env _ _ _ _ _ _ _ _ hname hlen]
    exact ⟨_, rfl⟩

/-- C4, amended, at the comment of the specification, with a caller-supplied
default that the stub replaces. -/
theorem handleComment_override_witness :
    plainName (demoEnv.interpretReference "Foo".toList).2 = true ∧
    demoEnv.handleEnumComments (demoGen true).Importer
      ({ demoDef with Default := "1".toList }) "Foo is the bar. Schema type is `SomeType`.".toList =
      .ok ({ demoDef with Default := "1".toList }, none) ∧
    extractDefault demoEnv
      (stripAnnotations (workingComment "Foo is the bar. Schema type is `SomeType`.".toList none))
      ({ demoDef with Default := "1".toList }) =
      .ok ("Foo is the bar. Schema type is `SomeType`.".toList,
        { demoDef with Default := "1".toList }) ∧
    findStringSubmatch typeOverridePattern "Foo is the bar. Schema type is `SomeType`.".toList =
      some ["Foo is the bar. Schema type is `SomeType`".toList, "Foo is the bar. ".toList,
        "SomeType".toList] ∧
    demoEnv.parseExpr "SomeType".toList = .ok "SomeType".toList ∧
    handleComment demoEnv (demoGen true) "Foo".toList
        "Foo is the bar. Schema type is `SomeType`.".toList
        ({ demoDef with Default := "1".toList }) =
      .ok (⟨false, true⟩, ⟨[], [], [], "bar.".toList, "bar.".toList, "SomeType".toList⟩, 1) ∧
    ((∀ res, handleComment demoEnv (demoGen true) "Foo".toList
        "Foo is the bar. Schema type is `SomeType`.".toList
        ({ demoDef with Default := "1".toList }) = .ok res →
      res.1.NoDerive = true ∧
      res.2.1.Default =
        (demoEnv.newPropertyRef (demoGen true) [] "SomeType".toList [] false).1.Default ∧
      res.2.1.OneOf =
        (demoEnv.newPropertyRef (demoGen true) [] "SomeType".toList [] false).1.OneOf ∧
      res.2.1.other =
        (demoEnv.newPropertyRef (demoGen true) [] "SomeType".toList [] false).1.other ∧
      res.2.2 = (demoEnv.newPropertyRef (demoGen true) [] "SomeType".toList [] false).2) ∧
    ((demoGen true).Strict = false ∨ (demoEnv.interpretReference "Foo".toList).2 = [] →
      ∃ res, handleComment demoEnv (demoGen true) "Foo".toList
        "Foo is the bar. Schema type is `SomeType`.".toList
        ({ demoDef with Default := "1".toList }) = .ok res)) :=
  ⟨rfl, rfl, rfl, rfl, rfl, rfl,
    handleComment_override demoEnv (demoGen true) "Foo".toList
      "Foo is the bar. Schema type is `SomeType`.".toList
      ({ demoDef with Default := "1".toList }) ({ demoDef with Default := "1".toList })
      ({ demoDef with Default := "1".toList }) none
      "Foo is the bar. Schema type is `SomeType`.".toList
      ["Foo is the bar. Schema type is `SomeType`".toList, "Foo is the bar. ".toList,
        "SomeType".toList] "SomeType".toList rfl rfl rfl rfl rfl⟩

theorem run_cls_cons (p : Char → Bool) (pv : Option Char) (c : Char) (cs : Str)
    (cp : Nat → Option Str) (k : St → Option St) :
    run (.cls p) ⟨pv, c :: cs, cp⟩ k = if p c then k ⟨some c, cs, cp⟩ else none := rfl

theorem run_cls_nil (p : Char → Bool) (pv : Option Char) (cp : Nat → Option Str)
    (k : St → Option St) : run (.cls p) ⟨pv, [], cp⟩ k = none := rfl

theorem starLoop_cls_stop (p : Char → Bool) (b t : Str) (pv : Option Char)
    (cp : Nat → Option Str) (k : St → Option St) (n : Nat)
    (ht : ∀ c ∈ t.head?, p c = false)
    (hlater : ∀ b1 b2, b = b1 ++ b2 → b1 ≠ [] → k ⟨lastOr pv b1, b2 ++ t, cp⟩ = none) :
    starLoop (run (.cls p)) n ⟨pv, b ++ t, cp⟩ k = k ⟨pv, b ++ t, cp⟩ := by
  induction b generalizing pv n with
  | nil =>
    cases n with
    | zero => rfl
    | succ n =>
      simp only [starLoop, List.nil_append]
      cases t with
      | nil => rfl
      | cons c cs =>
        have hc : p c = false := ht c (by simp)
        simp [run_cls_cons, hc]
  | cons c cs ih =>
    cases n with
    | zero => rfl
    | succ n =>
      simp only [starLoop, List.cons_append, run_cls_cons]
      by_cases hc : p c = true
      · have h1 := ih (some c) n (fun b1 b2 hb hne => by
          have := hlater (c :: b1) b2 (by rw [hb]; rfl) (by simp)
          simpa [lastOr] using this)
        have h2 := hlater [c] cs rfl (by simp)
        simp only [lastOr] at h2
        simp [hc, h1, h2]
      · simp [hc]

theorem starLoop_cls_reach (p : Char → Bool) (a r : Str) (pv : Option Char)
    (cp : Nat → Option Str) (k : St → Option St) (m : Nat) (res : St)
    (ha : ∀ c ∈ a, p c = true)
    (h : starLoop (run (.cls p)) m ⟨lastOr pv a, r, cp⟩ k = some res) :
    starLoop (run (.cls p)) (a.length + m) ⟨pv, a ++ r, cp⟩ k = some res := by
  induction a generalizing pv with
  | nil => simpa using h
  | cons c cs ih =>
    have hc : p c = true := ha c (List.mem_cons_self _ _)
    have h1 := ih (some c) (fun d hd => ha d (List.mem_cons_of_mem _ hd)) h
    have e : (c :: cs).length + m = (cs.length + m) + 1 := by simp; omega
    rw [e]
    simp only [starLoop, List.cons_append, run_cls_cons, hc, if_true, List.length_cons,
      Nat.lt_succ_self, h1]

theorem starLoop_cls_greedy (p : Char → Bool) (a b t : Str) (pv : Option Char)
    (cp : Nat → Option Str) (k : St → Option St) (n : Nat) (res : St)
    (ha : ∀ c ∈ a, p c = true) (hn : a.length ≤ n)
    (ht : ∀ c ∈ t.head?, p c = false)
    (hlater : ∀ b1 b2, b = b1 ++ b2 → b1 ≠ [] →
      k ⟨lastOr pv (a ++ b1), b2 ++ t, cp⟩ = none)
    (hk : k ⟨lastOr pv a, b ++ t, cp⟩ = some res) :
    starLoop (run (.cls p)) n ⟨pv, a ++ (b ++ t), cp⟩ k = some res := by
  obtain ⟨m, rfl⟩ := Nat.exists_eq_add_of_le hn
  apply starLoop_cls_reach p a (b ++ t) pv cp k m res ha
  rw [starLoop_cls_stop p b t (lastOr pv a) cp k m ht]
  · exact hk
  · intro b1 b2 hb hne
    rw [← lastOr_append]
    exact hlater b1 b2 hb hne

theorem run_seq (a b : RE) (st : St) (k : St → Option St) :
    run (.seq a b) st k = run a st (fun st' => run b st' k) := rfl

theorem run_empty (st : St) (k : St → Option St) : run .empty st k = k st := rfl

theorem run_star (a : RE) (st : St) (k : St → Option St) :
    run (.star a) st k = starLoop (run a) st.rest.length st k := rfl

theorem run_group (i : Nat) (a : RE) (st : St) (k : St → Option St) :
    run (.group i a) st k =
      run a st (fun st' => k ⟨st'.prev, st'.rest,
        setCap st'.caps i (st.rest.take (st.rest.length - st'.rest.length))⟩) := rfl

theorem run_alt_left (a b : RE) (st : St) (k : St → Option St) (res : St)
    (h : run a st k = some res) : run (.alt a b) st k = some res := by
  simp only [run, h]

theorem run_alt_right (a b : RE) (st : St) (k : St → Option St)
    (h : run a st k = none) : run (.alt a b) st k = run b st k := by
  simp only [run, h]

theorem run_chr_cons (c : Char) (pv : Option Char) (cs : Str) (cp : Nat → Option Str)
    (k : St → Option St) : run (.chr c) ⟨pv, c :: cs, cp⟩ k = k ⟨some c, cs, cp⟩ := by
  simp [run_chr]

theorem run_chr_none (c : Char) (pv : Option Char) (s : Str) (cp : Nat → Option Str)
    (k : St → Option St) (h : ∀ d ∈ s.head?, d ≠ c) : run (.chr c) ⟨pv, s, cp⟩ k = none := by
  rw [run_chr]
  cases s with
  | nil => rfl
  | cons d ds =>
    have : d ≠ c := h d (by simp)
    simp [this]

theorem run_oneOfEntry (g : Nat) (e cm sp t : Str) (pv : Option Char)
    (cp : Nat → Option Str) (K : St → Option St) (res : St)
    (he : e ≠ []) (hbq : backquote ∉ e)
    (hcm : cm = [','] ∨ (cm = [] ∧ ∀ c ∈ (sp ++ t).head?, c ≠ ','))
    (hsp : ∀ c ∈ sp, c = ' ' ∨ c = tab)
    (ht : ∀ c ∈ t.head?, c ≠ ' ' ∧ c ≠ tab)
    (hK : K ⟨lastOr (some backquote) (cm ++ sp), t, setCap cp g e⟩ = some res) :
    run (oneOfEntry g) ⟨pv, backquote :: (e ++ backquote :: (cm ++ (sp ++ t))), cp⟩ K =
      some res := by
  obtain ⟨c0, e', rfl⟩ := List.exists_cons_of_ne_nil he
  have hc0 : c0 ≠ backquote := fun h => hbq (h ▸ List.mem_cons_self _ _)
  have he' : ∀ c ∈ e', (fun x => x != backquote) c = true := by
    intro c hc
    have : c ≠ backquote := fun h => hbq (h ▸ List.mem_cons_of_mem _ hc)
    simpa using this
  have hspaces : ∀ pv', K ⟨lastOr pv' sp, t, setCap cp g (c0 :: e')⟩ = some res →
      run (.seq (.star (.oneOf [' ', tab])) .empty) ⟨pv', sp ++ t, setCap cp g (c0 :: e')⟩ K =
        some res := by
    intro pv' hk
    rw [run_seq, run_star]
    exact starLoop_cls_greedy (fun x => [' ', tab].contains x) sp [] t pv'
      (setCap cp g (c0 :: e')) (fun st' => run .empty st' K) _ res
      (by
        intro c hc
        rcases hsp c hc with h | h <;> simp [h])
      (by simp)
      (by
        intro c hc
        have := ht c hc
        simp [this.1, this.2])
      (by intro b1 b2 hb hne; simp at hb; exact absurd hb.1 hne)
      hk
  have hcomma : run (.seq (.opt (.chr ',')) (.seq (.star (.oneOf [' ', tab])) .empty))
      ⟨some backquote, cm ++ (sp ++ t), setCap cp g (c0 :: e')⟩ K = some res := by
    rw [run_seq]
    rcases hcm with rfl | ⟨rfl, hne⟩
    · apply run_alt_left
      rw [List.singleton_append, run_chr_cons]
      apply hspaces
      simpa [lastOr] using hK
    · rw [RE.opt, run_alt_right, run_empty]
      · apply hspaces
        simpa [lastOr] using hK
      · exact run_chr_none _ _ _ _ _ hne
  have hclose : run (.seq (.chr backquote)
      (.seq (.opt (.chr ',')) (.seq (.star (.oneOf [' ', tab])) .empty)))
      ⟨lastOr (some c0) e', backquote :: (cm ++ (sp ++ t)), setCap cp g (c0 :: e')⟩ K =
        some res := by
    rw [run_seq, run_chr_cons]
    exact hcomma
  have hentry : oneOfEntry g = .seq (.chr backquote) (.seq
      (.group g (.seq (.notChr backquote) (.star (.notChr backquote))))
      (.seq (.chr backquote)
        (.seq (.opt (.chr ',')) (.seq (.star (.oneOf [' ', tab])) .empty)))) := rfl
  rw [hentry, run_seq, run_chr_cons, run_seq, run_group, run_seq]
  simp only [RE.notChr, List.cons_append, run_cls_cons, bne_iff_ne, ne_eq, hc0,
    not_false_eq_true, if_true, run_star]
  apply starLoop_cls_greedy (fun x => x != backquote) e' [] (backquote :: (cm ++ (sp ++ t)))
    (some c0) cp _ _ res he' (by simp) (by simp)
    (by intro b1 b2 hb hne; simp at hb; exact absurd hb.1 hne)
  simp only [List.nil_append]
  have htake : List.take ((c0 :: (e' ++ backquote :: (cm ++ (sp ++ t)))).length -
      (backquote :: (cm ++ (sp ++ t))).length) (c0 :: (e' ++ backquote :: (cm ++ (sp ++ t)))) =
      c0 :: e' := by
    have := take_consumed (c0 :: e') (backquote :: (cm ++ (sp ++ t)))
    simpa using this
  rw [htake]
  exact hclose

theorem oneOfClause_nil : oneOfClause [] = [] := rfl

theorem oneOfClause_single (e : Str) : oneOfClause [e] = backquote :: (e ++ [backquote]) := by
  simp [oneOfClause, quoted, List.intercalate]

theorem oneOfClause_cons_cons (e e' : Str) (es : List Str) :
    oneOfClause (e :: e' :: es) =
      backquote :: (e ++ backquote :: ([','] ++ ([' '] ++ oneOfClause (e' :: es)))) := by
  simp [oneOfClause, quoted, List.intercalate]

theorem oneOfClause_head (e : Str) (es : List Str) :
    ∃ w, oneOfClause (e :: es) = backquote :: w := by
  cases es with
  | nil => exact ⟨_, oneOfClause_single e⟩
  | cons e' es => exact ⟨_, oneOfClause_cons_cons e e' es⟩

theorem capsAfter_ne (cp : Nat → Option Str) (g : Nat) (es : List Str) (j : Nat)
    (h : j ≠ g) : capsAfter cp g es j = cp j := by
  induction es generalizing cp with
  | nil => rfl
  | cons e es ih =>
    simp only [capsAfter, List.foldl_cons] at ih ⊢
    rw [ih]
    simp [setCap, h]

theorem run_oneOfEntry_none (g : Nat) (s : Str) (pv : Option Char) (cp : Nat → Option Str)
    (K : St → Option St) (h : ∀ c ∈ s.head?, c ≠ backquote) :
    run (oneOfEntry g) ⟨pv, s, cp⟩ K = none := by
  have hentry : oneOfEntry g = .seq (.chr backquote) (.seq
      (.group g (.seq (.notChr backquote) (.star (.notChr backquote))))
      (.seq (.chr backquote)
        (.seq (.opt (.chr ',')) (.seq (.star (.oneOf [' ', tab])) .empty)))) := rfl
  rw [hentry, run_seq]
  exact run_chr_none _ _ _ _ _ h

theorem starLoop_entries (g : Nat) (t : Str) (k : St → Option St)
    (ht : ∀ c ∈ t.head?, c ≠ backquote ∧ c ≠ ',' ∧ c ≠ ' ' ∧ c ≠ tab)
    (hk : ∀ st : St, st.rest = t → (k st).isSome)
    (es : List Str) (hes : ∀ e ∈ es, e ≠ [] ∧ backquote ∉ e)
    (pv : Option Char) (cp : Nat → Option Str) (n : Nat) (hn : es.length ≤ n) :
    ∃ pv', starLoop (run (oneOfEntry g)) n ⟨pv, oneOfClause es ++ t, cp⟩ k =
      k ⟨pv', t, capsAfter cp g es⟩ := by
  induction es generalizing pv cp n with
  | nil =>
    refine ⟨pv, ?_⟩
    cases n with
    | zero => rfl
    | succ n =>
      simp only [starLoop, oneOfClause_nil, List.nil_append]
      rw [run_oneOfEntry_none g t pv cp _ (fun c hc => (ht c hc).1)]
      rfl
  | cons e es ih =>
    obtain ⟨n, rfl⟩ : ∃ m, n = m + 1 := ⟨n - 1, by simp at hn; omega⟩
    have he := hes e (List.mem_cons_self _ _)
    have hes' : ∀ e' ∈ es, e' ≠ [] ∧ backquote ∉ e' :=
      fun e' h => hes e' (List.mem_cons_of_mem _ h)
    have hn' : es.length ≤ n := by simp at hn; omega
    simp only [starLoop]
    cases es with
    | nil =>
      obtain ⟨pv', hpv'⟩ := ih hes' (some backquote) (setCap cp g e) n hn'
      obtain ⟨r, hr⟩ := Option.isSome_iff_exists.mp (hk ⟨pv', t, capsAfter (setCap cp g e) g []⟩ rfl)
      refine ⟨pv', ?_⟩
      have htxt : oneOfClause [e] ++ t = backquote :: (e ++ backquote :: ([] ++ ([] ++ t))) := by
        simp [oneOfClause_single]
      have hrun := run_oneOfEntry g e [] [] t pv cp
        (fun st' => if st'.rest.length < (backquote :: (e ++ backquote :: ([] ++ ([] ++ t)))).length
          then starLoop (run (oneOfEntry g)) n st' k else none) r he.1 he.2
        (Or.inr ⟨rfl, fun c hc => (ht c hc).2.1⟩)
        (by simp)
        (fun c hc => ⟨(ht c hc).2.2.1, (ht c hc).2.2.2⟩)
        (by
          simp only [List.append_nil, lastOr]
          rw [if_pos (by simp only [List.length_cons, List.length_append, List.length_nil]; omega)]
          rw [oneOfClause_nil, List.nil_append] at hpv'
          rw [hpv', hr])
      rw [htxt, hrun]
      exact hr.symm
    | cons e' es' =>
      obtain ⟨pv', hpv'⟩ := ih hes' (some ' ') (setCap cp g e) n hn'
      obtain ⟨r, hr⟩ := Option.isSome_iff_exists.mp
        (hk ⟨pv', t, capsAfter (setCap cp g e) g (e' :: es')⟩ rfl)
      obtain ⟨w, hw⟩ := oneOfClause_head e' es'
      refine ⟨pv', ?_⟩
      have htxt : oneOfClause (e :: e' :: es') ++ t =
          backquote :: (e ++ backquote :: ([','] ++ ([' '] ++ (oneOfClause (e' :: es') ++ t)))) := by
        simp [oneOfClause_cons_cons]
      have hrun := run_oneOfEntry g e [','] [' '] (oneOfClause (e' :: es') ++ t) pv cp
        (fun st' => if st'.rest.length <
            (backquote :: (e ++ backquote ::
              ([','] ++ ([' '] ++ (oneOfClause (e' :: es') ++ t))))).length
          then starLoop (run (oneOfEntry g)) n st' k else none) r he.1 he.2
        (Or.inl rfl)
        (by simp)
        (by
          intro c hc
          rw [hw] at hc
          simp only [List.cons_append, List.head?_cons, Option.mem_def,
            Option.some.injEq] at hc
          subst hc
          exact ⟨by decide, by decide⟩)
        (by
          simp only [lastOr, List.singleton_append]
          rw [if_pos (by simp only [List.length_cons, List.length_append]; omega)]
          rw [hpv', hr])
      rw [htxt, hrun]
      exact hr.symm

theorem not_infix_of_length_lt {x y : Str} (h : y.length < x.length) : ¬ x <:+: y :=
  fun hi => absurd hi.length_le (by omega)

theorem not_infix_clause (x : Str) (hx : backquote ∉ x) (hlen : 2 < x.length)
    (es : List Str) (hes : ∀ e ∈ es, ¬ x <:+: e) : ¬ x <:+: oneOfClause es ++ ['.'] := by
  induction es with
  | nil =>
    rw [oneOfClause_nil]
    exact not_infix_of_length_lt (by simp; omega)
  | cons e es ih =>
    have he := hes e (List.mem_cons_self _ _)
    have hes' : ∀ e' ∈ es, ¬ x <:+: e' := fun e' h => hes e' (List.mem_cons_of_mem _ h)
    intro hin
    have hnil : ¬ x <:+: [] := not_infix_of_length_lt (by simp; omega)
    cases es with
    | nil =>
      have e0 : oneOfClause [e] ++ ['.'] = [] ++ backquote :: (e ++ backquote :: ['.']) := by
        simp [oneOfClause_single]
      rw [e0] at hin
      rcases infix_split hx hin with h | h
      · exact hnil h
      · rcases infix_split hx h with h | h
        · exact he h
        · exact not_infix_of_length_lt (by simp; omega) h
    | cons e' es' =>
      obtain ⟨w, hw⟩ := oneOfClause_head e' es'
      have hrest := ih hes'
      rw [hw] at hrest
      have e0 : oneOfClause (e :: e' :: es') ++ ['.'] =
          [] ++ backquote :: (e ++ backquote :: ([',', ' '] ++ backquote :: (w ++ ['.']))) := by
        rw [oneOfClause_cons_cons, hw]
        simp
      rw [e0] at hin
      rcases infix_split hx hin with h | h
      · exact hnil h
      · rcases infix_split hx h with h | h
        · exact he h
        · rcases infix_split hx h with h | h
          · exact not_infix_of_length_lt (by simp; omega) h
          · exact hrest (h.trans ⟨[backquote], [], by simp⟩)

theorem no_later_occurrence (x T : Str) (hxS : ∀ c ∈ x.head?, c ∉ x.tail)
    (hT : ¬ x <:+: T) (b1 b2 : Str) (h : x ++ T = b1 ++ b2) (hb1 : b1 ≠ []) : ¬ x <+: b2 := by
  intro hp
  rcases List.append_eq_append_iff.mp h with ⟨a, hb, hTa⟩ | ⟨c, hx, hb2⟩
  · exact hT (hp.isInfix.trans ⟨a, [], by rw [hTa]; simp⟩)
  · cases c with
    | nil =>
      rw [List.nil_append] at hb2
      rw [hb2] at hp
      exact hT hp.isInfix
    | cons c0 cs =>
      obtain ⟨b0, bs, rfl⟩ := List.exists_cons_of_ne_nil hb1
      cases x with
      | nil => cases hx
      | cons x0 xs =>
        simp only [List.cons_append, List.cons.injEq] at hx
        obtain ⟨rfl, hxs⟩ := hx
        rw [hb2] at hp
        obtain ⟨q, hq⟩ := hp
        simp only [List.cons_append, List.cons.injEq] at hq
        have : x0 ∈ xs := by
          rw [hxs, hq.1]
          simp
        exact hxS x0 (by simp) this

theorem length_le_oneOfClause (es : List Str) : es.length ≤ (oneOfClause es).length := by
  induction es with
  | nil => simp
  | cons e es ih =>
    cases es with
    | nil => simp [oneOfClause_single]
    | cons e' es' =>
      rw [oneOfClause_cons_cons]
      simp only [List.length_cons, List.length_append] at ih ⊢
      omega

theorem searchFrom_of_run {r : RE} {pv : Option Char} {s : Str} {st : St}
    (h : run r ⟨pv, s, noCaps⟩ some = some st) : searchFrom r pv s = some (0, st) := by
  cases s with
  | nil => simp [searchFrom, h]
  | cons c cs => simp [searchFrom, h]

theorem submatches_getD_two (re : RE) (n : Nat) (text : Str) (st : St) :
    (submatches ⟨re, n + 2⟩ text st).getD 2 [] = (st.caps 2).getD [] := by
  simp [submatches, List.range_succ_eq_map]

theorem run_typeOneOf (P : Str) (es : List Str) (hP : newline ∉ P)
    (hes : ∀ e ∈ es, e ≠ [] ∧ backquote ∉ e ∧ ¬ oneOfPhrase <:+: e) :
    ∃ res, run typeOneOfPattern.re
        ⟨none, P ++ (oneOfPhrase ++ (oneOfClause es ++ ['.'])), noCaps⟩ some = some res ∧
      res.caps 1 = some P ∧ res.caps 2 = some (oneOfClause es) := by
  have hre : typeOneOfPattern.re = .seq (.group 1 (.star (.cls (fun x => x != newline))))
      (.seq (.lit oneOfPhrase) (.seq (.group 2 (.star (oneOfEntry 3))) .empty)) := rfl
  -- the entries
  obtain ⟨pv', hloop⟩ := starLoop_entries 3 ['.']
    (fun st' => run .empty ⟨st'.prev, st'.rest, setCap st'.caps 2
      ((oneOfClause es ++ ['.']).take ((oneOfClause es ++ ['.']).length - st'.rest.length))⟩ some)
    (by intro c hc; simp at hc; subst hc; decide)
    (by intro st _; rfl)
    es (fun e he => ⟨(hes e he).1, (hes e he).2.1⟩)
    (lastOr (lastOr none P) oneOfPhrase) (setCap noCaps 1 P)
    (oneOfClause es ++ ['.']).length
    (by have := length_le_oneOfClause es; simp; omega)
  have htake : (oneOfClause es ++ ['.']).take ((oneOfClause es ++ ['.']).length - ['.'].length) =
      oneOfClause es := take_consumed _ _
  simp only [run_empty, htake] at hloop
  refine ⟨⟨pv', ['.'], setCap (capsAfter (setCap noCaps 1 P) 3 es) 2 (oneOfClause es)⟩,
    ?_, ?_, ?_⟩
  rotate_left
  · show (setCap (capsAfter (setCap noCaps 1 P) 3 es) 2 (oneOfClause es)) 1 = some P
    simp only [setCap, if_neg (show (1 : Nat) ≠ 2 by decide)]
    rw [capsAfter_ne _ _ _ _ (by decide)]
    rfl
  · show (setCap (capsAfter (setCap noCaps 1 P) 3 es) 2 (oneOfClause es)) 2 = _
    simp [setCap]
  · rw [hre, run_seq, run_group, run_star]
    have hnot : ¬ oneOfPhrase <:+: oneOfClause es ++ ['.'] :=
      not_infix_clause oneOfPhrase (by decide) (by decide) es (fun e he => (hes e he).2.2)
    have hg := starLoop_cls_greedy (fun x => x != newline) P (oneOfPhrase ++ (oneOfClause es ++ ['.']))
      [] none noCaps
      (fun st' => run (.seq (.lit oneOfPhrase) (.seq (.group 2 (.star (oneOfEntry 3))) .empty))
        ⟨st'.prev, st'.rest, setCap st'.caps 1
          ((P ++ (oneOfPhrase ++ (oneOfClause es ++ ['.']))).take
            ((P ++ (oneOfPhrase ++ (oneOfClause es ++ ['.']))).length - st'.rest.length))⟩ some)
      (P ++ (oneOfPhrase ++ (oneOfClause es ++ ['.']))).length
      ⟨pv', ['.'], setCap (capsAfter (setCap noCaps 1 P) 3 es) 2 (oneOfClause es)⟩
      (by
        intro c hc
        have : c ≠ newline := fun h => hP (h ▸ hc)
        simpa using this)
      (by simp)
      (by simp)
      (by
        intro b1 b2 hb hne
        simp only [List.append_nil, run_seq]
        apply run_lit_none
        exact no_later_occurrence oneOfPhrase _ (by decide) hnot b1 b2 hb hne)
      (by
        simp only [List.append_nil, run_seq, take_consumed, run_lit_append, run_group, run_star]
        exact hloop)
    simpa only [List.append_nil] using hg

theorem findAllLoop_step (re : Regexp) (fuel pos : Nat) (prevEnd : Option Nat)
    (prev : Option Char) (rest : Str) (st : St)
    (hrun : run re.re ⟨prev, rest, noCaps⟩ some = some st)
    (hlen : st.rest.length < rest.length) :
    findAllLoop re (fuel + 1) pos prevEnd prev rest =
      submatches re rest st ::
        findAllLoop re fuel (pos + (rest.length - st.rest.length))
          (some (pos + (rest.length - st.rest.length))) st.prev st.rest := by
  have hne : ¬ (pos + (rest.length - st.rest.length) = pos) := by omega
  simp only [findAllLoop, searchFrom_of_run hrun, List.drop_zero, hne, if_false]

theorem findAllLoop_entries (es : List Str) (hes : ∀ e ∈ es, e ≠ [] ∧ backquote ∉ e)
    (fuel pos : Nat) (prevEnd : Option Nat) (prev : Option Char) (hf : es.length < fuel) :
    (findAllLoop oneOfEntryPattern fuel pos prevEnd prev (oneOfClause es)).map
      (fun t => t.getD 1 []) = es := by
  induction es generalizing fuel pos prevEnd prev with
  | nil =>
    obtain ⟨f, rfl⟩ : ∃ f, fuel = f + 1 := ⟨fuel - 1, by simp at hf; omega⟩
    have hnone : run oneOfEntryPattern.re ⟨prev, [], noCaps⟩ some = none :=
      run_oneOfEntry_none 1 [] prev noCaps some (by simp)
    simp [findAllLoop, oneOfClause_nil, searchFrom, hnone]
  | cons e es ih =>
    obtain ⟨f, rfl⟩ : ∃ f, fuel = f + 1 := ⟨fuel - 1, by simp at hf; omega⟩
    have he := hes e (List.mem_cons_self _ _)
    have hes' : ∀ e' ∈ es, e' ≠ [] ∧ backquote ∉ e' :=
      fun e' h => hes e' (List.mem_cons_of_mem _ h)
    have hf' : es.length < f := by simp at hf; omega
    cases es with
    | nil =>
      have htxt : oneOfClause [e] = backquote :: (e ++ backquote :: ([] ++ ([] ++ []))) := by
        simp [oneOfClause_single]
      have hrun := run_oneOfEntry 1 e [] [] [] prev noCaps some
        ⟨lastOr (some backquote) ([] ++ []), [], setCap noCaps 1 e⟩ he.1 he.2
        (Or.inr ⟨rfl, by simp⟩) (by simp) (by simp) rfl
      rw [htxt, findAllLoop_step oneOfEntryPattern _ _ _ _ _ _ hrun (by simp)]
      have := ih hes' f (pos + ((backquote :: (e ++ backquote :: ([] ++ ([] ++ [])))).length - 0))
        (some (pos + ((backquote :: (e ++ backquote :: ([] ++ ([] ++ [])))).length - 0)))
        (lastOr (some backquote) ([] ++ [])) hf'
      rw [oneOfClause_nil] at this
      simp only [List.map_cons, List.length_nil]
      rw [this]
      have h1 := submatches_getD_one (oneOfEntry 1) 0
        (backquote :: (e ++ backquote :: ([] ++ ([] ++ []))))
        ⟨lastOr (some backquote) ([] ++ []), [], setCap noCaps 1 e⟩
      simp only [Nat.zero_add] at h1
      rw [show oneOfEntryPattern = ⟨oneOfEntry 1, 1⟩ from rfl, h1]
      simp [setCap]
    | cons e' es' =>
      obtain ⟨w, hw⟩ := oneOfClause_head e' es'
      have htxt : oneOfClause (e :: e' :: es') =
          backquote :: (e ++ backquote :: ([','] ++ ([' '] ++ oneOfClause (e' :: es')))) :=
        oneOfClause_cons_cons e e' es'
      have hrun := run_oneOfEntry 1 e [','] [' '] (oneOfClause (e' :: es')) prev noCaps some
        ⟨lastOr (some backquote) ([','] ++ [' ']), oneOfClause (e' :: es'), setCap noCaps 1 e⟩
        he.1 he.2 (Or.inl rfl) (by simp)
        (by
          intro c hc
          rw [hw] at hc
          simp only [List.head?_cons, Option.mem_def, Option.some.injEq] at hc
          subst hc
          exact ⟨by decide, by decide⟩)
        rfl
      rw [htxt, findAllLoop_step oneOfEntryPattern _ _ _ _ _ _ hrun
        (by simp only [List.length_cons, List.length_append]; omega)]
      simp only [List.map_cons]
      rw [ih hes' f _ _ _ hf']
      have h1 := submatches_getD_one (oneOfEntry 1) 0
        (backquote :: (e ++ backquote :: ([','] ++ ([' '] ++ oneOfClause (e' :: es')))))
        ⟨lastOr (some backquote) ([','] ++ [' ']), oneOfClause (e' :: es'), setCap noCaps 1 e⟩
      simp only [Nat.zero_add] at h1
      rw [show oneOfEntryPattern = ⟨oneOfEntry 1, 1⟩ from rfl, h1]
      simp [setCap]

theorem findAll_entries (es : List Str) (hes : ∀ e ∈ es, e ≠ [] ∧ backquote ∉ e) :
    (findAllStringSubmatch oneOfEntryPattern (oneOfClause es)).map (fun t => t.getD 1 []) =
      es := by
  unfold findAllStringSubmatch
  apply findAllLoop_entries es hes
  have := length_le_oneOfClause es
  omega

theorem oneOfDefs_spec {I G V X R : Type} (env : Env I G V X R) (dg : Generator I G)
    (l : List (List Str)) (es : List Str) (g : G) (acc : List (Definition V R))
    (hl : l.map (fun t => t.getD 1 []) = es)
    (hparse : ∀ e ∈ es, ∃ x, env.parseExpr e = .ok x) :
    ∃ defs g', oneOfDefs env dg l g acc = .ok (acc ++ defs, g') ∧
      builtInOrder env dg g es defs g' ∧ defs.length = es.length := by
  induction l generalizing es g acc with
  | nil =>
    simp only [List.map_nil] at hl
    subst hl
    exact ⟨[], g, by simp [oneOfDefs], rfl, rfl⟩
  | cons t n ih =>
    simp only [List.map_cons] at hl
    subst hl
    obtain ⟨x, hx⟩ := hparse (t.getD 1 []) (List.mem_cons_self _ _)
    obtain ⟨defs, g', h1, h2, h3⟩ := ih (n.map (fun t => t.getD 1 []))
      (env.newPropertyRef { dg with state := g } [] x [] false).2
      (acc ++ [(env.newPropertyRef { dg with state := g } [] x [] false).1]) rfl
      (fun e he => hparse e (List.mem_cons_of_mem _ he))
    refine ⟨(env.newPropertyRef { dg with state := g } [] x [] false).1 :: defs, g', ?_,
      ⟨x, hx, rfl, h2⟩, by simp [h3]⟩
    simp only [oneOfDefs, hx, h1, List.append_assoc, List.singleton_append]

theorem find_typeOneOf (P : Str) (es : List Str) (hP : newline ∉ P)
    (hes : ∀ e ∈ es, e ≠ [] ∧ backquote ∉ e ∧ ¬ oneOfPhrase <:+: e) :
    ∃ m, findStringSubmatch typeOneOfPattern
        (P ++ (oneOfPhrase ++ (oneOfClause es ++ ['.']))) = some m ∧
      m.getD 1 [] = P ∧ m.getD 2 [] = oneOfClause es := by
  obtain ⟨res, hrun, h1, h2⟩ := run_typeOneOf P es hP hes
  refine ⟨submatches typeOneOfPattern
    ((P ++ (oneOfPhrase ++ (oneOfClause es ++ ['.']))).drop 0) res, ?_, ?_, ?_⟩
  · unfold findStringSubmatch
    rw [searchFrom_of_run hrun]
  · have := submatches_getD_one typeOneOfPattern.re 2
      ((P ++ (oneOfPhrase ++ (oneOfClause es ++ ['.']))).drop 0) res
    rw [show typeOneOfPattern = ⟨typeOneOfPattern.re, 2 + 1⟩ from rfl, this, h1]
    rfl
  · have := submatches_getD_two typeOneOfPattern.re 1
      ((P ++ (oneOfPhrase ++ (oneOfClause es ++ ['.']))).drop 0) res
    rw [show typeOneOfPattern = ⟨typeOneOfPattern.re, 1 + 2⟩ from rfl, this, h2]
    rfl

set_option maxRecDepth 100000 in
/-- C5 at an input on which the code departs from it: the one entry is a type
expression without a back-quote that parses, the description ends in the
clause and matches neither the default nor the type-override pattern, and yet
no list is built: the entry group of the outer pattern may repeat zero times,
so the greedy `(.*)` runs to the phrase inside the entry, the outer pattern
matches with no entries, and the call panics. -/
theorem handleComment_oneOf_phrase_in_entry :
    backquote ∉ "struct\x7bA int \"Schema type is one of \"\x7d".toList ∧
    demoEnv.parseExpr "struct\x7bA int \"Schema type is one of \"\x7d".toList =
      .ok "struct\x7bA int \"Schema type is one of \"\x7d".toList ∧
    stripAnnotations
        "Foo is one of. Schema type is one of `struct\x7bA int \"Schema type is one of \"\x7d`.".toList =
      "Foo is one of. ".toList ++ (oneOfPhrase ++
        (oneOfClause ["struct\x7bA int \"Schema type is one of \"\x7d".toList] ++ ['.'])) ∧
    findStringSubmatch regexpDefaults
      "Foo is one of. Schema type is one of `struct\x7bA int \"Schema type is one of \"\x7d`.".toList =
      none ∧
    findStringSubmatch typeOverridePattern
      "Foo is one of. Schema type is one of `struct\x7bA int \"Schema type is one of \"\x7d`.".toList =
      none ∧
    handleComment demoEnv (demoGen false) "Foo".toList
      "Foo is one of. Schema type is one of `struct\x7bA int \"Schema type is one of \"\x7d`.".toList
      demoDef = .error (.panic "error matching oneOf comment with regex".toList) :=
  ⟨by decide, rfl, rfl, rfl, rfl, rfl⟩

theorem extractDefault_none {I G V X R : Type} (env : Env I G V X R) (s : Str)
    (d : Definition V R) (h : findStringSubmatch regexpDefaults s = none) :
    extractDefault env s d = .ok (s, d) := by
  unfold extractDefault
  rw [h]

/-- The oneOf clause on entries that leave the greedy prefix no later phrase
to run to: for non-empty entries `es` (at least one) that contain no
back-quote and not the phrase "Schema type is one of ", and each parse, a
comment whose tag-stripped description is some text followed by the clause
"Schema type is one of `e1`, `e2`, ..., `ek`." and matches neither the
default nor the type-override pattern makes the type-shape pass set `OneOf` to
a list of exactly as many definitions, the i-th the builder's result for the
parsed i-th entry, built in the order written; every successful call ends with
that list in `OneOf` and with `NoDerive = false`. -/
theorem handleComment_oneOf {I G V X R : Type} (env : Env I G V X R)
    (dg : Generator I G) (rawName comment : Str) (d d1 : Definition V R)
    (info : Option EnumCommentInformation) (before : Str) (es : List Str)
    (henum : env.handleEnumComments dg.Importer d comment = .ok (d1, info))
    (hk : es ≠ [])
    (hes : ∀ e ∈ es, e ≠ [] ∧ backquote ∉ e ∧ ¬ oneOfPhrase <:+: e)
    (hparse : ∀ e ∈ es, ∃ x, env.parseExpr e = .ok x)
    (hdesc : stripAnnotations (workingComment comment info) =
      before ++ (oneOfPhrase ++ (oneOfClause es ++ ['.'])))
    (hnodef : findStringSubmatch regexpDefaults
      (stripAnnotations (workingComment comment info)) = none)
    (hnoov : findStringSubmatch typeOverridePattern
      (stripAnnotations (workingComment comment info)) = none) :
    ∃ defs g', defs.length = es.length ∧ builtInOrder env dg dg.state es defs g' ∧
      extractSchemaType env dg (stripAnnotations (workingComment comment info)) d1 =
        .ok (trimSpace before, false, { d1 with OneOf := defs }, g') ∧
      ∀ res, handleComment env dg rawName comment d = .ok res →
        res.2.1.OneOf = defs ∧ res.1.NoDerive = false ∧ res.2.2 = g' := by
  have hnl : newline ∉ before := by
    intro h
    apply newline_not_mem_stripAnnotations (workingComment comment info)
    rw [hdesc]
    exact List.mem_append_left _ h
  obtain ⟨m, hm, hm1, hm2⟩ := find_typeOneOf before es hnl hes
  rw [← hdesc] at hm
  have hall := findAll_entries es (fun e he => ⟨(hes e he).1, (hes e he).2.1⟩)
  obtain ⟨defs, g', hloop, hbuilt, hlen⟩ := oneOfDefs_spec env dg
    (findAllStringSubmatch oneOfEntryPattern (oneOfClause es)) es dg.state [] hall hparse
  have hpass : extractSchemaType env dg (stripAnnotations (workingComment comment info)) d1 =
      .ok (trimSpace before, false, { d1 with OneOf := defs }, g') := by
    unfold extractSchemaType
    rw [hnoov]
    simp only [hm, hm1, hm2]
    cases hl : findAllStringSubmatch oneOfEntryPattern (oneOfClause es) with
    | nil =>
      rw [hl] at hall
      exact absurd hall.symm hk
    | cons t n =>
      rw [hl] at hloop
      simp only [hloop, List.nil_append]
  refine ⟨defs, g', hlen, hbuilt, hpass, ?_⟩
  intro res hok
  obtain ⟨d1', info', s1, d2, s2, nd, d3, g, -, henum', h1, h2, h3⟩ := handleComment_ok hok
  rw [henum] at henum'
  simp only [Except.ok.injEq, Prod.mk.injEq] at henum'
  obtain ⟨rfl, rfl⟩ := henum'
  rw [extractDefault_none env _ _ hnodef] at h1
  simp only [Except.ok.injEq, Prod.mk.injEq] at h1
  obtain ⟨rfl, rfl⟩ := h1
  rw [hpass] at h2
  simp only [Except.ok.injEq, Prod.mk.injEq] at h2
  obtain ⟨rfl, rfl, rfl, rfl⟩ := h2
  obtain ⟨-, rfl⟩ := finishComment_ok h3
  exact ⟨(extractExample_fields _ _).2.1, rfl, rfl⟩

set_option maxRecDepth 100000 in
/-- The comment of the specification, "Foo is one of. Schema type is one of
`A`, `B`.", gives two entries in the order `A`, `B`. -/
theorem handleComment_oneOf_witness :
    demoEnv.handleEnumComments (demoGen false).Importer demoDef
      "Foo is one of. Schema type is one of `A`, `B`.".toList = .ok (demoDef, none) ∧
    stripAnnotations (workingComment "Foo is one of. Schema type is one of `A`, `B`.".toList none) =
      "Foo is one of. ".toList ++ (oneOfPhrase ++ (oneOfClause ["A".toList, "B".toList] ++ ['.'])) ∧
    handleComment demoEnv (demoGen false) "Foo".toList
        "Foo is one of. Schema type is one of `A`, `B`.".toList demoDef =
      .ok (⟨false, false⟩,
        ⟨[], [⟨[], [], [], [], [], "A".toList⟩, ⟨[], [], [], [], [], "B".toList⟩], [],
          "one of.".toList, "one of.".toList, []⟩, 2) ∧
    ∃ defs g', defs.length = ["A".toList, "B".toList].length ∧
      builtInOrder demoEnv (demoGen false) (demoGen false).state ["A".toList, "B".toList]
        defs g' ∧
      extractSchemaType demoEnv (demoGen false)
          (stripAnnotations
            (workingComment "Foo is one of. Schema type is one of `A`, `B`.".toList none))
          demoDef =
        .ok (trimSpace "Foo is one of. ".toList, false, { demoDef with OneOf := defs }, g') ∧
      ∀ res, handleComment demoEnv (demoGen false) "Foo".toList
          "Foo is one of. Schema type is one of `A`, `B`.".toList demoDef = .ok res →
        res.2.1.OneOf = defs ∧ res.1.NoDerive = false ∧ res.2.2 = g' :=
  ⟨rfl, rfl, rfl,
    handleComment_oneOf demoEnv (demoGen false) "Foo".toList
      "Foo is one of. Schema type is one of `A`, `B`.".toList demoDef demoDef none
      "Foo is one of. ".toList ["A".toList, "B".toList] rfl (by simp)
      (by decide)
      (by
        intro e he
        rcases List.mem_cons.mp he with rfl | he
        · exact ⟨_, rfl⟩
        · rcases List.mem_cons.mp he with rfl | he
          · exact ⟨_, rfl⟩
          · cases he)
      rfl rfl rfl⟩

/-- C6: when the description that reaches the type-shape pass matches both
the type-override pattern and the oneOf pattern, the pass takes the override
branch only: it fails with the override's parse error or returns the stub for
the override expression with `noDerive = true`; on every successful call
`NoDerive` is true, `OneOf` is the stub's (not a list built from the oneOf
clause), and the generator is left as the single build for the override
expression leaves it, so that no definition is built from a oneOf entry. -/
theorem handleComment_override_wins {I G V X R : Type} (env : Env I G V X R)
    (dg : Generator I G) (rawName comment : Str) (d d1 d2 : Definition V R)
    (info : Option EnumCommentInformation) (s1 : Str) (m m' : List Str)
    (henum : env.handleEnumComments dg.Importer d comment = .ok (d1, info))
    (hdef : extractDefault env (stripAnnotations (workingComment comment info)) d1 =
      .ok (s1, d2))
    (hov : findStringSubmatch typeOverridePattern s1 = some m)
    (_hone : findStringSubmatch typeOneOfPattern s1 = some m') :
    (∀ err, env.parseExpr (m.getD 2 []) = .error err →
      extractSchemaType env dg s1 d2 =
        .error (.error ("couldn't parse type override ".toList ++ m.getD 2 [] ++
          ": ".toList ++ err))) ∧
    (∀ expr, env.parseExpr (m.getD 2 []) = .ok expr →
      extractSchemaType env dg s1 d2 =
        .ok (trimSpace (m.getD 1 []), true, (env.newPropertyRef dg [] expr [] false).1,
          (env.newPropertyRef dg [] expr [] false).2)) ∧
    ∀ res, handleComment env dg rawName comment d = .ok res →
      res.1.NoDerive = true ∧
      ∃ expr, env.parseExpr (m.getD 2 []) = .ok expr ∧
        res.2.1.OneOf = (env.newPropertyRef dg [] expr [] false).1.OneOf ∧
        res.2.2 = (env.newPropertyRef dg [] expr [] false).2 := by
  refine ⟨?_, ?_, ?_⟩
  · intro err herr
    unfold extractSchemaType
    rw [hov]
    simp only [herr]
  · intro expr hexpr
    exact extractSchemaType_override env dg s1 d2 m expr hov hexpr
  · intro res hok
    obtain ⟨d1', info', s1', d2', s2, nd, d3, g, -, henum', h1, h2, h3⟩ := handleComment_ok hok
    rw [henum] at henum'
    simp only [Except.ok.injEq, Prod.mk.injEq] at henum'
    obtain ⟨rfl, rfl⟩ := henum'
    rw [hdef] at h1
    simp only [Except.ok.injEq, Prod.mk.injEq] at h1
    obtain ⟨rfl, rfl⟩ := h1
    cases hp : env.parseExpr (m.getD 2 []) with
    | error err =>
      unfold extractSchemaType at h2
      rw [hov] at h2
      simp only [hp] at h2
      cases h2
    | ok expr =>
      rw [extractSchemaType_override env dg _ _ m expr hov hp] at h2
      simp only [Except.ok.injEq, Prod.mk.injEq] at h2
      obtain ⟨rfl, rfl, rfl, rfl⟩ := h2
      obtain ⟨-, rfl⟩ := finishComment_ok h3
      exact ⟨rfl, expr, rfl, (extractExample_fields _ _).2.1, rfl⟩

set_option maxRecDepth 100000 in
/-- C6 at a comment that carries a oneOf clause and then a type override. -/
theorem handleComment_override_wins_witness :
    demoEnv.handleEnumComments (demoGen false).Importer demoDef
      "Foo is the bar. Schema type is one of `A`. Schema type is `B`.".toList =
      .ok (demoDef, none) ∧
    extractDefault demoEnv
      (stripAnnotations (workingComment
        "Foo is the bar. Schema type is one of `A`. Schema type is `B`.".toList none)) demoDef =
      .ok ("Foo is the bar. Schema type is one of `A`. Schema type is `B`.".toList, demoDef) ∧
    findStringSubmatch typeOverridePattern
      "Foo is the bar. Schema type is one of `A`. Schema type is `B`.".toList =
      some ["Foo is the bar. Schema type is one of `A`. Schema type is `B`".toList,
        "Foo is the bar. Schema type is one of `A`. ".toList, "B".toList] ∧
    findStringSubmatch typeOneOfPattern
      "Foo is the bar. Schema type is one of `A`. Schema type is `B`.".toList =
      some ["Foo is the bar. Schema type is one of `A`".toList, "Foo is the bar. ".toList,
        [backquote, 'A', backquote], "A".toList] ∧
    handleComment demoEnv (demoGen false) "Foo".toList
        "Foo is the bar. Schema type is one of `A`. Schema type is `B`.".toList demoDef =
      .ok (⟨false, true⟩,
        ⟨[], [], [], "bar. Schema type is one of `A`.".toList,
          "bar. Schema type is one of `A`.".toList, "B".toList⟩, 1) ∧
    ((∀ err, demoEnv.parseExpr "B".toList = .error err →
      extractSchemaType demoEnv (demoGen false)
          "Foo is the bar. Schema type is one of `A`. Schema type is `B`.".toList demoDef =
        .error (.error ("couldn't parse type override ".toList ++ "B".toList ++
          ": ".toList ++ err))) ∧
    (∀ expr, demoEnv.parseExpr "B".toList = .ok expr →
      extractSchemaType demoEnv (demoGen false)
          "Foo is the bar. Schema type is one of `A`. Schema type is `B`.".toList demoDef =
        .ok (trimSpace "Foo is the bar. Schema type is one of `A`. ".toList, true,
          (demoEnv.newPropertyRef (demoGen false) [] expr [] false).1,
          (demoEnv.newPropertyRef (demoGen false) [] expr [] false).2)) ∧
    ∀ res, handleComment demoEnv (demoGen false) "Foo".toList
        "Foo is the bar. Schema type is one of `A`. Schema type is `B`.".toList demoDef =
        .ok res →
      res.1.NoDerive = true ∧
      ∃ expr, demoEnv.parseExpr "B".toList = .ok expr ∧
        res.2.1.OneOf = (demoEnv.newPropertyRef (demoGen false) [] expr [] false).1.OneOf ∧
        res.2.2 = (demoEnv.newPropertyRef (demoGen false) [] expr [] false).2) :=
  ⟨rfl, rfl, rfl, rfl, rfl,
    handleComment_override_wins demoEnv (demoGen false) "Foo".toList
      "Foo is the bar. Schema type is one of `A`. Schema type is `B`.".toList
      demoDef demoDef demoDef none
      "Foo is the bar. Schema type is one of `A`. Schema type is `B`.".toList
      ["Foo is the bar. Schema type is one of `A`. Schema type is `B`".toList,
        "Foo is the bar. Schema type is one of `A`. ".toList, "B".toList]
      ["Foo is the bar. Schema type is one of `A`".toList, "Foo is the bar. ".toList,
        [backquote, 'A', backquote], "A".toList]
      rfl rfl rfl rfl⟩

/-- C7: when the description left by the default and type-shape passes
matches the example pattern, it is some text, the phrase "For example: " with
its back-quote, the quoted text, a back-quote and a tail; the example pass,
which is a function of the description and the definition alone and so calls
no parser, returns the trimmed text before the phrase and sets `Examples` to
the one-element list of the quoted text, whatever the caller had supplied;
every successful call ends with that list, and the call succeeds whenever
strict mode is off or the name is empty. -/
theorem handleComment_example {I G V X R : Type} (env : Env I G V X R)
    (dg : Generator I G) (rawName comment : Str) (d d1 d2 d3 : Definition V R)
    (info : Option EnumCommentInformation) (s1 s2 : Str) (nd : Bool) (g : G) (m : List Str)
    (hname : plainName (env.interpretReference rawName).2 = true)
    (henum : env.handleEnumComments dg.Importer d comment = .ok (d1, info))
    (hdef : extractDefault env (stripAnnotations (workingComment comment info)) d1 =
      .ok (s1, d2))
    (htype : extractSchemaType env dg s1 d2 = .ok (s2, nd, d3, g))
    (hm : findStringSubmatch regexpExample s2 = some m) :
    (∃ before tail,
      s2 = before ++ "For example: `".toList ++ m.getD 2 [] ++ backquote :: tail ∧
      extractExample s2 d3 = (trimSpace before, { d3 with Examples := [m.getD 2 []] })) ∧
    (∀ res, handleComment env dg rawName comment d = .ok res →
      res.2.1.Examples = [m.getD 2 []]) ∧
    (dg.Strict = false ∨ (env.interpretReference rawName).2 = [] →
      ∃ res, handleComment env dg rawName comment d = .ok res) := by
  have hs1 : newline ∉ s1 :=
    not_mem_of_infix (extractDefault_sub hdef) (newline_not_mem_stripAnnotations _)
  have hs2 : newline ∉ s2 := not_mem_of_infix (extractSchemaType_sub htype) hs1
  obtain ⟨x1, x2, post, hs, hmeq⟩ := find_clause_line hs2 hm
  have hm1 : m.getD 1 [] = x1 := by rw [hmeq]; rfl
  have hm2 : m.getD 2 [] = x2 := by rw [hmeq]; rfl
  have hpass : extractExample s2 d3 = (trimSpace x1, { d3 with Examples := [m.getD 2 []] }) := by
    unfold extractExample
    rw [hm]
    simp only [hm1]
  refine ⟨⟨x1, post, by rw [hm2]; exact hs, hpass⟩, ?_, ?_⟩
  · intro res hok
    obtain ⟨d1', info', s1', d2', s2', nd', d3', g', -, henum', h1, h2, h3⟩ :=
      handleComment_ok hok
    rw [henum] at henum'
    simp only [Except.ok.injEq, Prod.mk.injEq] at henum'
    obtain ⟨rfl, rfl⟩ := henum'
    rw [hdef] at h1
    simp only [Except.ok.injEq, Prod.mk.injEq] at h1
    obtain ⟨rfl, rfl⟩ := h1
    rw [htype] at h2
    simp only [Except.ok.injEq, Prod.mk.injEq] at h2
    obtain ⟨rfl, rfl, rfl, rfl⟩ := h2
    obtain ⟨-, rfl⟩ := finishComment_ok h3
    simp only [hpass]
  · intro hlen
    have hpre : (dg.Strict && (env.interpretReference rawName).2 != [] &&
        !hasPrefix comment ((env.interpretReference rawName).2 ++ " ".toList)) = false := by
      rcases hlen with h | h
      · rw [h]; rfl
      · rw [h]; simp
    rw [handleComment_eq env dg rawName comment d d1 info hpre henum, hdef]
    simp only [htype]
    rw [finishComment_lenient env _ _ _ _ _ _ _ _ hname hlen]
    exact ⟨_, rfl⟩

set_option maxRecDepth 100000 in
/-- C7 at the comment of the specification, with a caller-supplied example
that the pass replaces: "Foo is the bar. For example: `bar-example`." gives
the examples ["bar-example"] and the description "bar.". -/
theorem handleComment_example_witness :
    plainName (demoEnv.interpretReference "Foo".toList).2 = true ∧
    demoEnv.handleEnumComments (demoGen false).Importer
      ({ demoDef with Examples := ["old".toList] })
      "Foo is the bar. For example: `bar-example`.".toList =
      .ok ({ demoDef with Examples := ["old".toList] }, none) ∧
    extractDefault demoEnv
      (stripAnnotations (workingComment
        "Foo is the bar. For example: `bar-example`.".toList none))
      ({ demoDef with Examples := ["old".toList] }) =
      .ok ("Foo is the bar. For example: `bar-example`.".toList,
        { demoDef with Examples := ["old".toList] }) ∧
    extractSchemaType demoEnv (demoGen false)
      "Foo is the bar. For example: `bar-example`.".toList
      ({ demoDef with Examples := ["old".toList] }) =
      .ok ("Foo is the bar. For example: `bar-example`.".toList, false,
        { demoDef with Examples := ["old".toList] }, 0) ∧
    findStringSubmatch regexpExample "Foo is the bar. For example: `bar-example`.".toList =
      some ["Foo is the bar. For example: `bar-example`".toList, "Foo is the bar. ".toList,
        "bar-example".toList] ∧
    handleComment demoEnv (demoGen false) "Foo".toList
        "Foo is the bar. For example: `bar-example`.".toList
        ({ demoDef with Examples := ["old".toList] }) =
      .ok (⟨false, false⟩,
        ⟨[], [], ["bar-example".toList], "bar.".toList, "bar.".toList, []⟩, 0) ∧
    ((∃ before tail,
      "Foo is the bar. For example: `bar-example`.".toList =
        before ++ "For example: `".toList ++ "bar-example".toList ++ backquote :: tail ∧
      extractExample "Foo is the bar. For example: `bar-example`.".toList
          ({ demoDef with Examples := ["old".toList] }) =
        (trimSpace before,
          { ({ demoDef with Examples := ["old".toList] } : Definition Str Str) with
            Examples := ["bar-example".toList] })) ∧
    (∀ res, handleComment demoEnv (demoGen false) "Foo".toList
        "Foo is the bar. For example: `bar-example`.".toList
        ({ demoDef with Examples := ["old".toList] }) = .ok res →
      res.2.1.Examples = ["bar-example".toList]) ∧
    ((demoGen false).Strict = false ∨ (demoEnv.interpretReference "Foo".toList).2 = [] →
      ∃ res, handleComment demoEnv (demoGen false) "Foo".toList
        "Foo is the bar. For example: `bar-example`.".toList
        ({ demoDef with Examples := ["old".toList] }) = .ok res)) :=
  ⟨rfl, rfl, rfl, rfl, rfl, rfl,
    handleComment_example demoEnv (demoGen false) "Foo".toList
      "Foo is the bar. For example: `bar-example`.".toList
      ({ demoDef with Examples := ["old".toList] }) ({ demoDef with Examples := ["old".toList] })
      ({ demoDef with Examples := ["old".toList] }) ({ demoDef with Examples := ["old".toList] })
      none "Foo is the bar. For example: `bar-example`.".toList
      "Foo is the bar. For example: `bar-example`.".toList false 0
      ["Foo is the bar. For example: `bar-example`".toList, "Foo is the bar. ".toList,
        "bar-example".toList]
      rfl rfl rfl rfl rfl⟩

theorem extractSchemaType_none {I G V X R : Type} (env : Env I G V X R) (dg : Generator I G)
    (s : Str) (d : Definition V R)
    (h1 : findStringSubmatch typeOverridePattern s = none)
    (h2 : findStringSubmatch typeOneOfPattern s = none) :
    extractSchemaType env dg s d = .ok (s, false, d, dg.state) := by
  unfold extractSchemaType
  rw [h1]
  simp only [h2]

theorem extractExample_none {V R : Type} (s : Str) (d : Definition V R)
    (h : findStringSubmatch regexpExample s = none) : extractExample s d = (s, d) := by
  unfold extractExample
  rw [h]

theorem handleComment_plain {I G V X R : Type} (env : Env I G V X R) (dg : Generator I G)
    (rawName comment : Str) (d d1 : Definition V R) (info : Option EnumCommentInformation)
    (hpre : (dg.Strict && (env.interpretReference rawName).2 != [] &&
      !hasPrefix comment ((env.interpretReference rawName).2 ++ " ".toList)) = false)
    (henum : env.handleEnumComments dg.Importer d comment = .ok (d1, info))
    (hno : noClause (stripAnnotations (workingComment comment info))) :
    handleComment env dg rawName comment d =
      finishComment env dg.Strict (env.interpretReference rawName).2
        (stripAnnotations (workingComment comment info)) (synthesizedFragment info)
        (requiredOf (workingComment comment info)) false d1 dg.state := by
  obtain ⟨h1, h2, h3, h4⟩ := hno
  rw [handleComment_eq env dg rawName comment d d1 info hpre henum,
    extractDefault_none env _ _ h1]
  simp only [extractSchemaType_none env dg _ _ h2 h3, extractExample_none _ _ h4]

theorem strict_message_ne (x y z name : Str) :
    ("couldn't parse ".toList ++ x ≠ "comment should start with field name on field ".toList ++ name) ∧
    ("couldn't parse ".toList ++ y ≠ "no description on field ".toList ++ name) ∧
    ("couldn't parse ".toList ++ z ≠ "description should end with a dot on field ".toList ++ name) := by
  refine ⟨?_, ?_, ?_⟩ <;> intro h <;> simp at h

theorem oneOfDefs_error {I G V X R : Type} (env : Env I G V X R) (dg : Generator I G)
    (l : List (List Str)) (g : G) (acc : List (Definition V R)) (f : Failure)
    (h : oneOfDefs env dg l g acc = .error f) :
    ∃ x, f = .error ("couldn't parse ".toList ++ x) := by
  induction l generalizing g acc with
  | nil => simp [oneOfDefs] at h
  | cons t n ih =>
    simp only [oneOfDefs] at h
    split at h
    · rename_i err _
      simp only [Except.error.injEq] at h
      exact ⟨"`oneOf` type ".toList ++ t.getD 1 [] ++ ": ".toList ++ err, by rw [← h]; simp⟩
    · exact ih _ _ h

theorem lenient_error {I G V X R : Type} (env : Env I G V X R) (dg : Generator I G)
    (rawName comment : Str) (d d1 : Definition V R) (info : Option EnumCommentInformation)
    (f : Failure)
    (hlen : dg.Strict = false ∨ (env.interpretReference rawName).2 = [])
    (henum : env.handleEnumComments dg.Importer d comment = .ok (d1, info))
    (h : handleComment env dg rawName comment d = .error f) :
    f = .unsupportedName ∨ (∃ msg, f = .panic msg) ∨
      ∃ x, f = .error ("couldn't parse ".toList ++ x) := by
  have hpre : (dg.Strict && (env.interpretReference rawName).2 != [] &&
      !hasPrefix comment ((env.interpretReference rawName).2 ++ " ".toList)) = false := by
    rcases hlen with h | h
    · rw [h]; rfl
    · rw [h]; simp
  rw [handleComment_eq env dg rawName comment d d1 info hpre henum] at h
  split at h
  · rename_i f' hd
    simp only [Except.error.injEq] at h
    subst h
    unfold extractDefault at hd
    split at hd
    · rename_i m _
      split at hd
      · rename_i err _
        simp only [Except.error.injEq] at hd
        exact Or.inr (Or.inr ⟨"default value from ".toList ++ m.getD 2 [] ++ ": ".toList ++ err,
          by rw [← hd]; simp⟩)
      · cases hd
    · cases hd
  · rename_i s1 d2 _
    split at h
    · rename_i f' ht
      simp only [Except.error.injEq] at h
      subst h
      unfold extractSchemaType at ht
      split at ht
      · rename_i m _
        split at ht
        · rename_i err _
          simp only [Except.error.injEq] at ht
          exact Or.inr (Or.inr ⟨"type override ".toList ++ m.getD 2 [] ++ ": ".toList ++ err,
            by rw [← ht]; simp⟩)
        · cases ht
      · split at ht
        · split at ht
          · simp only [Except.error.injEq] at ht
            exact Or.inr (Or.inl ⟨_, ht.symm⟩)
          · split at ht
            · rename_i f'' hl
              simp only [Except.error.injEq] at ht
              subst ht
              exact Or.inr (Or.inr (oneOfDefs_error _ _ _ _ _ _ hl))
            · cases ht
        · cases ht
    · rename_i s2 nd d3 g _
      unfold finishComment removeTypeNameFromComment at h
      by_cases hp : plainName (env.interpretReference rawName).2 = true
      · simp only [hp, if_true] at h
        rcases hlen with hs | hs
        · simp [hs] at h
        · simp [hs] at h
      · simp only [hp, Bool.false_eq_true, if_false, Except.error.injEq] at h
        exact Or.inl h.symm

/-- Strict-mode validation where no pass matches: for a comment whose
description matches none of the four patterns, so that it does not even
contain the phrase "Schema type is one of ", and on which the enum pass
recognises nothing, `handleComment` returns an error exactly when strict mode
is on, the name is not empty, and the comment does not start with the name and
a space, or the final prose description is empty, or it does not end with a
dot. And for any comment that passes the enum pass, with strict mode off or an
empty name the call ends in none of these three errors. -/
theorem handleComment_strict_validation {I G V X R : Type} (env : Env I G V X R)
    (dg : Generator I G) (rawName comment : Str) (d d1 : Definition V R)
    (hname : plainName (env.interpretReference rawName).2 = true)
    (henum : env.handleEnumComments dg.Importer d comment = .ok (d1, none))
    (hno : noClause (stripAnnotations comment)) :
    ((∃ msg, handleComment env dg rawName comment d = .error (.error msg)) ↔
      dg.Strict = true ∧ (env.interpretReference rawName).2 ≠ [] ∧
        (hasPrefix comment ((env.interpretReference rawName).2 ++ " ".toList) = false ∨
          stripTypeName (env.interpretReference rawName).2 (stripAnnotations comment) = [] ∨
          hasSuffix (stripTypeName (env.interpretReference rawName).2
            (stripAnnotations comment)) ".".toList = false)) ∧
    ∀ (comment' : Str) (d' d1' : Definition V R) (info' : Option EnumCommentInformation),
      dg.Strict = false ∨ (env.interpretReference rawName).2 = [] →
      env.handleEnumComments dg.Importer d' comment' = .ok (d1', info') →
      handleComment env dg rawName comment' d' ≠
        .error (.error ("comment should start with field name on field ".toList ++
          (env.interpretReference rawName).2)) ∧
      handleComment env dg rawName comment' d' ≠
        .error (.error ("no description on field ".toList ++
          (env.interpretReference rawName).2)) ∧
      handleComment env dg rawName comment' d' ≠
        .error (.error ("description should end with a dot on field ".toList ++
          (env.interpretReference rawName).2)) := by
  constructor
  · cases hpre : (dg.Strict && (env.interpretReference rawName).2 != [] &&
        !hasPrefix comment ((env.interpretReference rawName).2 ++ " ".toList)) with
    | true =>
      have hpre0 := hpre
      simp only [Bool.and_eq_true, bne_iff_ne, ne_eq, Bool.not_eq_true'] at hpre
      constructor
      · intro _
        exact ⟨hpre.1.1, hpre.1.2, Or.inl hpre.2⟩
      · intro _
        refine ⟨"comment should start with field name on field ".toList ++
          (env.interpretReference rawName).2, ?_⟩
        unfold handleComment
        simp only [hpre0, if_true]
    | false =>
      rw [handleComment_plain env dg rawName comment d d1 none hpre henum hno]
      unfold finishComment removeTypeNameFromComment
      simp only [hname, if_true, workingComment]
      by_cases hs : dg.Strict = true
      · by_cases hn : (env.interpretReference rawName).2 = []
        · simp [hs, hn]
        · have hpf : hasPrefix comment ((env.interpretReference rawName).2 ++ " ".toList) =
              true := by
            simpa [hs, hn] using hpre
          by_cases he : stripTypeName (env.interpretReference rawName).2
              (stripAnnotations comment) = []
          · simp [hs, hn, he]
          · cases hsf : hasSuffix (stripTypeName (env.interpretReference rawName).2
                (stripAnnotations comment)) ".".toList with
            | true =>
              have hpf' : hasPrefix comment ((env.interpretReference rawName).2 ++ [' ']) =
                  true := hpf
              simp [hs, hn, he, hsf, hpf']
            | false => simp [hs, hn, he, hsf]
      · simp [hs]
  · intro comment' d' d1' info' hlen henum'
    have key : ∀ msg : Str,
        handleComment env dg rawName comment' d' = .error (.error msg) →
        ∃ x, msg = "couldn't parse ".toList ++ x := by
      intro msg h
      rcases lenient_error env dg rawName comment' d' d1' info' _ hlen henum' h with
        h1 | ⟨_, h1⟩ | ⟨x, h1⟩
      · cases h1
      · cases h1
      · simp only [Failure.error.injEq] at h1
        exact ⟨x, h1⟩
    refine ⟨?_, ?_, ?_⟩
    · intro h
      obtain ⟨x, hx⟩ := key _ h
      exact (strict_message_ne x x x _).1 hx.symm
    · intro h
      obtain ⟨x, hx⟩ := key _ h
      exact (strict_message_ne x x x _).2.1 hx.symm
    · intro h
      obtain ⟨x, hx⟩ := key _ h
      exact (strict_message_ne x x x _).2.2 hx.symm

set_option maxRecDepth 100000 in
/-- A strict call on a comment without the trailing dot. -/
theorem handleComment_strict_validation_witness :
    plainName (demoEnv.interpretReference "Foo".toList).2 = true ∧
    demoEnv.handleEnumComments (demoGen true).Importer demoDef "Foo is the bar".toList =
      .ok (demoDef, none) ∧
    noClause (stripAnnotations "Foo is the bar".toList) ∧
    handleComment demoEnv (demoGen true) "Foo".toList "Foo is the bar".toList demoDef =
      .error (.error "description should end with a dot on field Foo".toList) ∧
    (((∃ msg, handleComment demoEnv (demoGen true) "Foo".toList "Foo is the bar".toList
          demoDef = .error (.error msg)) ↔
      (demoGen true).Strict = true ∧ (demoEnv.interpretReference "Foo".toList).2 ≠ [] ∧
        (hasPrefix "Foo is the bar".toList
            ((demoEnv.interpretReference "Foo".toList).2 ++ " ".toList) = false ∨
          stripTypeName (demoEnv.interpretReference "Foo".toList).2
            (stripAnnotations "Foo is the bar".toList) = [] ∨
          hasSuffix (stripTypeName (demoEnv.interpretReference "Foo".toList).2
            (stripAnnotations "Foo is the bar".toList)) ".".toList = false)) ∧
    ∀ (comment' : Str) (d' d1' : Definition Str Str) (info' : Option EnumCommentInformation),
      (demoGen true).Strict = false ∨ (demoEnv.interpretReference "Foo".toList).2 = [] →
      demoEnv.handleEnumComments (demoGen true).Importer d' comment' = .ok (d1', info') →
      handleComment demoEnv (demoGen true) "Foo".toList comment' d' ≠
        .error (.error ("comment should start with field name on field ".toList ++
          (demoEnv.interpretReference "Foo".toList).2)) ∧
      handleComment demoEnv (demoGen true) "Foo".toList comment' d' ≠
        .error (.error ("no description on field ".toList ++
          (demoEnv.interpretReference "Foo".toList).2)) ∧
      handleComment demoEnv (demoGen true) "Foo".toList comment' d' ≠
        .error (.error ("description should end with a dot on field ".toList ++
          (demoEnv.interpretReference "Foo".toList).2))) :=
  ⟨rfl, rfl, by decide, rfl,
    handleComment_strict_validation demoEnv (demoGen true) "Foo".toList
      "Foo is the bar".toList demoDef demoDef rfl rfl (by decide)⟩

theorem infix_intercalate_of_mem (sep x : Str) (l : List Str) (h : x ∈ l) :
    x <:+: sep.intercalate l := by
  induction l with
  | nil => cases h
  | cons y ys ih =>
    cases ys with
    | nil =>
      rcases List.mem_cons.mp h with rfl | h'
      · simp [List.intercalate]
      · cases h'
    | cons z zs =>
      have e : sep.intercalate (y :: z :: zs) = y ++ sep ++ sep.intercalate (z :: zs) := by
        simp [List.intercalate]
      rw [e]
      rcases List.mem_cons.mp h with rfl | h'
      · exact ⟨[], sep ++ sep.intercalate (z :: zs), by simp⟩
      · exact (ih h').trans ⟨y ++ sep, [], by simp⟩

theorem infix_of_hasLine {s x : Str} (h : hasLine s x) : x <:+: s := by
  have := infix_intercalate_of_mem [newline] x (lines s) h
  unfold lines at this
  rwa [List.intercalate_splitOn] at this

theorem stripAnnotations_of_no_token (comment : Str)
    (h1 : ¬ "+required".toList <:+: comment) (h2 : ¬ "+optional".toList <:+: comment) :
    stripAnnotations comment = trimSpace (replaceAll comment [newline] [' ']) := by
  unfold stripAnnotations
  rw [replaceAll_absent _ _ comment (by decide) h1, replaceAll_absent _ _ comment (by decide) h2]

theorem noTrailingSpace_trimSpace (y : Str) : noTrailingSpace (trimSpace y) := by
  intro c hc
  unfold trimSpace at hc
  by_cases hne : List.rdropWhile isSpace (List.dropWhile isSpace y) = []
  · rw [hne] at hc
    cases hc
  · have h1 := List.rdropWhile_last_not isSpace (List.dropWhile isSpace y) hne
    rw [List.getLast?_eq_getLast _ hne] at hc
    simp only [Option.mem_def, Option.some.injEq] at hc
    rw [← hc]
    simpa using h1

theorem trimSpace_eq_self (s : Str) (h1 : noLeadingSpace s) (h2 : noTrailingSpace s) :
    trimSpace s = s := by
  unfold trimSpace
  have hd : List.dropWhile isSpace s = s := by
    rw [List.dropWhile_eq_self_iff]
    intro hl
    have := h1 (s[0]) (by
      cases s with
      | nil => simp at hl
      | cons c cs => simp)
    simpa using this
  rw [hd, List.rdropWhile_eq_self_iff]
  intro hl
  have := h2 (s.getLast hl) (by rw [List.getLast?_eq_getLast _ hl]; rfl)
  simpa using this

theorem noTrailingSpace_extractDefault {I G V X R : Type} {env : Env I G V X R} {s s' : Str}
    {d d' : Definition V R} (hs : noTrailingSpace s)
    (h : extractDefault env s d = .ok (s', d')) : noTrailingSpace s' := by
  unfold extractDefault at h
  split at h
  · split at h
    · cases h
    · simp only [Except.ok.injEq, Prod.mk.injEq] at h
      rw [← h.1]
      exact noTrailingSpace_trimSpace _
  · simp only [Except.ok.injEq, Prod.mk.injEq] at h
    rw [← h.1]
    exact hs

theorem noTrailingSpace_extractSchemaType {I G V X R : Type} {env : Env I G V X R}
    {dg : Generator I G} {s s' : Str} {nd : Bool} {d d' : Definition V R} {g : G}
    (hs : noTrailingSpace s)
    (h : extractSchemaType env dg s d = .ok (s', nd, d', g)) : noTrailingSpace s' := by
  unfold extractSchemaType at h
  split at h
  · split at h
    · cases h
    · simp only [Except.ok.injEq, Prod.mk.injEq] at h
      rw [← h.1]
      exact noTrailingSpace_trimSpace _
  · split at h
    · split at h
      · cases h
      · split at h
        · cases h
        · simp only [Except.ok.injEq, Prod.mk.injEq] at h
          rw [← h.1]
          exact noTrailingSpace_trimSpace _
    · simp only [Except.ok.injEq, Prod.mk.injEq] at h
      rw [← h.1]
      exact hs

theorem noTrailingSpace_extractExample {V R : Type} (s : Str) (d : Definition V R)
    (hs : noTrailingSpace s) : noTrailingSpace (extractExample s d).1 := by
  unfold extractExample
  split
  · exact noTrailingSpace_trimSpace _
  · exact hs

theorem getLast?_append_ne_nil (x r : Str) (hr : r ≠ []) :
    (x ++ r).getLast? = r.getLast? := by
  rw [List.getLast?_append]
  cases h : r.getLast? with
  | none => exact absurd (List.getLast?_eq_none_iff.mp h) hr
  | some c => rfl

theorem ends_with_space (name a v : Str) (ha : asideText a) (hv : v ∈ verbPhrases) :
    (name ++ ' ' :: (a ++ v)).getLast? = some ' ' := by
  have e : name ++ ' ' :: (a ++ v) = (name ++ [' ']) ++ (a ++ v) := by simp
  by_cases hv0 : v = []
  · subst hv0
    rcases ha with rfl | ⟨y, -, rfl⟩
    · simp
    · rw [e, List.append_nil, getLast?_append_ne_nil _ _ (by simp)]
      have e2 : '*' :: y ++ ['*', ' '] = ('*' :: y ++ ['*']) ++ [' '] := by simp
      rw [e2, getLast?_append_ne_nil _ _ (by simp)]
      rfl
  · rw [e, ← List.append_assoc, getLast?_append_ne_nil _ _ hv0]
    simp only [verbPhrases, List.mem_cons, List.mem_singleton] at hv
    rcases hv with rfl | rfl | rfl | rfl | rfl | rfl | hv
    · exact absurd rfl hv0
    all_goals first | rfl | cases hv

theorem noTrailingSpace_stripTypeName (name d : Str) (hd : noTrailingSpace d) :
    noTrailingSpace (stripTypeName name d) := by
  rcases stripTypeName_cases name d with h | ⟨a, v, r, hdec, ha, hv, h⟩
  · rwa [h]
  · rw [h]
    by_cases hr : r = []
    · subst hr
      exfalso
      have hl := ends_with_space name a v ha hv
      rw [List.append_nil] at hdec
      rw [← hdec] at hl
      have := hd ' ' hl
      simp [isSpace] at this
    · intro c hc
      rw [getLast?_append_ne_nil _ _ hr] at hc
      apply hd c
      rw [hdec]
      have e : name ++ ' ' :: (a ++ v ++ r) = (name ++ ' ' :: (a ++ v)) ++ r := by simp
      rw [e, getLast?_append_ne_nil _ _ hr]
      exact hc

theorem subset_stripTypeName (name d : Str) (c : Char) (h : c ∈ stripTypeName name d) :
    c ∈ d := by
  rcases stripTypeName_cases name d with h1 | ⟨a, v, r, hdec, -, -, h1⟩
  · rwa [h1] at h
  · rw [h1] at h
    rw [hdec]
    rcases List.mem_append.mp h with h2 | h2
    · simp [h2]
    · simp [h2]

theorem handleComment_description_clean {I G V X R : Type} {env : Env I G V X R}
    {dg : Generator I G} {rawName comment : Str} {d d1 : Definition V R}
    {res : Meta × Definition V R × G}
    (henum : env.handleEnumComments dg.Importer d comment = .ok (d1, none))
    (hok : handleComment env dg rawName comment d = .ok res) :
    plainName (env.interpretReference rawName).2 = true ∧
    newline ∉ res.2.1.Description ∧ noTrailingSpace res.2.1.Description := by
  obtain ⟨d1', info, s1, d2, s2, nd, d3, g, -, henum', h1, h2, h3⟩ := handleComment_ok hok
  rw [henum] at henum'
  simp only [Except.ok.injEq, Prod.mk.injEq] at henum'
  obtain ⟨rfl, rfl⟩ := henum'
  obtain ⟨hp, rfl⟩ := finishComment_ok h3
  have hsub : (extractExample s2 d3).1 <:+: stripAnnotations comment :=
    (extractExample_sub s2 d3).trans ((extractSchemaType_sub h2).trans (extractDefault_sub h1))
  have hnl : newline ∉ (extractExample s2 d3).1 :=
    not_mem_of_infix hsub (newline_not_mem_stripAnnotations _)
  have htr : noTrailingSpace (extractExample s2 d3).1 :=
    noTrailingSpace_extractExample _ _ (noTrailingSpace_extractSchemaType
      (noTrailingSpace_extractDefault (noTrailingSpace_trimSpace _) h1) h2)
  simp only [synthesizedFragment, joinIfNotEmpty_pair_nil]
  exact ⟨hp, fun h => hnl (subset_stripTypeName _ _ _ h), noTrailingSpace_stripTypeName _ _ htr⟩

set_option maxRecDepth 100000 in
/-- C11 at an input on which the code departs from it: the enum pass recognises
nothing, the non-strict call succeeds, and the final `Description` contains
`+required`; on a second comment it contains `+optional`. Each token is
deleted in one pass over the text, `+required` first, and deleting one token
can join the text around it into another one. -/
theorem handleComment_token_reassembled :
    demoEnv.handleEnumComments (demoGen false).Importer demoDef
      "Foo is the bar. +req+optionaluired".toList = .ok (demoDef, none) ∧
    handleComment demoEnv (demoGen false) "Foo".toList
        "Foo is the bar. +req+optionaluired".toList demoDef =
      .ok (⟨false, false⟩,
        ⟨[], [], [], "bar. +required".toList, "bar. +required".toList, []⟩, 0) ∧
    "+required".toList <:+: "bar. +required".toList ∧
    demoEnv.handleEnumComments (demoGen false).Importer demoDef
      "Foo is the bar. +opti+optionalonal".toList = .ok (demoDef, none) ∧
    handleComment demoEnv (demoGen false) "Foo".toList
        "Foo is the bar. +opti+optionalonal".toList demoDef =
      .ok (⟨false, false⟩,
        ⟨[], [], [], "bar. +optional".toList, "bar. +optional".toList, []⟩, 0) ∧
    "+optional".toList <:+: "bar. +optional".toList :=
  ⟨rfl, rfl, by decide, rfl, rfl, by decide⟩

/-- The tokens that survive are the reassembled ones: when the enum pass
recognises nothing and the call succeeds, a token `+required` or `+optional` occurs in the final `Description`
only if it occurs in the comment after `+required` and then `+optional` have
been deleted from it. -/
theorem handleComment_description_tokens {I G V X R : Type} {env : Env I G V X R}
    {dg : Generator I G} {rawName comment : Str} {d d1 : Definition V R}
    {res : Meta × Definition V R × G}
    (henum : env.handleEnumComments dg.Importer d comment = .ok (d1, none))
    (hok : handleComment env dg rawName comment d = .ok res)
    (hclean : ¬ "+required".toList <:+:
        replaceAll (replaceAll comment "+required".toList []) "+optional".toList [] ∧
      ¬ "+optional".toList <:+:
        replaceAll (replaceAll comment "+required".toList []) "+optional".toList []) :
    ¬ "+required".toList <:+: res.2.1.Description ∧
    ¬ "+optional".toList <:+: res.2.1.Description := by
  obtain ⟨s3, hs3, hdesc, -⟩ := handleComment_description henum hok
  rw [hdesc]
  constructor
  · intro h
    exact hclean.1 (infix_stripAnnotations (by decide)
      ((infix_stripTypeName (by decide) h).trans hs3))
  · intro h
    exact hclean.2 (infix_stripAnnotations (by decide)
      ((infix_stripTypeName (by decide) h).trans hs3))

set_option maxRecDepth 100000 in
/-- C13 at an input on which the code departs from it: the description matches
the outer oneOf pattern, the text captured for the entries is empty, the entry
pattern finds nothing in it, and the non-strict call ends in the panic of line
90. The entry group of the outer pattern may repeat zero times, so the phrase
"Schema type is one of " alone makes the outer pattern match. -/
theorem handleComment_oneOf_panic_reached :
    stripAnnotations "Foo is the bar. Schema type is one of A or B.".toList =
      "Foo is the bar. Schema type is one of A or B.".toList ∧
    findStringSubmatch regexpDefaults "Foo is the bar. Schema type is one of A or B.".toList =
      none ∧
    findStringSubmatch typeOverridePattern
      "Foo is the bar. Schema type is one of A or B.".toList = none ∧
    findStringSubmatch typeOneOfPattern "Foo is the bar. Schema type is one of A or B.".toList =
      some ["Foo is the bar. Schema type is one of ".toList, "Foo is the bar. ".toList, [], []] ∧
    findAllStringSubmatch oneOfEntryPattern [] = [] ∧
    handleComment demoEnv (demoGen false) "Foo".toList
        "Foo is the bar. Schema type is one of A or B.".toList demoDef =
      .error (.panic "error matching oneOf comment with regex".toList) :=
  ⟨rfl, rfl, rfl, rfl, rfl, rfl⟩

theorem joinIfNotEmpty_pair (sep x y : Str) :
    joinIfNotEmpty sep [x, y] =
      if x = [] then y else if y = [] then x else x ++ sep ++ y := by
  unfold joinIfNotEmpty join
  cases x with
  | nil =>
    cases y with
    | nil => rfl
    | cons b y =>
      simp [List.filter, List.intercalate, show ((b :: y : Str) != []) = true from rfl]
  | cons a x =>
    cases y with
    | nil =>
      simp [List.filter, List.intercalate, show ((a :: x : Str) != []) = true from rfl]
    | cons b y =>
      simp [List.filter, List.intercalate, show ((a :: x : Str) != []) = true from rfl,
        show ((b :: y : Str) != []) = true from rfl]

/-- C16: `joinIfNotEmpty sep elems` is the elements of `elems` that are not
empty, in their order, joined by `sep`; for two elements it is the first, the
separator and the second when both are non-empty, the non-empty one when
exactly one is, and empty when both are. On a successful call of
`handleComment`, the passes leaving the description `s2` before the example
pass, `Description` is so made of the description that
`removeTypeNameFromComment` returns and of the enum pass's fragment, with one
space as separator. -/
theorem joinIfNotEmpty_spec {I G V X R : Type} (env : Env I G V X R)
    (dg : Generator I G) (rawName comment : Str) (d d1 d2 d3 : Definition V R)
    (info : Option EnumCommentInformation) (s1 s2 : Str) (nd : Bool) (g : G)
    (res : Meta × Definition V R × G)
    (henum : env.handleEnumComments dg.Importer d comment = .ok (d1, info))
    (hdef : extractDefault env (stripAnnotations (workingComment comment info)) d1 =
      .ok (s1, d2))
    (htype : extractSchemaType env dg s1 d2 = .ok (s2, nd, d3, g))
    (hok : handleComment env dg rawName comment d = .ok res) :
    (∀ (sep : Str) (elems : List Str),
      joinIfNotEmpty sep elems = sep.intercalate (elems.filter (fun e => e ≠ []))) ∧
    (∀ sep x y : Str, joinIfNotEmpty sep [x, y] =
      if x = [] then y else if y = [] then x else x ++ sep ++ y) ∧
    ∃ description,
      removeTypeNameFromComment (env.interpretReference rawName).2 (extractExample s2 d3).1 =
        some description ∧
      res.2.1.Description =
        if description = [] then synthesizedFragment info
        else if synthesizedFragment info = [] then description
        else description ++ ' ' :: synthesizedFragment info := by
  refine ⟨?_, joinIfNotEmpty_pair, ?_⟩
  · intro sep elems
    unfold joinIfNotEmpty join
    congr 1
    apply List.filter_congr
    intro e _
    cases e <;> simp
  · obtain ⟨d1', info', s1', d2', s2', nd', d3', g', -, henum', h1, h2, h3⟩ :=
      handleComment_ok hok
    rw [henum] at henum'
    simp only [Except.ok.injEq, Prod.mk.injEq] at henum'
    obtain ⟨rfl, rfl⟩ := henum'
    rw [hdef] at h1
    simp only [Except.ok.injEq, Prod.mk.injEq] at h1
    obtain ⟨rfl, rfl⟩ := h1
    rw [htype] at h2
    simp only [Except.ok.injEq, Prod.mk.injEq] at h2
    obtain ⟨rfl, rfl, rfl, rfl⟩ := h2
    obtain ⟨hp, rfl⟩ := finishComment_ok h3
    refine ⟨stripTypeName (env.interpretReference rawName).2 (extractExample s2 d3).1, ?_, ?_⟩
    · unfold removeTypeNameFromComment
      rw [if_pos hp]
    · simp only [joinIfNotEmpty_pair, List.append_assoc]
      rfl

set_option maxRecDepth 100000 in
/-- C16 on the comment "Foo is the bar." with an enum pass that synthesizes
"Valid variants are: `a`.": both parts are non-empty and `Description` is
"bar. Valid variants are: `a`.". -/
theorem joinIfNotEmpty_spec_witness :
    handleComment demoEnumEnv (demoGen false) "Foo".toList "Foo is the bar.".toList demoDef =
      .ok (⟨false, false⟩,
        ⟨[], [], [], "bar. Valid variants are: `a`.".toList,
          "bar. Valid variants are: `a`.".toList, []⟩, 0) ∧
    ((∀ (sep : Str) (elems : List Str),
      joinIfNotEmpty sep elems = sep.intercalate (elems.filter (fun e => e ≠ []))) ∧
    (∀ sep x y : Str, joinIfNotEmpty sep [x, y] =
      if x = [] then y else if y = [] then x else x ++ sep ++ y) ∧
    ∃ description,
      removeTypeNameFromComment "Foo".toList "Foo is the bar.".toList = some description ∧
      "bar. Valid variants are: `a`.".toList =
        if description = [] then "Valid variants are: `a`.".toList
        else if "Valid variants are: `a`.".toList = [] then description
        else description ++ ' ' :: "Valid variants are: `a`.".toList) :=
  ⟨rfl, joinIfNotEmpty_spec demoEnumEnv (demoGen false) "Foo".toList "Foo is the bar.".toList
    demoDef demoDef demoDef demoDef (some ⟨"Foo is the bar.".toList,
      "Valid variants are: `a`.".toList⟩) "Foo is the bar.".toList "Foo is the bar.".toList
    false 0
    (⟨false, false⟩,
        ⟨[], [], [], "bar. Valid variants are: `a`.".toList,
          "bar. Valid variants are: `a`.".toList, []⟩, 0) rfl rfl rfl rfl⟩

theorem withoutTagsAux_drop (k : Nat) (s : Str) :
    withoutTagsAux k s = withoutTagsAux 0 (s.drop k) := by
  induction k generalizing s with
  | zero => rfl
  | succ k ih =>
    cases s with
    | nil => rfl
    | cons c cs =>
      rw [List.drop_succ_cons, ← ih]
      rfl

theorem run_pTags (pv : Option Char) (t : Str) :
    run pTags.re ⟨pv, t, noCaps⟩ some =
      if "<p>".toList <+: t then
        some ⟨lastOr pv "<p>".toList, t.drop 3,
          setCap noCaps 1 (t.take (t.length - (t.drop 3).length))⟩
      else if "</p>".toList <+: t then
        some ⟨lastOr pv "</p>".toList, t.drop 4,
          setCap noCaps 2 (t.take (t.length - (t.drop 4).length))⟩
      else none := by
  show (match run (.group 1 (.lit "<p>".toList)) ⟨pv, t, noCaps⟩ some with
    | some r => some r
    | none => run (.group 2 (.lit "</p>".toList)) ⟨pv, t, noCaps⟩ some) = _
  rw [run_group, run_group, run_lit, run_lit]
  by_cases h1 : "<p>".toList <+: t
  · simp only [h1, if_true]
    rfl
  · simp only [h1, if_false]
    by_cases h2 : "</p>".toList <+: t
    · simp only [h2, if_true]
      rfl
    · simp only [h2, if_false]

theorem search_pTags (rest : Str) : ∀ pv : Option Char,
    match searchFrom pTags.re pv rest with
    | none => withoutTagsAux 0 rest = rest
    | some (i, st) => ∃ m, i < m ∧ m ≤ rest.length ∧ st.rest = rest.drop m ∧
        withoutTagsAux 0 rest = rest.take i ++ withoutTagsAux 0 (rest.drop m) := by
  induction rest with
  | nil =>
    intro pv
    have h : searchFrom pTags.re pv [] = none := by
      unfold searchFrom
      rw [run_pTags]
      rfl
    rw [h]
    rfl
  | cons c cs ih =>
    intro pv
    unfold searchFrom
    rw [run_pTags]
    by_cases h1 : "<p>".toList <+: c :: cs
    · simp only [h1, if_true]
      refine ⟨3, by omega, ?_, rfl, ?_⟩
      · have := h1.length_le
        simpa using this
      · have hp : hasPrefix (c :: cs) "<p>".toList = true := List.isPrefixOf_iff_prefix.mpr h1
        rw [List.take_zero, List.nil_append]
        show (if hasPrefix (c :: cs) "<p>".toList then withoutTagsAux 2 cs
          else if hasPrefix (c :: cs) "</p>".toList then withoutTagsAux 3 cs
          else c :: withoutTagsAux 0 cs) = _
        rw [if_pos hp, withoutTagsAux_drop]
        rfl
    · simp only [h1, if_false]
      have hp1 : hasPrefix (c :: cs) "<p>".toList = false := by
        cases hh : hasPrefix (c :: cs) "<p>".toList with
        | false => rfl
        | true => exact absurd (List.isPrefixOf_iff_prefix.mp hh) h1
      by_cases h2 : "</p>".toList <+: c :: cs
      · simp only [h2, if_true]
        refine ⟨4, by omega, ?_, rfl, ?_⟩
        · have := h2.length_le
          simpa using this
        · have hp : hasPrefix (c :: cs) "</p>".toList = true :=
            List.isPrefixOf_iff_prefix.mpr h2
          rw [List.take_zero, List.nil_append]
          show (if hasPrefix (c :: cs) "<p>".toList then withoutTagsAux 2 cs
            else if hasPrefix (c :: cs) "</p>".toList then withoutTagsAux 3 cs
            else c :: withoutTagsAux 0 cs) = _
          rw [hp1, hp]
          simp only [Bool.false_eq_true, if_false, if_true]
          rw [withoutTagsAux_drop]
          rfl
      · simp only [h2, if_false]
        have hp2 : hasPrefix (c :: cs) "</p>".toList = false := by
          cases hh : hasPrefix (c :: cs) "</p>".toList with
          | false => rfl
          | true => exact absurd (List.isPrefixOf_iff_prefix.mp hh) h2
        have hw : withoutTagsAux 0 (c :: cs) = c :: withoutTagsAux 0 cs := by
          show (if hasPrefix (c :: cs) "<p>".toList then withoutTagsAux 2 cs
            else if hasPrefix (c :: cs) "</p>".toList then withoutTagsAux 3 cs
            else c :: withoutTagsAux 0 cs) = _
          rw [hp1, hp2]
          rfl
        have := ih (some c)
        cases hs : searchFrom pTags.re (some c) cs with
        | none =>
          rw [hs] at this
          simp only [Option.map_none']
          rw [hw, this]
        | some x =>
          obtain ⟨i, st⟩ := x
          rw [hs] at this
          obtain ⟨m, hm1, hm2, hm3, hm4⟩ := this
          simp only [Option.map_some']
          refine ⟨m + 1, by omega, by simp; omega, ?_, ?_⟩
          · rw [hm3]
            rfl
          · rw [hw, hm4]
            rfl

theorem replaceLoop_pTags (src : Str) : ∀ (fuel pos : Nat) (pv : Option Char) (rest : Str),
    rest = src.drop pos → pos ≤ src.length → rest.length < fuel →
    replaceLoop pTags (fun _ => []) src fuel pos pos pv rest = withoutTagsAux 0 rest := by
  intro fuel
  induction fuel with
  | zero =>
    intro pos pv rest _ _ h
    omega
  | succ fuel ih =>
    intro pos pv rest hrest hpos hfuel
    unfold replaceLoop
    have hs := search_pTags rest pv
    cases hsr : searchFrom pTags.re pv rest with
    | none =>
      rw [hsr] at hs
      simp only
      rw [hs, hrest]
    | some x =>
      obtain ⟨i, st⟩ := x
      rw [hsr] at hs
      obtain ⟨m, hm1, hm2, hm3, hm4⟩ := hs
      have hlen : st.rest.length = rest.length - m := by rw [hm3, List.length_drop]
      have hstop : pos + (rest.length - st.rest.length) = pos + m := by omega
      have hrl : rest.length = src.length - pos := by rw [hrest, List.length_drop]
      simp only [hstop]
      have hnot : ¬ pos + m ≤ pos := by omega
      rw [if_neg hnot]
      have hcopied : (src.drop pos).take (pos + i - pos) = rest.take i := by
        rw [← hrest]
        congr 1
        omega
      rw [hcopied]
      have hins : (if pos < pos + m ∨ pos + i = 0 then ([] : Str) else []) = [] := by
        split <;> rfl
      rw [hins, List.append_nil]
      rw [ih (pos + m) st.prev st.rest (by rw [hm3, hrest, List.drop_drop])
        (by omega) (by omega)]
      rw [hm4, hm3]

theorem replaceAllString_pTags (s : Str) :
    replaceAllString pTags s (fun _ => []) = withoutPTags s := by
  unfold replaceAllString withoutPTags
  exact replaceLoop_pTags s (s.length + 1) 0 none s rfl (Nat.zero_le _) (Nat.lt_succ_self _)

/-- C17: on every successful call `HTMLDescription` is computed from the final
`Description` alone: it is the Markdown renderer's output for `Description`
with every `<p>` and every `</p>` removed and the white space around it
trimmed; so of two successful calls that end with equal `Description`, whatever
their generators, names, comments and prior definitions, both end with equal
`HTMLDescription`. -/
theorem handleComment_html {I G V X R : Type} (env : Env I G V X R)
    (dg dg' : Generator I G) (rawName rawName' comment comment' : Str)
    (d d' : Definition V R) (res res' : Meta × Definition V R × G)
    (hok : handleComment env dg rawName comment d = .ok res)
    (hok' : handleComment env dg' rawName' comment' d' = .ok res') :
    res.2.1.HTMLDescription = trimSpace (withoutPTags (env.markdown res.2.1.Description)) ∧
    (res'.2.1.Description = res.2.1.Description →
      res'.2.1.HTMLDescription = res.2.1.HTMLDescription) := by
  have key : ∀ (dg : Generator I G) (rawName comment : Str) (d : Definition V R)
      (res : Meta × Definition V R × G), handleComment env dg rawName comment d = .ok res →
      res.2.1.HTMLDescription =
        trimSpace (withoutPTags (env.markdown res.2.1.Description)) := by
    intro dg rawName comment d res h
    obtain ⟨d1, info, s1, d2, s2, nd, d3, g, -, -, -, -, h3⟩ := handleComment_ok h
    obtain ⟨-, rfl⟩ := finishComment_ok h3
    rw [← replaceAllString_pTags]
  refine ⟨key dg rawName comment d res hok, ?_⟩
  intro h
  rw [key dg rawName comment d res hok, key dg' rawName' comment' d' res' hok', h]

set_option maxRecDepth 100000 in
/-- C17 on two calls that end with the description "bar.": a non-strict one
for the name `Foo` on "Foo is the bar." and a strict one for the name `Baz` on
"Baz lists bar. For example: `x`." with a definition that has a default. -/
theorem handleComment_html_witness :
    handleComment demoEnv (demoGen false) "Foo".toList "Foo is the bar.".toList demoDef =
      .ok (⟨false, false⟩, ⟨[], [], [], "bar.".toList, "bar.".toList, []⟩, 0) ∧
    handleComment demoEnv (demoGen true) "Baz".toList
        "Baz lists bar. For example: `x`.".toList ⟨"7".toList, [], [], [], [], []⟩ =
      .ok (⟨false, false⟩,
        ⟨"7".toList, [], ["x".toList], "bar.".toList, "bar.".toList, []⟩, 0) ∧
    ("bar.".toList = trimSpace (withoutPTags (demoEnv.markdown "bar.".toList)) ∧
      ("bar.".toList = "bar.".toList → "bar.".toList = "bar.".toList)) :=
  ⟨rfl, rfl, handleComment_html demoEnv (demoGen false) (demoGen true) "Foo".toList
    "Baz".toList "Foo is the bar.".toList "Baz lists bar. For example: `x`.".toList demoDef
    ⟨"7".toList, [], [], [], [], []⟩
    (⟨false, false⟩, ⟨[], [], [], "bar.".toList, "bar.".toList, []⟩, 0)
    (⟨false, false⟩, ⟨"7".toList, [], ["x".toList], "bar.".toList, "bar.".toList, []⟩, 0)
    rfl rfl⟩

theorem occursTwice_mono {x t s : Str} (hts : t <:+: s) (h : occursTwice x t) :
    occursTwice x s := by
  obtain ⟨a, b, c, rfl⟩ := h
  obtain ⟨p, q, rfl⟩ := hts
  exact ⟨p ++ a, b, c ++ q, by simp⟩

theorem occursTwice_of_infix {x x1 : Str} (rest pre : Str) (h : x <:+: x1) :
    occursTwice x (pre ++ (x1 ++ x ++ rest)) := by
  obtain ⟨a, b, rfl⟩ := h
  exact ⟨pre ++ a, b, rest, by simp⟩

theorem phrase_stripTypeName {phrase p z name d : Str} (h1 : '*' ∉ phrase)
    (h2 : ∃ c cs, phrase = c :: cs ∧ c ≠ ' ')
    (hD : stripTypeName name d = p ++ phrase ++ z) :
    ∃ p' z', d = p' ++ phrase ++ z' ∧ ∀ c ∈ z, c ∈ z' := by
  rcases stripTypeName_cases name d with h | ⟨a, v, r, hd, ha, -, h⟩
  · rw [h] at hD
    exact ⟨p, z, hD, fun c hc => hc⟩
  · rw [h] at hD
    obtain ⟨c0, cs0, hph, hc0⟩ := h2
    have key : ∀ u, ' ' :: r = u ++ phrase ++ z →
        ∃ u', r = u' ++ phrase ++ z := by
      intro u hu
      cases u with
      | nil =>
        rw [hph] at hu
        simp only [List.nil_append, List.cons_append, List.cons.injEq] at hu
        exact absurd hu.1.symm hc0
      | cons e u' =>
        simp only [List.cons_append, List.cons.injEq] at hu
        exact ⟨u', hu.2⟩
    rcases ha with rfl | ⟨y, -, rfl⟩
    · simp only [List.nil_append] at hD hd
      exact ⟨name ++ ' ' :: v ++ p, z, by rw [hd, hD]; simp, fun c hc => hc⟩
    · have e : '*' :: y ++ ['*', ' '] ++ r = ('*' :: y ++ ['*']) ++ ' ' :: r := by simp
      rw [e, List.append_assoc p] at hD
      rcases List.append_eq_append_iff.mp hD with ⟨t, hA, hz⟩ | ⟨t, hpA, hr⟩
      · -- the phrase begins after the aside
        obtain ⟨u', hu'⟩ := key t (by rw [hz]; simp)
        refine ⟨name ++ ' ' :: ('*' :: y ++ ['*', ' '] ++ v ++ u'), z, ?_, fun c hc => hc⟩
        rw [hd, hu']
        simp
      · rcases List.append_eq_append_iff.mp hr with ⟨w, ht, hz⟩ | ⟨w, hph2, hw⟩
        · -- the phrase lies inside the aside
          refine ⟨name ++ ' ' :: p, w ++ ' ' :: (v ++ r), ?_, ?_⟩
          · rw [hd]
            have e2 : '*' :: y ++ ['*', ' '] = ('*' :: y ++ ['*']) ++ [' '] := by simp
            rw [e2, hpA, ht]
            simp
          · intro c hc
            rw [hz] at hc
            rcases List.mem_append.mp hc with h3 | h3
            · exact List.mem_append_left _ h3
            · rcases List.mem_cons.mp h3 with h4 | h4
              · exact List.mem_append_right _ (h4 ▸ List.mem_cons_self _ _)
              · exact List.mem_append_right _
                  (List.mem_cons_of_mem _ (List.mem_append_right _ h4))
        · -- the phrase begins inside the aside and ends after it
          cases t with
          | nil =>
            simp only [List.nil_append] at hph2
            subst hph2
            obtain ⟨u', hu'⟩ := key [] (by rw [hw]; simp)
            refine ⟨name ++ ' ' :: ('*' :: y ++ ['*', ' '] ++ v ++ u'), z, ?_, fun c hc => hc⟩
            rw [hd, hu']
            simp
          | cons e0 t' =>
            exfalso
            apply h1
            rw [hph2]
            apply List.mem_append_left
            have hl : (p ++ e0 :: t').getLast? = some '*' := by
              rw [← hpA, List.getLast?_append_of_ne_nil _ (by simp)]
              rfl
            rw [List.getLast?_append_of_ne_nil _ (by simp)] at hl
            obtain ⟨ys, hys⟩ := List.getLast?_eq_some_iff.mp hl
            rw [hys]
            simp

theorem find_clause_stripTypeName {phrase name d : Str} (h1 : '*' ∉ phrase)
    (h2 : ∃ c cs, phrase = c :: cs ∧ c ≠ ' ') (hd : newline ∉ d)
    (h : (findStringSubmatch ⟨clauseRE phrase, 2⟩ (stripTypeName name d)).isSome) :
    (findStringSubmatch ⟨clauseRE phrase, 2⟩ d).isSome := by
  rw [find_clause_isSome_iff] at h ⊢
  obtain ⟨a, x, b, hD, -⟩ := h
  obtain ⟨p', z', hd', hz⟩ := phrase_stripTypeName (p := a) (z := x ++ backquote :: b) h1 h2
    (by rw [hD]; simp)
  have hb : backquote ∈ z' := hz _ (List.mem_append_right _ (List.mem_cons_self _ _))
  obtain ⟨x', b', rfl⟩ := List.append_of_mem hb
  refine ⟨p', x', b', by rw [hd']; simp, ?_⟩
  intro hn
  apply hd
  rw [hd']
  exact List.mem_append_right _ (List.mem_append_left _ hn)

theorem find_typeOneOf_some {s : Str} {m : List Str}
    (h : findStringSubmatch typeOneOfPattern s = some m) :
    ∃ pre post, s = pre ++ (m.getD 1 [] ++ oneOfPhrase ++ post) := by
  unfold findStringSubmatch at h
  split at h
  · cases h
  · rename_i i st hs
    simp only [Option.some.injEq] at h
    obtain ⟨-, hrun, -⟩ := searchFrom_some hs
    obtain ⟨u, hu, hk⟩ := run_sound _ _ _ _ hrun
    cases hk
    have hu' : Matches (.seq (.group 1 (.star .any)) (.seq (.lit oneOfPhrase)
        (.seq (.group 2 (.star (oneOfEntry 3))) .empty)))
        ⟨lastOr none (s.take i), s.drop i, noCaps⟩ st := hu
    obtain ⟨t, hg, hr⟩ := matches_seq.mp hu'
    obtain ⟨t', hstar, rfl⟩ := matches_group.mp hg
    obtain ⟨x, hx, -, -⟩ := matches_star_cls.mp hstar
    simp only at hx
    have hcap : (st.caps 1).getD [] = x := by
      rw [matches_caps_frame hr 1 (by simp [RE.groups, RE.cat, RE.lit, RE.chr, RE.any,
        oneOfEntry, RE.plus, RE.notChr, RE.opt, RE.oneOf, oneOfPhrase])]
      simp only [setCap, if_true, Option.getD_some]
      rw [hx, take_consumed]
    have hm : m.getD 1 [] = x := by
      rw [← h]
      exact (submatches_getD_one typeOneOfPattern.re 2 _ st).trans hcap
    obtain ⟨t2, hlit, -⟩ := matches_seq.mp hr
    obtain ⟨w, hw, -⟩ := matches_lit.mp hlit
    simp only at hw
    refine ⟨s.take i, w, ?_⟩
    rw [hm, List.append_assoc, ← hw, ← hx, List.take_append_drop]

theorem find_typeOneOf_isSome_iff (s : Str) :
    (findStringSubmatch typeOneOfPattern s).isSome ↔ oneOfPhrase <:+: s := by
  constructor
  · intro h
    obtain ⟨m, hm⟩ := Option.isSome_iff_exists.mp h
    obtain ⟨pre, post, hs⟩ := find_typeOneOf_some hm
    exact ⟨pre ++ m.getD 1 [], post, by rw [hs]; simp⟩
  · rintro ⟨a, b, rfl⟩
    have e : (findStringSubmatch typeOneOfPattern (a ++ oneOfPhrase ++ b)).isSome =
        (searchFrom typeOneOfPattern.re none (a ++ oneOfPhrase ++ b)).isSome := by
      unfold findStringSubmatch
      cases searchFrom typeOneOfPattern.re none (a ++ oneOfPhrase ++ b) <;> rfl
    rw [e, searchFrom_isSome_iff]
    refine ⟨a, oneOfPhrase ++ b, ⟨lastOr (lastOr none a) oneOfPhrase, b,
      setCap (setCap noCaps 1 []) 2 []⟩, by simp, ?_⟩
    show Matches (.seq (.group 1 (.star .any)) (.seq (.lit oneOfPhrase)
        (.seq (.group 2 (.star (oneOfEntry 3))) .empty))) _ _
    refine Matches.seq (t := ⟨lastOr none a, oneOfPhrase ++ b, setCap noCaps 1 []⟩) ?_
      (Matches.seq (t := ⟨lastOr (lastOr none a) oneOfPhrase, b, setCap noCaps 1 []⟩)
        (matches_lit.mpr ⟨b, rfl, rfl⟩)
        (Matches.seq (t := ⟨lastOr (lastOr none a) oneOfPhrase, b,
          setCap (setCap noCaps 1 []) 2 []⟩) ?_ (Matches.empty _)))
    · have := Matches.group 1 (Matches.starNil RE.any ⟨lastOr none a, oneOfPhrase ++ b, noCaps⟩)
      simpa using this
    · have := Matches.group 2 (Matches.starNil (oneOfEntry 3)
        ⟨lastOr (lastOr none a) oneOfPhrase, b, setCap noCaps 1 []⟩)
      simpa using this

theorem clause_left {phrase s t : Str} (s' : Str)
    (hsome : ∀ m, findStringSubmatch ⟨clauseRE phrase, 2⟩ s = some m →
      s' = trimSpace (m.getD 1 []))
    (hnone : findStringSubmatch ⟨clauseRE phrase, 2⟩ s = none → s' <:+: s)
    (ht : t <:+: s')
    (hmatch : (findStringSubmatch ⟨clauseRE phrase, 2⟩ t).isSome) :
    occursTwice phrase s := by
  cases hf : findStringSubmatch ⟨clauseRE phrase, 2⟩ s with
  | none =>
    have := find_clause_mono (ht.trans (hnone hf)) hmatch
    rw [hf] at this
    cases this
  | some m =>
    obtain ⟨pre, x1, x2, post, hs, -, -, hm, -⟩ := find_clause_some hf
    have hs' := hsome m hf
    rw [hm] at hs'
    simp only [List.getD_cons_succ, List.getD_cons_zero] at hs'
    obtain ⟨a, x, b, ht', -⟩ := (find_clause_isSome_iff phrase t).mp hmatch
    have hph : phrase <:+: t := ⟨a, x ++ backquote :: b, by rw [ht']; simp⟩
    have hx1 : phrase <:+: x1 := by
      rw [hs'] at ht
      exact (hph.trans ht).trans (trimSpace_sub x1)
    rw [hs]
    have := occursTwice_of_infix (x2 ++ backquote :: post) pre hx1
    simpa using this

theorem extractDefault_out {I G V X R : Type} {env : Env I G V X R} {s s' : Str}
    {d d' : Definition V R} (h : extractDefault env s d = .ok (s', d')) :
    (∀ m, findStringSubmatch regexpDefaults s = some m → s' = trimSpace (m.getD 1 [])) ∧
    (findStringSubmatch regexpDefaults s = none → s' = s) := by
  unfold extractDefault at h
  constructor
  · intro m hm
    rw [hm] at h
    simp only at h
    split at h
    · cases h
    · simp only [Except.ok.injEq, Prod.mk.injEq] at h
      exact h.1.symm
  · intro hn
    rw [hn] at h
    simp only [Except.ok.injEq, Prod.mk.injEq] at h
    exact h.1.symm

theorem extractExample_out {V R : Type} (s : Str) (d : Definition V R) :
    (∀ m, findStringSubmatch regexpExample s = some m →
      (extractExample s d).1 = trimSpace (m.getD 1 [])) ∧
    (findStringSubmatch regexpExample s = none → (extractExample s d).1 = s) := by
  unfold extractExample
  constructor
  · intro m hm
    rw [hm]
  · intro hn
    rw [hn]

theorem extractSchemaType_out {I G V X R : Type} {env : Env I G V X R} {dg : Generator I G}
    {s s' : Str} {nd : Bool} {d d' : Definition V R} {g : G}
    (h : extractSchemaType env dg s d = .ok (s', nd, d', g)) :
    (∀ m, findStringSubmatch typeOverridePattern s = some m →
      s' = trimSpace (m.getD 1 []) ∧ nd = true) ∧
    (findStringSubmatch typeOverridePattern s = none → nd = false ∧
      (∀ m, findStringSubmatch typeOneOfPattern s = some m → s' = trimSpace (m.getD 1 [])) ∧
      (findStringSubmatch typeOneOfPattern s = none → s' = s)) := by
  unfold extractSchemaType at h
  constructor
  · intro m hm
    rw [hm] at h
    simp only at h
    split at h
    · cases h
    · simp only [Except.ok.injEq, Prod.mk.injEq] at h
      exact ⟨h.1.symm, h.2.1.symm⟩
  · intro hn
    rw [hn] at h
    simp only at h
    refine ⟨?_, ?_, ?_⟩
    · split at h
      · split at h
        · cases h
        · split at h
          · cases h
          · simp only [Except.ok.injEq, Prod.mk.injEq] at h
            exact h.2.1.symm
      · simp only [Except.ok.injEq, Prod.mk.injEq] at h
        exact h.2.1.symm
    · intro m hm
      rw [hm] at h
      simp only at h
      split at h
      · cases h
      · split at h
        · cases h
        · simp only [Except.ok.injEq, Prod.mk.injEq] at h
          exact h.1.symm
    · intro hn2
      rw [hn2] at h
      simp only [Except.ok.injEq, Prod.mk.injEq] at h
      exact h.1.symm

set_option maxRecDepth 100000 in
/-- C12, as stated, fails: the enum pass recognises nothing and both
non-strict calls succeed. On the first comment the type override is applied
and the oneOf clause before it stays in the final `Description`, which matches
the oneOf pattern; on the second the default pass takes the last of two default
clauses and the final `Description` still matches the default pattern. -/
theorem handleComment_clause_kept :
    demoEnv.handleEnumComments (demoGen false).Importer demoDef
      "Foo is the bar. Schema type is one of `A`. Schema type is `B`.".toList =
        .ok (demoDef, none) ∧
    handleComment demoEnv (demoGen false) "Foo".toList
        "Foo is the bar. Schema type is one of `A`. Schema type is `B`.".toList demoDef =
      .ok (⟨false, true⟩,
        ⟨[], [], [], "bar. Schema type is one of `A`.".toList,
          "bar. Schema type is one of `A`.".toList, "B".toList⟩, 1) ∧
    (findStringSubmatch typeOneOfPattern "bar. Schema type is one of `A`.".toList).isSome =
      true ∧
    demoEnv.handleEnumComments (demoGen false).Importer demoDef
      "Foo is the bar. Defaults to `1`. Defaults to `2`.".toList = .ok (demoDef, none) ∧
    handleComment demoEnv (demoGen false) "Foo".toList
        "Foo is the bar. Defaults to `1`. Defaults to `2`.".toList demoDef =
      .ok (⟨false, false⟩,
        ⟨"2".toList, [], [], "bar. Defaults to `1`.".toList,
          "bar. Defaults to `1`.".toList, []⟩, 0) ∧
    (findStringSubmatch regexpDefaults "bar. Defaults to `1`.".toList).isSome = true :=
  ⟨rfl, rfl, rfl, rfl, rfl, rfl⟩

/-- C12, amended: when the enum pass synthesizes no fragment and the call
succeeds, the final `Description` matches the default, the type-override or
the example pattern only if the phrase that opens that clause occurs at least
twice in the tag-stripped comment, and it matches the oneOf pattern only if
the phrase "Schema type is one of " occurs at least twice there or the call
applied a type override (`NoDerive = true`). -/
theorem handleComment_clause_left {I G V X R : Type} (env : Env I G V X R)
    (dg : Generator I G) (rawName comment : Str) (d d1 : Definition V R)
    (info : Option EnumCommentInformation) (res : Meta × Definition V R × G)
    (henum : env.handleEnumComments dg.Importer d comment = .ok (d1, info))
    (hsynth : synthesizedFragment info = [])
    (hok : handleComment env dg rawName comment d = .ok res) :
    ((findStringSubmatch regexpDefaults res.2.1.Description).isSome →
      occursTwice "Defaults to `".toList (stripAnnotations (workingComment comment info))) ∧
    ((findStringSubmatch typeOverridePattern res.2.1.Description).isSome →
      occursTwice "Schema type is `".toList
        (stripAnnotations (workingComment comment info))) ∧
    ((findStringSubmatch typeOneOfPattern res.2.1.Description).isSome →
      occursTwice oneOfPhrase (stripAnnotations (workingComment comment info)) ∨
        res.1.NoDerive = true) ∧
    ((findStringSubmatch regexpExample res.2.1.Description).isSome →
      occursTwice "For example: `".toList
        (stripAnnotations (workingComment comment info))) := by
  obtain ⟨d1', info', s1, d2, s2, nd, d3, g, -, henum', h1, h2, h3⟩ := handleComment_ok hok
  rw [henum] at henum'
  simp only [Except.ok.injEq, Prod.mk.injEq] at henum'
  obtain ⟨rfl, rfl⟩ := henum'
  obtain ⟨-, rfl⟩ := finishComment_ok h3
  simp only [hsynth, joinIfNotEmpty_pair_nil]
  have hs1 : s1 <:+: stripAnnotations (workingComment comment info) := extractDefault_sub h1
  have hs2 : s2 <:+: s1 := extractSchemaType_sub h2
  have hs3 : (extractExample s2 d3).1 <:+: s2 := extractExample_sub s2 d3
  have hnl0 := newline_not_mem_stripAnnotations (workingComment comment info)
  have hnl3 : newline ∉ (extractExample s2 d3).1 :=
    not_mem_of_infix ((hs3.trans hs2).trans hs1) hnl0
  have hD := extractDefault_out h1
  have hT := extractSchemaType_out h2
  have hE := extractExample_out s2 d3
  refine ⟨?_, ?_, ?_, ?_⟩
  · intro hm
    have hm3 := find_clause_stripTypeName (by decide) ⟨'D', _, rfl, by decide⟩ hnl3 hm
    exact clause_left s1 hD.1 (fun hn => by rw [hD.2 hn]) (hs3.trans hs2) hm3
  · intro hm
    have hm3 := find_clause_stripTypeName (by decide) ⟨'S', _, rfl, by decide⟩ hnl3 hm
    refine occursTwice_mono hs1 (clause_left s2 (fun m hf => (hT.1 m hf).1) ?_ hs3 hm3)
    intro hn
    exact hs2
  · intro hm
    obtain ⟨a, b, hab⟩ := (find_typeOneOf_isSome_iff _).mp hm
    obtain ⟨p', z', hd', -⟩ := @phrase_stripTypeName oneOfPhrase a b _ _
      (by decide) ⟨'S', _, rfl, by decide⟩ hab.symm
    have hph3 : oneOfPhrase <:+: (extractExample s2 d3).1 := ⟨p', z', hd'.symm⟩
    have hph2 : oneOfPhrase <:+: s2 := hph3.trans hs3
    cases hov : findStringSubmatch typeOverridePattern s1 with
    | some m => exact Or.inr (hT.1 m hov).2
    | none =>
      left
      obtain ⟨-, hone, hnone⟩ := hT.2 hov
      cases ho : findStringSubmatch typeOneOfPattern s1 with
      | none =>
        exfalso
        rw [hnone ho] at hph2
        have := (find_typeOneOf_isSome_iff s1).mpr hph2
        rw [ho] at this
        cases this
      | some m =>
        obtain ⟨pre, post, hs⟩ := find_typeOneOf_some ho
        have hx1 : oneOfPhrase <:+: m.getD 1 [] := by
          rw [hone m ho] at hph2
          exact hph2.trans (trimSpace_sub _)
        apply occursTwice_mono hs1
        rw [hs]
        exact occursTwice_of_infix _ _ hx1
  · intro hm
    have hm3 := find_clause_stripTypeName (by decide) ⟨'F', _, rfl, by decide⟩ hnl3 hm
    refine occursTwice_mono (hs2.trans hs1)
      (clause_left (extractExample s2 d3).1 hE.1 ?_ (List.infix_refl _) hm3)
    intro hn
    rw [hE.2 hn]

set_option maxRecDepth 100000 in
/-- C12, amended, on the comment "Foo is the bar. Defaults to `1`. Defaults to
`2`.": the final `Description` is "bar. Defaults to `1`." and the phrase of the
default clause occurs twice in the comment. -/
theorem handleComment_clause_left_witness :
    handleComment demoEnv (demoGen false) "Foo".toList
        "Foo is the bar. Defaults to `1`. Defaults to `2`.".toList demoDef =
      .ok (⟨false, false⟩,
        ⟨"2".toList, [], [], "bar. Defaults to `1`.".toList,
          "bar. Defaults to `1`.".toList, []⟩, 0) ∧
    (((findStringSubmatch regexpDefaults "bar. Defaults to `1`.".toList).isSome →
      occursTwice "Defaults to `".toList
        (stripAnnotations "Foo is the bar. Defaults to `1`. Defaults to `2`.".toList)) ∧
    ((findStringSubmatch typeOverridePattern "bar. Defaults to `1`.".toList).isSome →
      occursTwice "Schema type is `".toList
        (stripAnnotations "Foo is the bar. Defaults to `1`. Defaults to `2`.".toList)) ∧
    ((findStringSubmatch typeOneOfPattern "bar. Defaults to `1`.".toList).isSome →
      occursTwice oneOfPhrase
        (stripAnnotations "Foo is the bar. Defaults to `1`. Defaults to `2`.".toList) ∨
        false = true) ∧
    ((findStringSubmatch regexpExample "bar. Defaults to `1`.".toList).isSome →
      occursTwice "For example: `".toList
        (stripAnnotations "Foo is the bar. Defaults to `1`. Defaults to `2`.".toList))) :=
  ⟨rfl, handleComment_clause_left demoEnv (demoGen false) "Foo".toList
    "Foo is the bar. Defaults to `1`. Defaults to `2`.".toList demoDef demoDef none
    (⟨false, false⟩,
        ⟨"2".toList, [], [], "bar. Defaults to `1`.".toList,
          "bar. Defaults to `1`.".toList, []⟩, 0) rfl rfl rfl⟩

theorem run_star_cls_none (p : Char → Bool) (k : St → Option St) (s : Str) (pv : Option Char)
    (cp : Nat → Option Str) (h : run (.star (.cls p)) ⟨pv, s, cp⟩ k = none)
    (a b : Str) (hs : s = a ++ b) (ha : ∀ c ∈ a, p c = true) :
    k ⟨lastOr pv a, b, cp⟩ = none := by
  cases hk : k ⟨lastOr pv a, b, cp⟩ with
  | none => rfl
  | some r =>
    exfalso
    have hm : Matches (.star (.cls p)) ⟨pv, s, cp⟩ ⟨lastOr pv a, b, cp⟩ :=
      matches_star_cls.mpr ⟨a, hs, ha, rfl⟩
    have := run_complete hm k (by rw [hk]; rfl)
    rw [h] at this
    cases this

theorem run_star_cls_max (p : Char → Bool) (k : St → Option St) (cp : Nat → Option Str)
    (res : St) : ∀ (s : Str) (pv : Option Char),
    run (.star (.cls p)) ⟨pv, s, cp⟩ k = some res →
    ∃ a b, s = a ++ b ∧ (∀ c ∈ a, p c = true) ∧ k ⟨lastOr pv a, b, cp⟩ = some res ∧
      ∀ b1 b2, b = b1 ++ b2 → b1 ≠ [] → (∀ c ∈ b1, p c = true) →
        k ⟨lastOr pv (a ++ b1), b2, cp⟩ = none := by
  intro s
  induction s with
  | nil =>
    intro pv h
    refine ⟨[], [], rfl, by simp, h, ?_⟩
    intro b1 b2 hb hne
    cases b1 with
    | nil => exact absurd rfl hne
    | cons c cs => cases hb
  | cons c cs ih =>
    intro pv h
    rw [run_star] at h
    simp only [List.length_cons, starLoop, run_cls_cons] at h
    by_cases hp : p c = true
    · simp only [hp, if_true, Nat.lt_succ_self] at h
      cases hin : starLoop (run (.cls p)) cs.length ⟨some c, cs, cp⟩ k with
      | some r =>
        rw [hin] at h
        simp only [Option.some.injEq] at h
        subst h
        obtain ⟨a, b, hs, ha, hk, hmax⟩ := ih (some c) hin
        refine ⟨c :: a, b, by rw [hs]; rfl, ?_, hk, ?_⟩
        · intro x hx
          rcases List.mem_cons.mp hx with rfl | hx
          · exact hp
          · exact ha x hx
        · intro b1 b2 hb hne hall
          exact hmax b1 b2 hb hne hall
      | none =>
        rw [hin] at h
        simp only at h
        refine ⟨[], c :: cs, rfl, by simp, h, ?_⟩
        intro b1 b2 hb hne hall
        cases b1 with
        | nil => exact absurd rfl hne
        | cons e b1' =>
          simp only [List.cons_append, List.cons.injEq] at hb
          obtain ⟨rfl, hcs⟩ := hb
          have := run_star_cls_none p k cs (some c) cp hin b1' b2 hcs
            (fun x hx => hall x (List.mem_cons_of_mem _ hx))
          simpa [lastOr] using this
    · have hp' : p c = false := by
        cases hh : p c with
        | false => rfl
        | true => exact absurd hh hp
      simp only [hp', Bool.false_eq_true, if_false] at h
      refine ⟨[], c :: cs, rfl, by simp, h, ?_⟩
      intro b1 b2 hb hne hall
      cases b1 with
      | nil => exact absurd rfl hne
      | cons e b1' =>
        simp only [List.cons_append, List.cons.injEq] at hb
        obtain ⟨rfl, -⟩ := hb
        have := hall c (List.mem_cons_self _ _)
        rw [hp'] at this
        cases this

theorem run_clause_max {phrase s : Str} {st : St} (hs : newline ∉ s)
    (h : run (clauseRE phrase) ⟨none, s, noCaps⟩ some = some st) :
    ∃ x1 x2, s = x1 ++ phrase ++ x2 ++ backquote :: st.rest ∧
      st.caps 1 = some x1 ∧ st.caps 2 = some x2 ∧ backquote ∉ st.rest ∧
      ∀ a b, s = a ++ phrase ++ b → backquote ∈ b → a.length ≤ x1.length := by
  have hany : ∀ t : Str, (∀ c ∈ t, c ∈ s) → ∀ c ∈ t, (fun x => x != newline) c = true := by
    intro t ht c hc
    have : c ≠ newline := fun e => hs (e ▸ ht c hc)
    simpa using this
  have h1 : run (.star (.cls (fun x => x != newline))) ⟨none, s, noCaps⟩
      (fun st1 => run (.lit phrase)
        ⟨st1.prev, st1.rest, setCap st1.caps 1 (s.take (s.length - st1.rest.length))⟩
        (fun st2 => run (.star (.cls (fun x => x != newline))) st2
          (fun st3 => run (.chr backquote)
            ⟨st3.prev, st3.rest,
              setCap st3.caps 2 (st2.rest.take (st2.rest.length - st3.rest.length))⟩
            (fun st4 => some st4)))) = some st := h
  obtain ⟨a, b, hab, -, hk1, hmax1⟩ := run_star_cls_max _ _ _ _ _ _ h1
  simp only at hk1 hmax1
  rw [run_lit] at hk1
  by_cases hpre : phrase <+: b
  · obtain ⟨r, hr⟩ := hpre
    simp only [show phrase <+: b from ⟨r, hr⟩, if_true] at hk1
    have hdrop : b.drop phrase.length = r := by
      rw [← hr, List.drop_left]
    rw [hdrop] at hk1
    obtain ⟨x2, b', hxb, -, hk2, hmax2⟩ := run_star_cls_max _ _ _ _ _ _ hk1
    simp only at hk2 hmax2
    rw [run_chr] at hk2
    cases b' with
    | nil => simp at hk2
    | cons e post =>
      simp only at hk2
      by_cases he : e = backquote
      · subst he
        simp only [if_true, Option.some.injEq] at hk2
        subst hk2
        have ha : s.take (s.length - b.length) = a := by
          rw [hab, take_consumed]
        have hx2 : r.take (r.length - (backquote :: post).length) = x2 := by
          rw [hxb, take_consumed]
        refine ⟨a, x2, ?_, ?_, ?_, ?_, ?_⟩
        · rw [hab, ← hr, hxb]
          simp
        · simp only [setCap]
          rw [ha]
          simp
        · simp only [setCap]
          rw [hx2]
          simp
        · intro hmem
          have hmem' : backquote ∈ post := hmem
          obtain ⟨u, w, hw⟩ := List.append_of_mem hmem'
          have := hmax2 (backquote :: u) (backquote :: w) (by simp [hw]) (by simp)
            (hany _ (by
              intro c hc
              rw [hab, ← hr, hxb, hw]
              simp only [List.mem_append, List.mem_cons] at hc ⊢
              tauto))
          rw [run_chr] at this
          simp at this
        · intro a2 b2 hs2 hb2
          by_contra hlt
          have hlt' : a.length < a2.length := Nat.lt_of_not_le hlt
          have heq : a ++ b = a2 ++ (phrase ++ b2) := by
            rw [← hab, hs2]
            simp
          rcases List.append_eq_append_iff.mp heq with ⟨t, ha2, hb'⟩ | ⟨t, ha2, hb'⟩
          · have hne : t ≠ [] := by
              intro ht
              rw [ht, List.append_nil] at ha2
              rw [ha2] at hlt'
              exact Nat.lt_irrefl _ hlt'
            have hnone := hmax1 t (phrase ++ b2) hb' hne (hany _ (by
              intro c hc
              rw [hs2, ha2]
              simp only [List.mem_append]
              left; left; right; exact hc))
            rw [run_lit_append] at hnone
            obtain ⟨x, w, hw⟩ := List.append_of_mem hb2
            have hm : Matches (.star (.cls (fun x => x != newline)))
                ⟨lastOr (lastOr none (a ++ t)) phrase, b2,
                  setCap noCaps 1 (s.take (s.length - (phrase ++ b2).length))⟩
                ⟨lastOr (lastOr (lastOr none (a ++ t)) phrase) x, backquote :: w,
                  setCap noCaps 1 (s.take (s.length - (phrase ++ b2).length))⟩ :=
              matches_star_cls.mpr ⟨x, hw, hany _ (by
                intro c hc
                rw [hs2, hw]
                simp only [List.mem_append]
                right; left; exact hc), rfl⟩
            have hsome := run_complete hm (fun st3 => run (.chr backquote)
              ⟨st3.prev, st3.rest,
                setCap st3.caps 2 (b2.take (b2.length - st3.rest.length))⟩
              (fun st4 => some st4)) (by
                show (run (.chr backquote) ⟨_, backquote :: w, _⟩
                  (fun st4 => some st4)).isSome = true
                rw [run_chr_cons]
                rfl)
            rw [hnone] at hsome
            cases hsome
          · rw [ha2] at hlt'
            simp at hlt'
      · simp only [he, if_false] at hk2
        cases hk2
  · simp only [hpre, if_false] at hk1
    cases hk1

theorem find_clause_greedy {phrase s : Str} {m : List Str} (hs : newline ∉ s)
    (h : findStringSubmatch ⟨clauseRE phrase, 2⟩ s = some m) :
    ∃ x1 post, s = x1 ++ phrase ++ m.getD 2 [] ++ backquote :: post ∧ m.getD 1 [] = x1 ∧
      backquote ∉ post ∧
      ∀ a b, s = a ++ phrase ++ b → backquote ∈ b → a.length ≤ x1.length := by
  obtain ⟨y1, y2, post0, hd, -⟩ := find_clause_line hs h
  have hy1 : newline ∉ y1 := fun hh => hs (by rw [hd]; simp [hh])
  have hy2 : newline ∉ y2 := fun hh => hs (by rw [hd]; simp [hh])
  have hc := clause_complete phrase y1 y2 post0 none hy1 hy2
  rw [← hd] at hc
  obtain ⟨st, hst⟩ := Option.isSome_iff_exists.mp hc
  have hsearch := searchFrom_of_run hst
  have hm : m = submatches ⟨clauseRE phrase, 2⟩ s st := by
    unfold findStringSubmatch at h
    rw [hsearch] at h
    simp only [Option.some.injEq, List.drop_zero] at h
    exact h.symm
  obtain ⟨x1, x2, hdec, hc1, hc2, hpost, hmax⟩ := run_clause_max hs hst
  have hm1 : m.getD 1 [] = x1 := by
    rw [hm, submatches_getD_one (clauseRE phrase) 1 s st, hc1]
    rfl
  have hm2 : m.getD 2 [] = x2 := by
    rw [hm, submatches_getD_two (clauseRE phrase) 0 s st, hc2]
    rfl
  exact ⟨x1, st.rest, by rw [hm2]; exact hdec, hm1, hpost, hmax⟩

/-- C18: when the description handed to the default pass (the tag-stripped
working comment) matches the default pattern with submatches `m`, the text
`m[2]` that the pass hands to the literal-value parser begins right after the
last occurrence of "Defaults to " and a back-quote that has a back-quote
somewhere after it, and ends right before the last back-quote of the
description; the pass stores the parser's value for that text, or returns the
parser's error for it. -/
theorem extractDefault_greedy {I G V X R : Type} (env : Env I G V X R) (comment : Str)
    (info : Option EnumCommentInformation) (d1 : Definition V R) (m : List Str)
    (hm : findStringSubmatch regexpDefaults (stripAnnotations (workingComment comment info)) =
      some m) :
    (∃ before after,
      stripAnnotations (workingComment comment info) =
        before ++ "Defaults to `".toList ++ m.getD 2 [] ++ backquote :: after ∧
      backquote ∉ after ∧
      (∀ a b, stripAnnotations (workingComment comment info) =
          a ++ "Defaults to `".toList ++ b → backquote ∈ b → a.length ≤ before.length) ∧
      extractDefault env (stripAnnotations (workingComment comment info)) d1 =
        match env.parserAsValue (m.getD 2 []) with
        | .error err =>
          .error (.error ("couldn't parse default value from ".toList ++ m.getD 2 [] ++
            ": ".toList ++ err))
        | .ok parsedDefault =>
          .ok (trimSpace before, { d1 with Default := parsedDefault })) := by
  obtain ⟨x1, post, hdec, hm1, hpost, hmax⟩ :=
    find_clause_greedy (newline_not_mem_stripAnnotations (workingComment comment info)) hm
  refine ⟨x1, post, hdec, hpost, hmax, ?_⟩
  unfold extractDefault
  rw [hm]
  simp only [hm1]

set_option maxRecDepth 100000 in
/-- C18 on the comments of the specification: in "Foo is the bar. Defaults to
`1`. For example: `x`." the parser receives "1`. For example: `x" and no
example is stored; with the two clauses in reverse order the parser receives
"1" and the examples are `["x"]`. -/
theorem extractDefault_greedy_witness :
    findStringSubmatch regexpDefaults (stripAnnotations (workingComment
        "Foo is the bar. Defaults to `1`. For example: `x`.".toList none)) =
      some ["Foo is the bar. Defaults to `1`. For example: `x`".toList,
        "Foo is the bar. ".toList, "1`. For example: `x".toList] ∧
    handleComment demoEnv (demoGen false) "Foo".toList
        "Foo is the bar. Defaults to `1`. For example: `x`.".toList demoDef =
      .ok (⟨false, false⟩,
        ⟨"1`. For example: `x".toList, [], [], "bar.".toList, "bar.".toList, []⟩, 0) ∧
    handleComment demoEnv (demoGen false) "Foo".toList
        "Foo is the bar. For example: `x`. Defaults to `1`.".toList demoDef =
      .ok (⟨false, false⟩,
        ⟨"1".toList, [], ["x".toList], "bar.".toList, "bar.".toList, []⟩, 0) ∧
    (∃ before after,
      stripAnnotations (workingComment
          "Foo is the bar. Defaults to `1`. For example: `x`.".toList none) =
        before ++ "Defaults to `".toList ++ "1`. For example: `x".toList ++
          backquote :: after ∧
      backquote ∉ after ∧
      (∀ a b, stripAnnotations (workingComment
            "Foo is the bar. Defaults to `1`. For example: `x`.".toList none) =
          a ++ "Defaults to `".toList ++ b → backquote ∈ b → a.length ≤ before.length) ∧
      extractDefault demoEnv (stripAnnotations (workingComment
          "Foo is the bar. Defaults to `1`. For example: `x`.".toList none)) demoDef =
        match demoEnv.parserAsValue "1`. For example: `x".toList with
        | .error err =>
          .error (.error ("couldn't parse default value from ".toList ++
            "1`. For example: `x".toList ++ ": ".toList ++ err))
        | .ok parsedDefault =>
          .ok (trimSpace before, { demoDef with Default := parsedDefault })) :=
  ⟨rfl, rfl, rfl, extractDefault_greedy demoEnv
    "Foo is the bar. Defaults to `1`. For example: `x`.".toList none demoDef
    ["Foo is the bar. Defaults to `1`. For example: `x`".toList,
      "Foo is the bar. ".toList, "1`. For example: `x".toList] rfl⟩

theorem stripAnnotations_eq (comment : Str) :
    stripAnnotations comment = trimSpace (untagged comment) := rfl

theorem isPrefixOf_append_of_not_mem (c : Char) (y : Str) :
    ∀ (old x : Str), c ∉ old → old.isPrefixOf (x ++ c :: y) = old.isPrefixOf x := by
  intro old
  induction old with
  | nil =>
    intro x _
    simp [List.isPrefixOf]
  | cons o os ih =>
    intro x hc
    have ho : o ≠ c := fun e => hc (e ▸ List.mem_cons_self _ _)
    have hos : c ∉ os := fun h => hc (List.mem_cons_of_mem _ h)
    cases x with
    | nil => simp [List.isPrefixOf, ho]
    | cons d x' =>
      rw [List.cons_append]
      simp only [List.isPrefixOf]
      rw [ih x' hos]

theorem replaceAllAux_split (old new : Str) (c : Char) (y : Str) (hc : c ∉ old)
    (hold : old ≠ []) : ∀ (x : Str) (k : Nat), k ≤ x.length →
    replaceAllAux old new k (x ++ c :: y) =
      replaceAllAux old new k x ++ c :: replaceAllAux old new 0 y := by
  intro x
  induction x with
  | nil =>
    intro k hk
    have hk0 : k = 0 := by simpa using hk
    subst hk0
    have hp : old.isPrefixOf (c :: y) = false := by
      have := isPrefixOf_append_of_not_mem c y old [] hc
      simp only [List.nil_append] at this
      rw [this]
      cases old with
      | nil => exact absurd rfl hold
      | cons o os => rfl
    simp only [List.nil_append, replaceAllAux, hp]
    rfl
  | cons d x' ih =>
    intro k hk
    rw [List.cons_append]
    cases k with
    | succ k' =>
      simp only [replaceAllAux]
      exact ih k' (by simpa using hk)
    | zero =>
      have hpe := isPrefixOf_append_of_not_mem c y old (d :: x') hc
      rw [List.cons_append] at hpe
      simp only [replaceAllAux, hpe]
      cases hp : old.isPrefixOf (d :: x') with
      | false =>
        simp only [Bool.false_eq_true, if_false, List.cons_append]
        rw [ih 0 (Nat.zero_le _)]
      | true =>
        simp only [if_true]
        have hlen : old.length ≤ (d :: x').length :=
          (List.isPrefixOf_iff_prefix.mp hp).length_le
        rw [ih (old.length - 1) (by simp at hlen; omega)]
        simp

theorem replaceAll_split (old new x y : Str) (c : Char) (hc : c ∉ old) (hold : old ≠ []) :
    replaceAll (x ++ c :: y) old new = replaceAll x old new ++ c :: replaceAll y old new := by
  cases old with
  | nil => exact absurd rfl hold
  | cons o os => exact replaceAllAux_split (o :: os) new c y hc (by simp) x 0 (Nat.zero_le _)

theorem untagged_split (x y : Str) (c : Char) (h1 : c ∉ "+required".toList)
    (h2 : c ∉ "+optional".toList) (h3 : c ≠ newline) :
    untagged (x ++ c :: y) = untagged x ++ c :: untagged y := by
  unfold untagged
  rw [replaceAll_split _ _ _ _ _ h1 (by decide), replaceAll_split _ _ _ _ _ h2 (by decide),
    replaceAll_single, replaceAll_single, replaceAll_single, List.map_append, List.map_cons,
    if_neg h3]

theorem mem_replaceAllAux_nil (old : Str) (c : Char) : ∀ (s : Str) (k : Nat),
    c ∈ replaceAllAux old [] k s → c ∈ s := by
  intro s
  induction s with
  | nil =>
    intro k h
    cases k <;> simp [replaceAllAux] at h
  | cons d s' ih =>
    intro k h
    cases k with
    | succ k' =>
      simp only [replaceAllAux] at h
      exact List.mem_cons_of_mem _ (ih k' h)
    | zero =>
      simp only [replaceAllAux] at h
      split at h
      · exact List.mem_cons_of_mem _ (ih _ (by simpa using h))
      · rcases List.mem_cons.mp h with h | h
        · exact h ▸ List.mem_cons_self _ _
        · exact List.mem_cons_of_mem _ (ih 0 h)

theorem mem_untagged {c : Char} {s : Str} (h : c ∈ untagged s) : c ∈ s ∨ c = ' ' := by
  unfold untagged at h
  rw [replaceAll_single] at h
  obtain ⟨e, he, hce⟩ := List.mem_map.mp h
  by_cases hn : e = newline
  · rw [if_pos hn] at hce
    exact Or.inr hce.symm
  · rw [if_neg hn] at hce
    subst hce
    left
    exact mem_replaceAllAux_nil _ _ _ 0 (mem_replaceAllAux_nil _ _ _ 0 he)

theorem newline_not_mem_untagged (s : Str) : newline ∉ untagged s := by
  unfold untagged
  rw [replaceAll_single]
  intro h
  obtain ⟨c, -, hc⟩ := List.mem_map.mp h
  by_cases h1 : c = newline
  · rw [if_pos h1] at hc
    exact absurd hc (by decide)
  · rw [if_neg h1] at hc
    exact h1 hc

theorem backquote_not_mem_untagged {s : Str} (h : backquote ∉ s) : backquote ∉ untagged s := by
  intro hm
  rcases mem_untagged hm with h1 | h1
  · exact h h1
  · exact absurd h1 (by decide)

theorem dropWhile_append_cons (p : Char → Bool) (x t : Str) (c : Char) (hc : p c = false) :
    (x ++ c :: t).dropWhile p = x.dropWhile p ++ c :: t := by
  induction x with
  | nil => simp [List.dropWhile, hc]
  | cons d x' ih =>
    by_cases hd : p d = true
    · simp only [List.cons_append, List.dropWhile_cons_of_pos hd]
      exact ih
    · simp only [List.cons_append, List.dropWhile_cons_of_neg hd]

theorem rdropWhile_append_cons (p : Char → Bool) (x t : Str) (c : Char) (hc : p c = false) :
    (x ++ c :: t).rdropWhile p = x ++ c :: t.rdropWhile p := by
  unfold List.rdropWhile
  rw [List.reverse_append, List.reverse_cons, List.append_assoc, List.singleton_append,
    dropWhile_append_cons p _ _ c hc]
  simp

theorem trimSpace_append_cons (x t : Str) (c : Char) (hc : isSpace c = false) :
    trimSpace (x ++ c :: t) = x.dropWhile isSpace ++ c :: t.rdropWhile isSpace := by
  unfold trimSpace
  rw [dropWhile_append_cons isSpace x t c hc, rdropWhile_append_cons isSpace _ t c hc]

theorem trimSpace_dropWhile (x : Str) : trimSpace (x.dropWhile isSpace) = trimSpace x := by
  unfold trimSpace
  rw [List.dropWhile_idempotent]

theorem trimSpace_concat_space (x : Str) (c : Char) (hc : isSpace c = true) :
    trimSpace (x ++ [c]) = trimSpace x := by
  unfold trimSpace
  rw [List.dropWhile_append]
  by_cases h : (x.dropWhile isSpace).isEmpty = true
  · rw [if_pos h]
    have hx : x.dropWhile isSpace = [] := List.isEmpty_iff.mp h
    rw [hx]
    simp [List.dropWhile, hc, List.rdropWhile]
  · rw [if_neg h, List.rdropWhile_concat_pos _ _ _ hc]

theorem first_split (c : Char) : ∀ (u u' v v' : Str), c ∉ u → c ∉ u' →
    u ++ c :: v = u' ++ c :: v' → u = u' ∧ v = v' := by
  intro u
  induction u with
  | nil =>
    intro u' v v' _ hu' h
    cases u' with
    | nil =>
      simp only [List.nil_append, List.cons.injEq, true_and] at h
      exact ⟨rfl, h⟩
    | cons e u'' =>
      simp only [List.nil_append, List.cons_append, List.cons.injEq] at h
      exact absurd (h.1 ▸ List.mem_cons_self _ _) hu'
  | cons d u1 ih =>
    intro u' v v' hu hu' h
    cases u' with
    | nil =>
      simp only [List.nil_append, List.cons_append, List.cons.injEq] at h
      exact absurd (h.1 ▸ List.mem_cons_self _ _) hu
    | cons e u'' =>
      simp only [List.cons_append, List.cons.injEq] at h
      obtain ⟨rfl, h2⟩ := h
      obtain ⟨rfl, rfl⟩ := ih u'' v v' (fun hh => hu (List.mem_cons_of_mem _ hh))
        (fun hh => hu' (List.mem_cons_of_mem _ hh)) h2
      exact ⟨rfl, rfl⟩

theorem stripAnnotations_default_tail (P L T : Str) :
    stripAnnotations (P ++ " Defaults to `".toList ++ L ++ backquote :: T) =
      (untagged P ++ [' ']).dropWhile isSpace ++ "Defaults to `".toList ++ untagged L ++
        backquote :: (untagged T).rdropWhile isSpace := by
  have e : P ++ " Defaults to `".toList ++ L ++ backquote :: T =
      P ++ ' ' :: ("Defaults to ".toList ++ backquote :: (L ++ backquote :: T)) := by
    have : " Defaults to `".toList = ' ' :: ("Defaults to ".toList ++ [backquote]) := by decide
    rw [this]
    simp
  have e2 : untagged "Defaults to ".toList = "Defaults to ".toList := by decide
  rw [stripAnnotations_eq, e, untagged_split P _ ' ' (by decide) (by decide) (by decide),
    untagged_split _ _ backquote (by decide) (by decide) (by decide),
    untagged_split _ _ backquote (by decide) (by decide) (by decide), e2]
  have e3 : untagged P ++ ' ' :: ("Defaults to ".toList ++ backquote :: (untagged L ++
      backquote :: untagged T)) =
      (untagged P ++ [' ']) ++ 'D' :: ("efaults to ".toList ++ backquote :: (untagged L ++
        backquote :: untagged T)) := by
    have : "Defaults to ".toList = 'D' :: "efaults to ".toList := by decide
    rw [this]
    simp
  rw [e3, trimSpace_append_cons _ _ 'D' (by decide)]
  have e4 : "efaults to ".toList ++ backquote :: (untagged L ++ backquote :: untagged T) =
      ("efaults to ".toList ++ backquote :: untagged L) ++ backquote :: untagged T := by simp
  rw [e4, rdropWhile_append_cons _ _ _ backquote (by decide)]
  have : "Defaults to `".toList = 'D' :: ("efaults to ".toList ++ [backquote]) := by decide
  rw [this]
  simp

theorem find_clause_none_of_not_mem {phrase s : Str} (h : backquote ∉ s) :
    findStringSubmatch ⟨clauseRE phrase, 2⟩ s = none := by
  cases hf : findStringSubmatch ⟨clauseRE phrase, 2⟩ s with
  | none => rfl
  | some m =>
    exfalso
    have hi : (findStringSubmatch ⟨clauseRE phrase, 2⟩ s).isSome := by rw [hf]; rfl
    obtain ⟨a, x, b, hs, -⟩ := (find_clause_isSome_iff phrase s).mp hi
    apply h
    rw [hs]
    simp

theorem find_default_tail (Q L T : Str) (hQ : backquote ∉ Q) (hL : backquote ∉ L)
    (hT : backquote ∉ T) (hn : newline ∉ Q ++ "Defaults to `".toList ++ L ++ backquote :: T) :
    ∃ m, findStringSubmatch regexpDefaults (Q ++ "Defaults to `".toList ++ L ++ backquote :: T) =
        some m ∧ m.getD 1 [] = Q ∧ m.getD 2 [] = L := by
  have hLn : newline ∉ L := fun h => hn (by simp [h])
  have hi : (findStringSubmatch regexpDefaults
      (Q ++ "Defaults to `".toList ++ L ++ backquote :: T)).isSome :=
    (find_clause_isSome_iff _ _).mpr ⟨Q, L, T, rfl, hLn⟩
  obtain ⟨m, hm⟩ := Option.isSome_iff_exists.mp hi
  obtain ⟨x1, x2, post, hs, hmm⟩ := find_clause_line hn hm
  have hph : "Defaults to `".toList = "Defaults to ".toList ++ [backquote] := by decide
  have hph0 : backquote ∉ "Defaults to ".toList := by decide
  rw [hph] at hs
  have hcount : List.count backquote
      (Q ++ ("Defaults to ".toList ++ [backquote]) ++ L ++ backquote :: T) = 2 := by
    simp only [List.count_append, List.count_cons_self, List.count_nil,
      List.count_eq_zero.mpr hQ, List.count_eq_zero.mpr hL, List.count_eq_zero.mpr hT,
      List.count_eq_zero.mpr hph0]
  rw [hs] at hcount
  simp only [List.count_append, List.count_cons_self, List.count_nil,
    List.count_eq_zero.mpr hph0] at hcount
  have hx1 : backquote ∉ x1 := List.count_eq_zero.mp (by omega)
  have hx2 : backquote ∉ x2 := List.count_eq_zero.mp (by omega)
  have h1 : (Q ++ "Defaults to ".toList) ++ backquote :: (L ++ backquote :: T) =
      (x1 ++ "Defaults to ".toList) ++ backquote :: (x2 ++ backquote :: post) := by
    have := hs
    simp only [List.append_assoc, List.singleton_append] at this ⊢
    exact this
  obtain ⟨h2, h3⟩ := first_split backquote _ _ _ _
    (fun h => (List.mem_append.mp h).elim hQ hph0)
    (fun h => (List.mem_append.mp h).elim hx1 hph0) h1
  obtain ⟨h4, -⟩ := first_split backquote _ _ _ _ hL hx2 h3
  refine ⟨m, hm, ?_, ?_⟩
  · rw [hmm]
    exact (List.append_cancel_right h2).symm
  · rw [hmm]
    exact h4.symm

theorem finishComment_required {I G V X R : Type} (env : Env I G V X R) (strict : Bool)
    (name description synth : Str) (r1 r2 noDerive : Bool) (d : Definition V R) (g : G) :
    (finishComment env strict name description synth r1 noDerive d g).map
        (fun r => (r.2.1.Description, r.2.1.Default)) =
      (finishComment env strict name description synth r2 noDerive d g).map
        (fun r => (r.2.1.Description, r.2.1.Default)) := by
  unfold finishComment
  split
  · rfl
  · split
    · rfl
    · split
      · rfl
      · rfl

theorem extractDefault_tail {I G V X R : Type} (env : Env I G V X R) (P L T : Str)
    (d1 : Definition V R) (hP : backquote ∉ P) (hL : backquote ∉ L) (hT : backquote ∉ T) :
    extractDefault env
        (stripAnnotations (P ++ " Defaults to `".toList ++ L ++ backquote :: T)) d1 =
      match env.parserAsValue (untagged L) with
      | .error err =>
        .error (.error ("couldn't parse default value from ".toList ++ untagged L ++
          ": ".toList ++ err))
      | .ok v => .ok (trimSpace (untagged P), { d1 with Default := v }) := by
  have hn := newline_not_mem_stripAnnotations
    (P ++ " Defaults to `".toList ++ L ++ backquote :: T)
  rw [stripAnnotations_default_tail] at hn ⊢
  have hQ : backquote ∉ (untagged P ++ [' ']).dropWhile isSpace := by
    intro h
    have h2 := (List.dropWhile_suffix isSpace).subset h
    rcases List.mem_append.mp h2 with h3 | h3
    · exact backquote_not_mem_untagged hP h3
    · exact absurd h3 (by decide)
  have hT' : backquote ∉ (untagged T).rdropWhile isSpace := fun h =>
    backquote_not_mem_untagged hT ((List.rdropWhile_prefix isSpace _).subset h)
  obtain ⟨m, hm, hm1, hm2⟩ := find_default_tail _ _ _ hQ (backquote_not_mem_untagged hL) hT' hn
  have htrim : trimSpace ((untagged P ++ [' ']).dropWhile isSpace) = trimSpace (untagged P) := by
    rw [trimSpace_dropWhile, trimSpace_concat_space _ _ (by decide)]
  cases hpv : env.parserAsValue (untagged L) with
  | error err =>
    unfold extractDefault
    rw [hm]
    simp only [hm1, hm2, htrim, hpv]
  | ok v =>
    unfold extractDefault
    rw [hm]
    simp only [hm1, hm2, htrim, hpv]

/-- C19: in a non-strict call on the comment `P`, " Defaults to ", a
back-quote, `L`, a back-quote and `T`, where `P`, `L` and `T` have no
back-quote and the enum pass recognises nothing, the tail `T` is discarded:
for two tails the calls end alike, with the same `Description` and the same
`Default` or with the same failure. When moreover the name has no regexp
metacharacter, the prose as the passes see it has no phrase "Schema type is one
of " and the parser accepts the literal as the default pass sees it, the call
succeeds, `Description` is the prose without the type name and `Default` is the
parsed literal. -/
theorem handleComment_tail_discarded {I G V X R : Type} (env : Env I G V X R)
    (dg : Generator I G) (rawName P L T1 T2 : Str) (d d1 : Definition V R)
    (hP : backquote ∉ P) (hL : backquote ∉ L) (hT1 : backquote ∉ T1) (hT2 : backquote ∉ T2)
    (hstrict : dg.Strict = false)
    (henum1 : env.handleEnumComments dg.Importer d
      (P ++ " Defaults to `".toList ++ L ++ backquote :: T1) = .ok (d1, none))
    (henum2 : env.handleEnumComments dg.Importer d
      (P ++ " Defaults to `".toList ++ L ++ backquote :: T2) = .ok (d1, none)) :
    (handleComment env dg rawName (P ++ " Defaults to `".toList ++ L ++ backquote :: T1) d).map
        (fun r => (r.2.1.Description, r.2.1.Default)) =
      (handleComment env dg rawName (P ++ " Defaults to `".toList ++ L ++ backquote :: T2) d).map
        (fun r => (r.2.1.Description, r.2.1.Default)) ∧
    (∀ v, plainName (env.interpretReference rawName).2 = true →
      ¬ oneOfPhrase <:+: untagged P → env.parserAsValue (untagged L) = .ok v →
      ∃ res, handleComment env dg rawName
          (P ++ " Defaults to `".toList ++ L ++ backquote :: T1) d = .ok res ∧
        res.2.1.Description =
          stripTypeName (env.interpretReference rawName).2 (trimSpace (untagged P)) ∧
        res.2.1.Default = v) := by
  have hpre : ∀ c : Str, (dg.Strict && (env.interpretReference rawName).2 != [] &&
      !hasPrefix c ((env.interpretReference rawName).2 ++ " ".toList)) = false := by
    intro c
    rw [hstrict]
    rfl
  rw [handleComment_eq env dg rawName _ d d1 none (hpre _) henum1,
    handleComment_eq env dg rawName _ d d1 none (hpre _) henum2]
  simp only [workingComment]
  rw [extractDefault_tail env P L T1 d1 hP hL hT1, extractDefault_tail env P L T2 d1 hP hL hT2]
  constructor
  · cases env.parserAsValue (untagged L) with
    | error err => rfl
    | ok v =>
      simp only
      cases extractSchemaType env dg (trimSpace (untagged P)) { d1 with Default := v } with
      | error f => rfl
      | ok x =>
        obtain ⟨s2, nd, d3, g⟩ := x
        exact finishComment_required env dg.Strict _ _ _ _ _ nd _ g
  · intro v hname hphrase hparse
    rw [hparse]
    simp only
    have hbq : backquote ∉ trimSpace (untagged P) :=
      not_mem_of_infix (trimSpace_sub _) (backquote_not_mem_untagged hP)
    have hone : findStringSubmatch typeOneOfPattern (trimSpace (untagged P)) = none := by
      cases hf : findStringSubmatch typeOneOfPattern (trimSpace (untagged P)) with
      | none => rfl
      | some m =>
        exfalso
        apply hphrase
        exact ((find_typeOneOf_isSome_iff _).mp (by rw [hf]; rfl)).trans (trimSpace_sub _)
    rw [extractSchemaType_none env dg _ _ (find_clause_none_of_not_mem hbq) hone]
    simp only
    rw [extractExample_none _ _ (find_clause_none_of_not_mem hbq)]
    rw [finishComment_lenient env dg.Strict _ _ _ _ _ _ _ hname (Or.inl hstrict)]
    refine ⟨_, rfl, ?_, rfl⟩
    exact joinIfNotEmpty_pair_nil _ _

set_option maxRecDepth 100000 in
/-- C19 on the prose "Foo is the bar.", the literal "1" and the tails "" and
" Deprecated since v2.": both calls end with the description "bar." and the
default "1". -/
theorem handleComment_tail_discarded_witness :
    handleComment demoEnv (demoGen false) "Foo".toList
        ("Foo is the bar.".toList ++ " Defaults to `".toList ++ "1".toList ++
          backquote :: "".toList) demoDef =
      .ok (⟨false, false⟩, ⟨"1".toList, [], [], "bar.".toList, "bar.".toList, []⟩, 0) ∧
    handleComment demoEnv (demoGen false) "Foo".toList
        ("Foo is the bar.".toList ++ " Defaults to `".toList ++ "1".toList ++
          backquote :: " Deprecated since v2.".toList) demoDef =
      .ok (⟨false, false⟩, ⟨"1".toList, [], [], "bar.".toList, "bar.".toList, []⟩, 0) ∧
    ((handleComment demoEnv (demoGen false) "Foo".toList
        ("Foo is the bar.".toList ++ " Defaults to `".toList ++ "1".toList ++
          backquote :: "".toList) demoDef).map
        (fun r => (r.2.1.Description, r.2.1.Default)) =
      (handleComment demoEnv (demoGen false) "Foo".toList
        ("Foo is the bar.".toList ++ " Defaults to `".toList ++ "1".toList ++
          backquote :: " Deprecated since v2.".toList) demoDef).map
        (fun r => (r.2.1.Description, r.2.1.Default)) ∧
    (∀ v, plainName (demoEnv.interpretReference "Foo".toList).2 = true →
      ¬ oneOfPhrase <:+: untagged "Foo is the bar.".toList →
      demoEnv.parserAsValue (untagged "1".toList) = .ok v →
      ∃ res, handleComment demoEnv (demoGen false) "Foo".toList
          ("Foo is the bar.".toList ++ " Defaults to `".toList ++ "1".toList ++
            backquote :: "".toList) demoDef = .ok res ∧
        res.2.1.Description =
          stripTypeName (demoEnv.interpretReference "Foo".toList).2
            (trimSpace (untagged "Foo is the bar.".toList)) ∧
        res.2.1.Default = v)) :=
  ⟨rfl, rfl, handleComment_tail_discarded demoEnv (demoGen false) "Foo".toList
    "Foo is the bar.".toList "1".toList "".toList " Deprecated since v2.".toList demoDef demoDef
    (by decide) (by decide) (by decide) (by decide) rfl rfl rfl⟩

theorem run_alt (a b : RE) (st : St) (k : St → Option St) :
    run (.alt a b) st k = match run a st k with
      | some r => some r
      | none => run b st k := rfl

theorem run_verbGroup (V R : Str) (pv : Option Char) (cp : Nat → Option Str)
    (hV : V ∈ verbs)
    (hthe : V = "is ".toList ∨ V = "are ".toList → ¬ "the ".toList <+: R) :
    (run (.opt verbGroup) ⟨pv, V ++ R, cp⟩ (fun st4 => run .empty st4 some)).map
      (fun st => (st.rest, st.caps 1)) = some (R, cp 1) := by
  simp only [verbs, List.mem_cons, List.mem_singleton, List.not_mem_nil, or_false] at hV
  rcases hV with rfl | rfl | rfl | rfl | rfl
  · simp only [RE.opt, verbGroup, RE.cat, List.foldr_cons, List.foldr_nil, run_alt, run_group,
        run_seq, run_empty, run_lit]
    simp [setCap]
  · have h : ¬ ['t', 'h', 'e', ' '] <+: R := hthe (Or.inl rfl)
    simp only [RE.opt, verbGroup, RE.cat, List.foldr_cons, List.foldr_nil, run_alt, run_group,
        run_seq, run_empty, run_lit]
    simp [setCap, h]
  · simp only [RE.opt, verbGroup, RE.cat, List.foldr_cons, List.foldr_nil, run_alt, run_group,
        run_seq, run_empty, run_lit]
    simp [setCap]
  · have h : ¬ ['t', 'h', 'e', ' '] <+: R := hthe (Or.inr rfl)
    simp only [RE.opt, verbGroup, RE.cat, List.foldr_cons, List.foldr_nil, run_alt, run_group,
        run_seq, run_empty, run_lit]
    simp [setCap, h]
  · simp only [RE.opt, verbGroup, RE.cat, List.foldr_cons, List.foldr_nil, run_alt, run_group,
        run_seq, run_empty, run_lit]
    simp [setCap]

theorem run_aside (A W : Str) (pv : Option Char) (cp : Nat → Option Str)
    (k : St → Option St) (res : St) (hA : newline ∉ A) (hW : '*' ∉ W)
    (hk : k ⟨some ' ', W, setCap cp 1 ('*' :: A ++ ['*', ' '])⟩ = some res) :
    run (.opt asideGroup) ⟨pv, '*' :: (A ++ '*' :: ' ' :: W), cp⟩ k = some res := by
  apply run_alt_left
  have hsplit : W = W.takeWhile (fun x => x != newline) ++ W.dropWhile (fun x => x != newline) :=
    (List.takeWhile_append_dropWhile _ _).symm
  generalize hW1 : W.takeWhile (fun x => x != newline) = W1 at hsplit
  generalize hW2 : W.dropWhile (fun x => x != newline) = W2 at hsplit
  have ht : ∀ c ∈ W2.head?, (fun x => x != newline) c = false := by
    intro c hc
    rw [← hW2] at hc
    cases hd : W.dropWhile (fun x => x != newline) with
    | nil => rw [hd] at hc; cases hc
    | cons e es =>
      rw [hd] at hc
      simp only [List.head?_cons, Option.mem_def, Option.some.injEq] at hc
      subst hc
      have := List.head_dropWhile_not (fun x => x != newline) W (by rw [hd]; simp)
      simp only [hd, List.head_cons] at this
      simpa using this
  have htake : ('*' :: (A ++ '*' :: ' ' :: W)).take
      (('*' :: (A ++ '*' :: ' ' :: W)).length - W.length) = '*' :: A ++ ['*', ' '] := by
    have := take_consumed ('*' :: A ++ ['*', ' ']) W
    simpa using this
  show run (.group 1 (.seq (.chr '*') (.seq (.star (.cls (fun x => x != newline)))
    (.seq (.chr '*') (.seq (.chr ' ') .empty))))) ⟨pv, '*' :: (A ++ '*' :: ' ' :: W), cp⟩ k = _
  rw [run_group, run_seq, run_chr_cons, run_seq, run_star]
  have e : A ++ '*' :: ' ' :: W = A ++ (('*' :: ' ' :: W1) ++ W2) := by
    rw [hsplit]
    simp
  simp only []
  rw [e]
  apply starLoop_cls_greedy (fun x => x != newline) A ('*' :: ' ' :: W1) W2 (some '*') cp
  · intro c hc
    have : c ≠ newline := fun h => hA (h ▸ hc)
    simpa using this
  · simp
  · exact ht
  · intro b1 b2 hb hne
    rw [run_seq]
    apply run_chr_none
    intro d hd
    cases b1 with
    | nil => exact absurd rfl hne
    | cons e0 b1' =>
      simp only [List.cons_append, List.cons.injEq] at hb
      have hmem : d ∈ ' ' :: W := by
        have h1 : d ∈ b2 ++ W2 := List.mem_of_mem_head? hd
        have h2 : ' ' :: W = b1' ++ (b2 ++ W2) := by
          rw [hsplit, ← List.append_assoc, ← hb.2]
          rfl
        rw [h2]
        exact List.mem_append_right _ h1
      rcases List.mem_cons.mp hmem with h3 | h3
      · rw [h3]; decide
      · intro h4
        exact hW (h4 ▸ h3)
  · rw [run_seq]
    rw [show ('*' :: ' ' :: W1) ++ W2 = '*' :: ' ' :: (W1 ++ W2) from rfl, run_chr_cons, run_seq,
      run_chr_cons, run_empty]
    simp only []
    rw [← hsplit, htake]
    exact hk

theorem run_no_aside (S : Str) (pv : Option Char) (cp : Nat → Option Str)
    (k : St → Option St) (hS : ∀ c ∈ S.head?, c ≠ '*') :
    run (.opt asideGroup) ⟨pv, S, cp⟩ k = k ⟨pv, S, cp⟩ := by
  have h : run asideGroup ⟨pv, S, cp⟩ k = none := by
    show run (.group 1 (.seq (.chr '*') (.seq (.star (.cls (fun x => x != newline)))
      (.seq (.chr '*') (.seq (.chr ' ') .empty))))) ⟨pv, S, cp⟩ k = _
    rw [run_group, run_seq]
    exact run_chr_none _ _ _ _ _ hS
  exact (run_alt_right _ _ _ _ h).trans rfl

theorem verbs_head {V : Str} (hV : V ∈ verbs) (R : Str) : ∀ c ∈ (V ++ R).head?, c ≠ '*' := by
  simp only [verbs, List.mem_cons, List.mem_singleton, List.not_mem_nil, or_false] at hV
  rcases hV with rfl | rfl | rfl | rfl | rfl <;> simp

theorem verbs_no_star {V : Str} (hV : V ∈ verbs) : '*' ∉ V := by
  simp only [verbs, List.mem_cons, List.mem_singleton, List.not_mem_nil, or_false] at hV
  rcases hV with rfl | rfl | rfl | rfl | rfl <;> decide

theorem run_typeName_start (N rest : Str) :
    run (typeNamePattern N).re ⟨none, N ++ ' ' :: rest, noCaps⟩ some =
      run (.opt asideGroup) ⟨some ' ', rest, noCaps⟩
        (fun st' => run (.opt verbGroup) st' (fun st4 => run .empty st4 some)) := by
  show run (.lit N) ⟨none, N ++ ' ' :: rest, noCaps⟩ (fun st1 => run (.chr ' ') st1
    (fun st2 => run (.opt asideGroup) st2
      (fun st' => run (.opt verbGroup) st' (fun st4 => run .empty st4 some)))) = _
  rw [run_lit_append, run_chr_cons]

theorem stripTypeName_verb (N V R : Str) (hV : V ∈ verbs)
    (hthe : V = "is ".toList ∨ V = "are ".toList → ¬ "the ".toList <+: R) :
    stripTypeName N (N ++ ' ' :: (V ++ R)) = R := by
  rw [stripTypeName_eq, run_typeName_start, run_no_aside _ _ _ _ (verbs_head hV R)]
  obtain ⟨st, hst, hp⟩ := Option.map_eq_some'.mp (run_verbGroup V R (some ' ') noCaps hV hthe)
  simp only [Prod.mk.injEq] at hp
  rw [hst]
  simp only [hp.1, hp.2]
  rfl

theorem stripTypeName_aside_verb (N A V R : Str) (hA : newline ∉ A) (hV : V ∈ verbs)
    (hR : '*' ∉ R)
    (hthe : V = "is ".toList ∨ V = "are ".toList → ¬ "the ".toList <+: R) :
    stripTypeName N (N ++ ' ' :: '*' :: (A ++ '*' :: ' ' :: (V ++ R))) =
      '*' :: A ++ ['*', ' '] ++ R := by
  obtain ⟨st, hst, hp⟩ := Option.map_eq_some'.mp
    (run_verbGroup V R (some ' ') (setCap noCaps 1 ('*' :: A ++ ['*', ' '])) hV hthe)
  simp only [Prod.mk.injEq] at hp
  have hW : '*' ∉ V ++ R := fun h =>
    (List.mem_append.mp h).elim (verbs_no_star hV) hR
  rw [stripTypeName_eq, run_typeName_start,
    run_aside A (V ++ R) (some ' ') noCaps _ st hA hW hst]
  simp only [hp.1, hp.2, setCap, if_true, Option.getD_some]

theorem plainName_of_ident (N : Str)
    (h : N.all (fun c => c.isAlphanum || c == '_') = true) : plainName N = true := by
  unfold plainName
  rw [List.all_eq_true] at h ⊢
  intro c hc
  have hcc := h c hc
  cases hm : regexpMeta.contains c with
  | false => rfl
  | true =>
    exfalso
    have hmem : c ∈ regexpMeta := by simpa using hm
    simp only [regexpMeta, List.mem_cons, List.mem_singleton, List.not_mem_nil, or_false] at hmem
    rcases hmem with rfl | rfl | rfl | rfl | rfl | rfl | rfl | rfl | rfl | rfl | rfl | rfl |
      rfl | rfl <;> exact absurd hcc (by decide)

set_option maxRecDepth 100000 in
/-- C15, as stated, fails for an aside with a line feed: the name `Foo` is made
of letters, the verb phrase is "is the ", the remainder "bar." has no asterisk
and the aside is "a", a line feed, "b"; `.` does not match a line feed, so the
aside group and with it the verb group match nothing and only the name and the
space are removed. -/
theorem removeTypeNameFromComment_aside_line_feed :
    demoIdent "Foo".toList = true ∧ "is the ".toList ∈ verbs ∧ '*' ∉ "bar.".toList ∧
    removeTypeNameFromComment "Foo".toList
        ("Foo".toList ++ " *".toList ++ "a\nb".toList ++ "* ".toList ++ "is the ".toList ++
          "bar.".toList) =
      some "*a\nb* is the bar.".toList ∧
    "*a\nb* is the bar.".toList ≠
      "*".toList ++ "a\nb".toList ++ "* ".toList ++ "bar.".toList := by
  refine ⟨rfl, by decide, by decide, rfl, by decide⟩

/-- C15, amended: for a name `N` without regexp metacharacters (as one of
letters, digits and underscores), a verb phrase `V` among "is the ", "is ",
"are the ", "are " and "lists ", an aside `A` without a line feed and a
remainder `R` without an asterisk that, when `V` is "is " or "are ", does not
begin with "the ", `removeTypeNameFromComment` maps `N`, a space, `V`, `R` to
`R`, and `N`, a space, the aside `A` between asterisks, a space, `V`, `R` to the
aside between asterisks, a space and `R`; and it returns every description that
does not begin with `N` and a space unchanged. -/
theorem removeTypeNameFromComment_spec (N V A R d : Str) (hN : plainName N = true)
    (hV : V ∈ verbs) (hA : newline ∉ A) (hR : '*' ∉ R)
    (hthe : V = "is ".toList ∨ V = "are ".toList → ¬ "the ".toList <+: R)
    (hd : ¬ (N ++ " ".toList) <+: d) :
    removeTypeNameFromComment N (N ++ " ".toList ++ V ++ R) = some R ∧
    removeTypeNameFromComment N (N ++ " *".toList ++ A ++ "* ".toList ++ V ++ R) =
      some ("*".toList ++ A ++ "* ".toList ++ R) ∧
    removeTypeNameFromComment N d = some d := by
  unfold removeTypeNameFromComment
  simp only [hN, if_true]
  refine ⟨?_, ?_, ?_⟩
  · have e : N ++ " ".toList ++ V ++ R = N ++ ' ' :: (V ++ R) := by
      simp
    rw [e, stripTypeName_verb N V R hV hthe]
  · have e : N ++ " *".toList ++ A ++ "* ".toList ++ V ++ R =
        N ++ ' ' :: '*' :: (A ++ '*' :: ' ' :: (V ++ R)) := by
      simp
    rw [e, stripTypeName_aside_verb N A V R hA hV hR hthe]
    simp
  · rw [ stripTypeName_of_not_prefix N d hd]

set_option maxRecDepth 100000 in
/-- C15, amended, on the name `Foo`, the verb phrase "is ", the aside "see
*Bar*", the remainder "bar." and the description "Bar is x."; the aside has
asterisks of its own. -/
theorem removeTypeNameFromComment_spec_witness :
    removeTypeNameFromComment "Foo".toList
        ("Foo".toList ++ " ".toList ++ "is ".toList ++ "bar.".toList) = some "bar.".toList ∧
    removeTypeNameFromComment "Foo".toList
        ("Foo".toList ++ " *".toList ++ "see *Bar*".toList ++ "* ".toList ++ "is ".toList ++
          "bar.".toList) =
      some ("*".toList ++ "see *Bar*".toList ++ "* ".toList ++ "bar.".toList) ∧
    removeTypeNameFromComment "Foo".toList "Bar is x.".toList = some "Bar is x.".toList :=
  removeTypeNameFromComment_spec "Foo".toList "is ".toList "see *Bar*".toList "bar.".toList
    "Bar is x.".toList (plainName_of_ident _ (by decide)) (by decide) (by decide) (by decide)
    (by decide) (by decide)

theorem not_infix_concat_ne {y v : Str} {c e : Char} (hce : e ≠ c)
    (h : ¬ (y ++ [c]) <:+: v) : ¬ (y ++ [c]) <:+: v ++ [e] := by
  rintro ⟨p, q, hpq⟩
  rcases List.eq_nil_or_concat q with rfl | ⟨q', e', rfl⟩
  · have hl := congrArg List.getLast? hpq
    simp at hl
    exact hce hl.symm
  · apply h
    refine ⟨p, q', ?_⟩
    have e1 : p ++ (y ++ [c]) ++ (q' ++ [e']) = (p ++ (y ++ [c]) ++ q') ++ [e'] := by simp
    rw [List.concat_eq_append, e1] at hpq
    exact (List.append_inj' hpq rfl).1

theorem not_infix_append_of_not_mem {y u : Str} {c : Char} (h : ¬ (y ++ [c]) <:+: u) :
    ∀ w : Str, c ∉ w → ¬ (y ++ [c]) <:+: u ++ w := by
  intro w
  induction w using List.reverseRecOn with
  | nil =>
    intro _
    simpa using h
  | append_singleton w' e ih =>
    intro hw
    have h1 : c ∉ w' := fun hh => hw (List.mem_append_left _ hh)
    have h2 : e ≠ c := fun hh => hw (by simp [hh])
    rw [← List.append_assoc]
    exact not_infix_concat_ne h2 (ih h1)

theorem not_infix_concat_self {y u : Str} {c : Char} (h : ¬ (y ++ [c]) <:+: u)
    (hy : ¬ y <:+ u) : ¬ (y ++ [c]) <:+: u ++ [c] := by
  rintro ⟨p, q, hpq⟩
  rcases List.eq_nil_or_concat q with rfl | ⟨q', e', rfl⟩
  · apply hy
    refine ⟨p, ?_⟩
    have e1 : p ++ (y ++ [c]) ++ [] = (p ++ y) ++ [c] := by simp
    rw [e1] at hpq
    exact (List.append_inj' hpq rfl).1
  · apply h
    refine ⟨p, q', ?_⟩
    have e1 : p ++ (y ++ [c]) ++ (q' ++ [e']) = (p ++ (y ++ [c]) ++ q') ++ [e'] := by simp
    rw [List.concat_eq_append, e1] at hpq
    exact (List.append_inj' hpq rfl).1

theorem suffix_after_sep {y u e : Str} {c : Char} (hc : c ∉ y) (h : y <:+ u ++ c :: e) :
    y <:+ e := by
  obtain ⟨t, ht⟩ := h
  have ht' : t ++ y = (u ++ [c]) ++ e := by rw [ht]; simp
  rcases List.append_eq_append_iff.mp ht' with ⟨a', h1, h2⟩ | ⟨c', h1, h2⟩
  · rcases List.eq_nil_or_concat a' with rfl | ⟨a'', z, rfl⟩
    · simp only [List.nil_append] at h2
      exact ⟨[], by simp [h2]⟩
    · exfalso
      apply hc
      rw [List.concat_eq_append] at h1 h2
      rw [← List.append_assoc] at h1
      have hz := (List.append_inj' h1 rfl).2
      simp only [List.cons.injEq, and_true] at hz
      rw [h2, ← hz]
      simp
  · exact ⟨c', h2.symm⟩

theorem override_phrase_eq :
    "Schema type is `".toList = "Schema type is ".toList ++ [backquote] := by decide

theorem no_override_phrase_quoted {u e : Str}
    (hu : ¬ ("Schema type is ".toList ++ [backquote]) <:+: u)
    (hy : ¬ "Schema type is ".toList <:+ u)
    (he : backquote ∉ e) (hye : ¬ "Schema type is ".toList <:+ e) :
    ¬ ("Schema type is ".toList ++ [backquote]) <:+: u ++ backquote :: (e ++ [backquote]) := by
  have h1 := not_infix_concat_self hu hy
  have h2 := not_infix_append_of_not_mem h1 e he
  have h3 : ¬ "Schema type is ".toList <:+ (u ++ [backquote]) ++ e := by
    intro h
    apply hye
    exact @suffix_after_sep _ u e backquote (by decide) (by simpa using h)
  have h4 := not_infix_concat_self h2 h3
  simpa using h4

theorem no_override_phrase_clause : ∀ (es : List Str) (u : Str),
    ¬ ("Schema type is ".toList ++ [backquote]) <:+: u →
    ¬ "Schema type is ".toList <:+ u →
    (∀ e ∈ es, backquote ∉ e ∧ ¬ "Schema type is ".toList <:+ e) →
    ¬ ("Schema type is ".toList ++ [backquote]) <:+: u ++ oneOfClause es := by
  intro es
  induction es with
  | nil =>
    intro u hu _ _
    simpa [oneOfClause_nil] using hu
  | cons e es ih =>
    intro u hu hy hes
    have he := hes e (List.mem_cons_self _ _)
    have hq := no_override_phrase_quoted hu hy he.1 he.2
    cases es with
    | nil =>
      rw [oneOfClause_single]
      exact hq
    | cons e' es' =>
      rw [oneOfClause_cons_cons]
      have h1 := not_infix_append_of_not_mem hq ", ".toList (by decide)
      have h2 : ¬ "Schema type is ".toList <:+
          u ++ backquote :: (e ++ [backquote]) ++ ", ".toList := by
        intro h
        have h3 : "Schema type is ".toList <:+ (u ++ backquote :: e) ++ backquote :: ", ".toList := by
          simpa using h
        exact absurd (@suffix_after_sep _ (u ++ backquote :: e) ", ".toList backquote
          (by decide) h3) (by decide)
      have h4 := ih (u ++ backquote :: (e ++ [backquote]) ++ ", ".toList) h1 h2
        (fun x hx => hes x (List.mem_cons_of_mem _ hx))
      have e1 : u ++ backquote :: (e ++ backquote :: ([','] ++ ([' '] ++ oneOfClause (e' :: es')))) =
          u ++ backquote :: (e ++ [backquote]) ++ ", ".toList ++ oneOfClause (e' :: es') := by
        simp
      rw [e1]
      exact h4

theorem no_override_oneOf_only (before after : Str) (es : List Str)
    (hb : ¬ "Schema type is `".toList <:+: before)
    (hes : ∀ e ∈ es, backquote ∉ e ∧ ¬ "Schema type is ".toList <:+ e)
    (ha : backquote ∉ after) :
    ¬ "Schema type is `".toList <:+: before ++ oneOfPhrase ++ oneOfClause es ++ after := by
  rw [override_phrase_eq] at hb ⊢
  have h1 := not_infix_append_of_not_mem hb oneOfPhrase (by decide)
  have h2 : ¬ "Schema type is ".toList <:+ before ++ oneOfPhrase := by
    intro h
    have h3 : "Schema type is ".toList <:+ oneOfPhrase :=
      List.suffix_of_suffix_length_le h (List.suffix_append _ _) (by decide)
    exact absurd h3 (by decide)
  have h3 := no_override_phrase_clause es _ h1 h2 hes
  exact not_infix_append_of_not_mem h3 after ha

/-- C14: when the enum pass and the default pass succeed, the default pass
leaving the description `s1`, every successful call returns `NoDerive = true`
exactly when `s1` is some text, the phrase "Schema type is " and a
back-quote, some text, a back-quote, and some text. In particular, when `s1`
carries only a oneOf clause (a text without the phrase followed by a
back-quote, then "Schema type is one of ", then entries between back-quotes
separated by a comma and a space, none with a back-quote or ending in "Schema
type is ", then a text without back-quote), `NoDerive` is false. -/
theorem handleComment_noDerive_iff {I G V X R : Type} (env : Env I G V X R)
    (dg : Generator I G) (rawName comment : Str) (d d1 d2 : Definition V R)
    (info : Option EnumCommentInformation) (s1 : Str) (res : Meta × Definition V R × G)
    (henum : env.handleEnumComments dg.Importer d comment = .ok (d1, info))
    (hdef : extractDefault env (stripAnnotations (workingComment comment info)) d1 =
      .ok (s1, d2))
    (hok : handleComment env dg rawName comment d = .ok res) :
    (res.1.NoDerive = true ↔
      ∃ a x b, s1 = a ++ "Schema type is `".toList ++ x ++ backquote :: b) ∧
    (∀ (before after : Str) (es : List Str),
      s1 = before ++ oneOfPhrase ++ oneOfClause es ++ after →
      ¬ "Schema type is `".toList <:+: before →
      (∀ e ∈ es, backquote ∉ e ∧ ¬ "Schema type is ".toList <:+ e) →
      backquote ∉ after → res.1.NoDerive = false) := by
  obtain ⟨d1', info', s1', d2', s2, nd, d3, g, -, henum', h1, h2, h3⟩ := handleComment_ok hok
  rw [henum] at henum'
  simp only [Except.ok.injEq, Prod.mk.injEq] at henum'
  obtain ⟨rfl, rfl⟩ := henum'
  rw [hdef] at h1
  simp only [Except.ok.injEq, Prod.mk.injEq] at h1
  obtain ⟨rfl, rfl⟩ := h1
  have hm := finishComment_meta _ _ _ _ _ _ _ _ _ _ h3
  have hnl : newline ∉ s1 :=
    not_mem_of_infix (extractDefault_sub hdef) (newline_not_mem_stripAnnotations _)
  have hshape : (findStringSubmatch typeOverridePattern s1).isSome = true ↔
      ∃ a x b, s1 = a ++ "Schema type is `".toList ++ x ++ backquote :: b := by
    rw [show typeOverridePattern = ⟨clauseRE "Schema type is `".toList, 2⟩ from rfl,
      find_clause_isSome_iff]
    constructor
    · rintro ⟨a, x, b, hs, -⟩
      exact ⟨a, x, b, hs⟩
    · rintro ⟨a, x, b, hs⟩
      refine ⟨a, x, b, hs, ?_⟩
      intro hx
      apply hnl
      rw [hs]
      simp [hx]
  have hiff : res.1.NoDerive = true ↔
      (findStringSubmatch typeOverridePattern s1).isSome = true := by
    rw [hm]
    have hT := extractSchemaType_out h2
    cases hov : findStringSubmatch typeOverridePattern s1 with
    | none =>
      have hnd := (hT.2 hov).1
      subst hnd
      simp
    | some m =>
      have hnd := (hT.1 m hov).2
      subst hnd
      simp
  refine ⟨hiff.trans hshape, ?_⟩
  intro before after es hs hb hes ha
  cases hnd : res.1.NoDerive with
  | false => rfl
  | true =>
    exfalso
    obtain ⟨a, x, b, hs'⟩ := (hiff.trans hshape).mp hnd
    apply no_override_oneOf_only before after es hb hes ha
    rw [← hs, hs']
    exact ⟨a, x ++ backquote :: b, by simp⟩

set_option maxRecDepth 100000 in
/-- C14 on two comments: "Foo is the bar. Schema type is `T`." carries a type
override and gives `NoDerive = true`; "Foo is the bar. Schema type is one of
`A`, `B`." carries only a oneOf clause and gives `NoDerive = false`. -/
theorem handleComment_noDerive_iff_witness :
    handleComment demoEnv (demoGen false) "Foo".toList
        "Foo is the bar. Schema type is `T`.".toList demoDef =
      .ok (⟨false, true⟩, ⟨[], [], [], "bar.".toList, "bar.".toList, "T".toList⟩, 1) ∧
    (∃ a x b, "Foo is the bar. Schema type is `T`.".toList =
      a ++ "Schema type is `".toList ++ x ++ backquote :: b) ∧
    handleComment demoEnv (demoGen false) "Foo".toList
        "Foo is the bar. Schema type is one of `A`, `B`.".toList demoDef =
      .ok (⟨false, false⟩,
        ⟨[], [⟨[], [], [], [], [], "A".toList⟩, ⟨[], [], [], [], [], "B".toList⟩], [],
          "bar.".toList, "bar.".toList, []⟩, 2) ∧
    (⟨false, false⟩ : Meta).NoDerive = false :=
  ⟨rfl,
    (handleComment_noDerive_iff demoEnv (demoGen false) "Foo".toList
      "Foo is the bar. Schema type is `T`.".toList demoDef demoDef demoDef none
      "Foo is the bar. Schema type is `T`.".toList
      (⟨false, true⟩, ⟨[], [], [], "bar.".toList, "bar.".toList, "T".toList⟩, 1)
      rfl rfl rfl).1.mp rfl,
    rfl,
    (handleComment_noDerive_iff demoEnv (demoGen false) "Foo".toList
      "Foo is the bar. Schema type is one of `A`, `B`.".toList demoDef demoDef demoDef none
      "Foo is the bar. Schema type is one of `A`, `B`.".toList
      (⟨false, false⟩,
        ⟨[], [⟨[], [], [], [], [], "A".toList⟩, ⟨[], [], [], [], [], "B".toList⟩], [],
          "bar.".toList, "bar.".toList, []⟩, 2)
      rfl rfl rfl).2 "Foo is the bar. ".toList ".".toList ["A".toList, "B".toList]
      (by decide) (by decide) (by decide) (by decide)⟩

theorem replaceAllAux_drop (old new : Str) : ∀ (k : Nat) (s : Str),
    replaceAllAux old new k s = replaceAllAux old new 0 (s.drop k) := by
  intro k
  induction k with
  | zero => intro s; rfl
  | succ k ih =>
    intro s
    cases s with
    | nil => rfl
    | cons c cs =>
      rw [List.drop_succ_cons, ← ih]
      rfl

theorem plusBegins_drop (ws : List Str) : ∀ (n : Nat) (s : Str),
    plusBegins ws s = true → plusBegins ws (s.drop n) = true := by
  intro n
  induction n with
  | zero => intro s h; exact h
  | succ n ih =>
    intro s h
    cases s with
    | nil => rfl
    | cons c cs =>
      rw [List.drop_succ_cons]
      apply ih
      simp only [plusBegins, Bool.and_eq_true] at h
      exact h.2

theorem replaceAllAux_emit (o : Char) (os new rest : Str) : ∀ x : Str, (∀ c ∈ x, c ≠ o) →
    replaceAllAux (o :: os) new 0 (x ++ rest) = x ++ replaceAllAux (o :: os) new 0 rest := by
  intro x
  induction x with
  | nil => intro _; rfl
  | cons c x' ih =>
    intro hx
    have hc : c ≠ o := hx c (List.mem_cons_self _ _)
    have hp : (o :: os).isPrefixOf (c :: (x' ++ rest)) = false := by
      simp [List.isPrefixOf, Ne.symm hc]
    rw [List.cons_append]
    simp only [replaceAllAux, hp, Bool.false_eq_true, if_false, List.cons_append]
    rw [ih (fun d hd => hx d (List.mem_cons_of_mem _ hd))]

theorem plusBegins_delete (w : Str) (ws : List Str) (hws : ∀ v ∈ ws, '+' ∉ v) :
    ∀ (n : Nat) (s : Str), s.length ≤ n → plusBegins (w :: ws) s = true →
    plusBegins ws (replaceAllAux ('+' :: w) [] 0 s) = true := by
  intro n
  induction n with
  | zero =>
    intro s hn _
    have : s = [] := List.length_eq_zero.mp (Nat.le_zero.mp hn)
    subst this
    rfl
  | succ n ih =>
    intro s hn h
    cases s with
    | nil => rfl
    | cons c cs =>
      have hcs : cs.length ≤ n := by simpa using hn
      have h' := h
      simp only [plusBegins, Bool.and_eq_true] at h'
      simp only [replaceAllAux]
      by_cases hp : ('+' :: w).isPrefixOf (c :: cs) = true
      · rw [if_pos hp, List.nil_append, replaceAllAux_drop]
        apply ih
        · rw [List.length_drop]
          omega
        · exact plusBegins_drop _ _ _ h'.2
      · rw [if_neg hp]
        have hrest := ih cs hcs h'.2
        simp only [plusBegins, Bool.and_eq_true]
        refine ⟨?_, hrest⟩
        by_cases hc : c = '+'
        · subst hc
          have h1 := h'.1
          simp only [bne_self_eq_false, Bool.false_or, List.any_cons, Bool.or_eq_true] at h1
          rcases h1 with h1 | h1
          · exfalso
            apply hp
            simpa [List.isPrefixOf, hasPrefix] using h1
          · simp only [bne_self_eq_false, Bool.false_or]
            rw [List.any_eq_true] at h1 ⊢
            obtain ⟨v, hv, hpv⟩ := h1
            refine ⟨v, hv, ?_⟩
            obtain ⟨rest, hrest'⟩ := List.isPrefixOf_iff_prefix.mp hpv
            rw [← hrest', replaceAllAux_emit '+' w [] rest v
              (fun d hd e => hws v hv (e ▸ hd))]
            exact List.isPrefixOf_iff_prefix.mpr ⟨_, rfl⟩
        · simp [hc]

theorem not_mem_of_plusBegins_nil : ∀ s : Str, plusBegins [] s = true → '+' ∉ s := by
  intro s
  induction s with
  | nil => intro _; simp
  | cons c cs ih =>
    intro h
    simp only [plusBegins, List.any_nil, Bool.or_false, Bool.and_eq_true, bne_iff_ne,
      ne_eq] at h
    intro hm
    rcases List.mem_cons.mp hm with h1 | h1
    · exact h.1 h1.symm
    · exact ih h.2 h1

theorem plus_not_mem_stripAnnotations (comment : Str) (h : plusBeginsTag comment = true) :
    '+' ∉ stripAnnotations comment := by
  have h1 := plusBegins_delete "required".toList ["optional".toList]
    (by decide) comment.length comment (Nat.le_refl _) h
  have h2 := plusBegins_delete "optional".toList [] (by simp) _ _ (Nat.le_refl _) h1
  have h3 := not_mem_of_plusBegins_nil _ h2
  intro hm
  unfold stripAnnotations at hm
  have hm2 := (trimSpace_sub _).subset hm
  rw [replaceAll_single] at hm2
  obtain ⟨e, he, hce⟩ := List.mem_map.mp hm2
  by_cases hn : e = newline
  · rw [if_pos hn] at hce
    exact absurd hce (by decide)
  · rw [if_neg hn] at hce
    subst hce
    exact h3 he

set_option maxRecDepth 100000 in
/-- C2, as stated, fails twice over. The first comment has a standalone
`Required` line, the call is non-strict and succeeds with `Required = true`,
and the word `Required` occurs in the final description: only the tokens
`+required` and `+optional` are ever removed. The second comment has a
standalone `+required` line, the call succeeds with `Required = true`, and
`+required` occurs in the final description: each token is deleted in one
pass, and deleting `+optional` joins the text around it into `+required`. -/
theorem handleComment_required_word_kept :
    hasLine "Foo is the bar.\nRequired".toList "Required".toList ∧
    (demoGen false).Strict = false ∧
    demoEnv.handleEnumComments (demoGen false).Importer demoDef
      "Foo is the bar.\nRequired".toList = .ok (demoDef, none) ∧
    handleComment demoEnv (demoGen false) "Foo".toList "Foo is the bar.\nRequired".toList
        demoDef =
      .ok (⟨true, false⟩,
        ⟨[], [], [], "bar. Required".toList, "bar. Required".toList, []⟩, 0) ∧
    "Required".toList <:+: "bar. Required".toList ∧
    hasLine "Foo is the bar. +req+optionaluired\n+required".toList "+required".toList ∧
    demoEnv.handleEnumComments (demoGen false).Importer demoDef
      "Foo is the bar. +req+optionaluired\n+required".toList = .ok (demoDef, none) ∧
    handleComment demoEnv (demoGen false) "Foo".toList
        "Foo is the bar. +req+optionaluired\n+required".toList demoDef =
      .ok (⟨true, false⟩,
        ⟨[], [], [], "bar. +required".toList, "bar. +required".toList, []⟩, 0) ∧
    "+required".toList <:+: "bar. +required".toList :=
  ⟨by decide, rfl, rfl, rfl, ⟨"bar. ".toList, [], rfl⟩, by decide, rfl, rfl,
    ⟨"bar. ".toList, [], rfl⟩⟩

/-- C2, amended: for a comment with a standalone `+required` line or a
standalone `Required` line (enum pass recognising nothing, non-strict mode,
call succeeds), `Required` is true, and when every `+` of the comment begins a
token `+required` or `+optional`, the final description has no `+` and so
`+required` does not occur in it. -/
theorem handleComment_required_marker {I G V X R : Type} (env : Env I G V X R)
    (dg : Generator I G) (rawName comment : Str) (d d1 : Definition V R)
    (res : Meta × Definition V R × G)
    (_hstrict : dg.Strict = false)
    (henum : env.handleEnumComments dg.Importer d comment = .ok (d1, none))
    (hline : hasLine comment "+required".toList ∨ hasLine comment "Required".toList)
    (hok : handleComment env dg rawName comment d = .ok res) :
    res.1.Required = true ∧
    (plusBeginsTag comment = true →
      '+' ∉ res.2.1.Description ∧ ¬ "+required".toList <:+: res.2.1.Description) := by
  obtain ⟨s3, hs3, hdesc, hreq⟩ := handleComment_description henum hok
  refine ⟨?_, ?_⟩
  · rw [hreq]
    exact (requiredOf_iff comment).mpr hline
  · intro hplus
    have h1 : '+' ∉ res.2.1.Description := by
      rw [hdesc]
      intro hm
      exact plus_not_mem_stripAnnotations comment hplus
        (hs3.subset (subset_stripTypeName _ _ _ hm))
    exact ⟨h1, fun hin => h1 (hin.subset (List.mem_cons_self _ _))⟩

set_option maxRecDepth 100000 in
/-- C2, amended, at a comment with a `+required` line and an `+optional`
line. -/
theorem handleComment_required_marker_witness :
    (demoGen false).Strict = false ∧
    demoEnv.handleEnumComments (demoGen false).Importer demoDef
      "Foo is the bar.\n+required\n+optional".toList = .ok (demoDef, none) ∧
    (hasLine "Foo is the bar.\n+required\n+optional".toList "+required".toList ∨
      hasLine "Foo is the bar.\n+required\n+optional".toList "Required".toList) ∧
    handleComment demoEnv (demoGen false) "Foo".toList
        "Foo is the bar.\n+required\n+optional".toList demoDef =
      .ok (⟨true, false⟩, ⟨[], [], [], "bar.".toList, "bar.".toList, []⟩, 0) ∧
    plusBeginsTag "Foo is the bar.\n+required\n+optional".toList = true ∧
    ((⟨true, false⟩ : Meta).Required = true ∧
      (plusBeginsTag "Foo is the bar.\n+required\n+optional".toList = true →
        '+' ∉ "bar.".toList ∧ ¬ "+required".toList <:+: "bar.".toList)) :=
  ⟨rfl, rfl, Or.inl (by decide), rfl, rfl,
    handleComment_required_marker demoEnv (demoGen false) "Foo".toList
      "Foo is the bar.\n+required\n+optional".toList demoDef demoDef
      (⟨true, false⟩, ⟨[], [], [], "bar.".toList, "bar.".toList, []⟩, 0)
      rfl rfl (Or.inl (by decide)) rfl⟩

theorem noClause_of_parts {s : Str}
    (hdef : findStringSubmatch regexpDefaults s = none)
    (hov : findStringSubmatch typeOverridePattern s = none)
    (hex : findStringSubmatch regexpExample s = none)
    (hphrase : ¬ oneOfPhrase <:+: s) : noClause s := by
  refine ⟨hdef, hov, ?_, hex⟩
  cases hf : findStringSubmatch typeOneOfPattern s with
  | none => rfl
  | some m =>
    exfalso
    apply hphrase
    exact (find_typeOneOf_isSome_iff s).mp (by rw [hf]; rfl)

set_option maxRecDepth 100000 in
/-- C8 at an input on which the code departs from it: the comment has no
back-quote, so no default, type-override or example clause and no oneOf entry;
the enum pass recognises nothing; the comment starts with the name and a space
and its prose is not empty and ends in a dot. The claim lets no such call
fail, and both the non-strict and the strict call end in the panic of line 90:
the phrase "Schema type is one of " alone makes the outer oneOf pattern
match. -/
theorem handleComment_strict_validation_panic :
    backquote ∉ "Foo is the bar. Schema type is one of the usual.".toList ∧
    stripAnnotations "Foo is the bar. Schema type is one of the usual.".toList =
      "Foo is the bar. Schema type is one of the usual.".toList ∧
    findStringSubmatch regexpDefaults
      "Foo is the bar. Schema type is one of the usual.".toList = none ∧
    findStringSubmatch typeOverridePattern
      "Foo is the bar. Schema type is one of the usual.".toList = none ∧
    findStringSubmatch regexpExample
      "Foo is the bar. Schema type is one of the usual.".toList = none ∧
    findAllStringSubmatch oneOfEntryPattern
      "Foo is the bar. Schema type is one of the usual.".toList = [] ∧
    demoEnv.handleEnumComments (demoGen false).Importer demoDef
      "Foo is the bar. Schema type is one of the usual.".toList = .ok (demoDef, none) ∧
    hasPrefix "Foo is the bar. Schema type is one of the usual.".toList
      ("Foo".toList ++ " ".toList) = true ∧
    stripTypeName "Foo".toList "Foo is the bar. Schema type is one of the usual.".toList =
      "bar. Schema type is one of the usual.".toList ∧
    hasSuffix "bar. Schema type is one of the usual.".toList ".".toList = true ∧
    handleComment demoEnv (demoGen false) "Foo".toList
        "Foo is the bar. Schema type is one of the usual.".toList demoDef =
      .error (.panic "error matching oneOf comment with regex".toList) ∧
    handleComment demoEnv (demoGen true) "Foo".toList
        "Foo is the bar. Schema type is one of the usual.".toList demoDef =
      .error (.panic "error matching oneOf comment with regex".toList) :=
  ⟨by decide, rfl, rfl, rfl, rfl, rfl, rfl, rfl, rfl, rfl, rfl, rfl⟩

set_option maxRecDepth 100000 in
/-- C9, as stated, fails twice over. The first comment has no annotation clause
and does not begin with the name followed by a space (it begins with a space),
the call is non-strict, and yet the description is not the trimmed comment:
trimming comes first, so the self-reference is found and stripped. The second
comment has no back-quote, so no clause, and does not begin with the name; it
contains the phrase "Schema type is one of ", which alone makes the outer
oneOf pattern match, and the call ends in the panic of line 90. -/
theorem handleComment_leading_space :
    ¬ "+required".toList <:+: " Foo is the bar.".toList ∧
    ¬ "+optional".toList <:+: " Foo is the bar.".toList ∧
    ¬ hasLine " Foo is the bar.".toList "Required".toList ∧
    noClause (stripAnnotations " Foo is the bar.".toList) ∧
    demoEnv.handleEnumComments (demoGen false).Importer demoDef " Foo is the bar.".toList =
      .ok (demoDef, none) ∧
    (demoGen false).Strict = false ∧
    hasPrefix " Foo is the bar.".toList ("Foo".toList ++ " ".toList) = false ∧
    handleComment demoEnv (demoGen false) "Foo".toList " Foo is the bar.".toList demoDef =
      .ok (⟨false, false⟩, ⟨[], [], [], "bar.".toList, "bar.".toList, []⟩, 0) ∧
    trimSpace (replaceAll " Foo is the bar.".toList [newline] [' ']) = "Foo is the bar.".toList ∧
    "bar.".toList ≠ "Foo is the bar.".toList ∧
    ¬ "+required".toList <:+: "The bar. Schema type is one of A or B.".toList ∧
    ¬ "+optional".toList <:+: "The bar. Schema type is one of A or B.".toList ∧
    ¬ hasLine "The bar. Schema type is one of A or B.".toList "Required".toList ∧
    backquote ∉ "The bar. Schema type is one of A or B.".toList ∧
    findAllStringSubmatch oneOfEntryPattern
      "The bar. Schema type is one of A or B.".toList = [] ∧
    demoEnv.handleEnumComments (demoGen false).Importer demoDef
      "The bar. Schema type is one of A or B.".toList = .ok (demoDef, none) ∧
    ¬ ("Foo".toList ++ [' ']) <+:
      trimSpace (replaceAll "The bar. Schema type is one of A or B.".toList [newline] [' ']) ∧
    handleComment demoEnv (demoGen false) "Foo".toList
        "The bar. Schema type is one of A or B.".toList demoDef =
      .error (.panic "error matching oneOf comment with regex".toList) :=
  ⟨by decide, by decide, by decide, by decide, rfl, rfl, rfl, rfl, rfl, by decide,
    by decide, by decide, by decide, by decide, rfl, rfl, by decide, rfl⟩

/-- C9, amended: for a comment with no `+required` or `+optional` token and no
standalone `Required` line, whose description (the comment trimmed, its line
feeds replaced by spaces) matches neither the default, the type-override nor
the example pattern, does not contain the phrase "Schema type is one of " and
does not begin with the name followed by a space, with the enum pass
recognising nothing and leaving the definition as it is, in non-strict mode:
the call succeeds, `Description` is that description, `Default`, `OneOf` and
`Examples` keep the caller's values, and `Required` and `NoDerive` are
false. -/
theorem handleComment_plain_comment {I G V X R : Type} (env : Env I G V X R)
    (dg : Generator I G) (rawName comment : Str) (d : Definition V R)
    (hname : plainName (env.interpretReference rawName).2 = true)
    (hstrict : dg.Strict = false)
    (henum : env.handleEnumComments dg.Importer d comment = .ok (d, none))
    (hreq : ¬ "+required".toList <:+: comment)
    (hopt : ¬ "+optional".toList <:+: comment)
    (hline : ¬ hasLine comment "Required".toList)
    (hdef : findStringSubmatch regexpDefaults
      (trimSpace (replaceAll comment [newline] [' '])) = none)
    (hov : findStringSubmatch typeOverridePattern
      (trimSpace (replaceAll comment [newline] [' '])) = none)
    (hex : findStringSubmatch regexpExample
      (trimSpace (replaceAll comment [newline] [' '])) = none)
    (hphrase : ¬ oneOfPhrase <:+: trimSpace (replaceAll comment [newline] [' ']))
    (hself : ¬ ((env.interpretReference rawName).2 ++ [' ']) <+:
      trimSpace (replaceAll comment [newline] [' '])) :
    ∃ res, handleComment env dg rawName comment d = .ok res ∧
      res.2.1.Description = trimSpace (replaceAll comment [newline] [' ']) ∧
      res.2.1.Default = d.Default ∧ res.2.1.OneOf = d.OneOf ∧
      res.2.1.Examples = d.Examples ∧
      res.1.Required = false ∧ res.1.NoDerive = false := by
  have hpre : (dg.Strict && (env.interpretReference rawName).2 != [] &&
      !hasPrefix comment ((env.interpretReference rawName).2 ++ " ".toList)) = false := by
    rw [hstrict]; rfl
  have hs0 := stripAnnotations_of_no_token comment hreq hopt
  have hno : noClause (stripAnnotations (workingComment comment none)) := by
    simp only [workingComment]
    rw [hs0]
    exact noClause_of_parts hdef hov hex hphrase
  have hr : requiredOf comment = false := by
    cases h : requiredOf comment with
    | false => rfl
    | true =>
      rcases (requiredOf_iff comment).mp h with h1 | h1
      · exact absurd (infix_of_hasLine h1) hreq
      · exact absurd h1 hline
  rw [handleComment_plain env dg rawName comment d d none hpre henum hno,
    finishComment_lenient env _ _ _ _ _ _ _ _ hname (Or.inl hstrict)]
  refine ⟨_, rfl, ?_, rfl, rfl, rfl, ?_, rfl⟩
  · simp only [workingComment, synthesizedFragment, joinIfNotEmpty_pair_nil]
    rw [hs0, stripTypeName_of_not_prefix _ _ hself]
  · exact hr

set_option maxRecDepth 100000 in
/-- C9, amended, at a two-line comment that does not name the field. -/
theorem handleComment_plain_comment_witness :
    plainName (demoEnv.interpretReference "Foo".toList).2 = true ∧
    (demoGen false).Strict = false ∧
    demoEnv.handleEnumComments (demoGen false).Importer
      ({ demoDef with Default := "1".toList }) "The bar\nof all bars. ".toList =
      .ok ({ demoDef with Default := "1".toList }, none) ∧
    ¬ "+required".toList <:+: "The bar\nof all bars. ".toList ∧
    ¬ "+optional".toList <:+: "The bar\nof all bars. ".toList ∧
    ¬ hasLine "The bar\nof all bars. ".toList "Required".toList ∧
    trimSpace (replaceAll "The bar\nof all bars. ".toList [newline] [' ']) =
      "The bar of all bars.".toList ∧
    ¬ oneOfPhrase <:+: trimSpace (replaceAll "The bar\nof all bars. ".toList [newline] [' ']) ∧
    ¬ ((demoEnv.interpretReference "Foo".toList).2 ++ [' ']) <+:
      trimSpace (replaceAll "The bar\nof all bars. ".toList [newline] [' ']) ∧
    ∃ res, handleComment demoEnv (demoGen false) "Foo".toList "The bar\nof all bars. ".toList
        ({ demoDef with Default := "1".toList }) = .ok res ∧
      res.2.1.Description = trimSpace (replaceAll "The bar\nof all bars. ".toList [newline] [' ']) ∧
      res.2.1.Default = ({ demoDef with Default := "1".toList } : Definition Str Str).Default ∧
      res.2.1.OneOf = ({ demoDef with Default := "1".toList } : Definition Str Str).OneOf ∧
      res.2.1.Examples = ({ demoDef with Default := "1".toList } : Definition Str Str).Examples ∧
      res.1.Required = false ∧ res.1.NoDerive = false :=
  ⟨rfl, rfl, rfl, by decide, by decide, by decide, rfl, by decide, by decide,
    handleComment_plain_comment demoEnv (demoGen false) "Foo".toList
      "The bar\nof all bars. ".toList ({ demoDef with Default := "1".toList })
      rfl rfl rfl (by decide) (by decide) (by decide) rfl rfl rfl (by decide) (by decide)⟩

set_option maxRecDepth 100000 in
/-- C10, as stated, fails twice over. On the first comment a non-strict call
succeeds and produces a description without annotation clause, and the second
call on that description produces a different description, because the
description again begins with the name and a verb phrase. On the second
comment the call applies the type override and produces a description without
back-quote, so without clause, that contains the phrase "Schema type is one of
", and the second call on that description ends in the panic of line 90. -/
theorem handleComment_not_idempotent :
    (demoGen false).Strict = false ∧
    demoEnv.handleEnumComments (demoGen false).Importer demoDef
      "Foo is Foo is the bar.".toList = .ok (demoDef, none) ∧
    handleComment demoEnv (demoGen false) "Foo".toList "Foo is Foo is the bar.".toList demoDef =
      .ok (⟨false, false⟩,
        ⟨[], [], [], "Foo is the bar.".toList, "Foo is the bar.".toList, []⟩, 0) ∧
    ¬ "+required".toList <:+: "Foo is the bar.".toList ∧
    ¬ "+optional".toList <:+: "Foo is the bar.".toList ∧
    noClause "Foo is the bar.".toList ∧
    demoEnv.handleEnumComments (demoGen false).Importer demoDef "Foo is the bar.".toList =
      .ok (demoDef, none) ∧
    handleComment demoEnv (demoGen false) "Foo".toList "Foo is the bar.".toList demoDef =
      .ok (⟨false, false⟩, ⟨[], [], [], "bar.".toList, "bar.".toList, []⟩, 0) ∧
    "bar.".toList ≠ "Foo is the bar.".toList ∧
    demoEnv.handleEnumComments (demoGen false).Importer demoDef
      "Foo is the bar. Schema type is one of A or B. Schema type is `T`.".toList =
        .ok (demoDef, none) ∧
    handleComment demoEnv (demoGen false) "Foo".toList
        "Foo is the bar. Schema type is one of A or B. Schema type is `T`.".toList demoDef =
      .ok (⟨false, true⟩,
        ⟨[], [], [], "bar. Schema type is one of A or B.".toList,
          "bar. Schema type is one of A or B.".toList, "T".toList⟩, 1) ∧
    backquote ∉ "bar. Schema type is one of A or B.".toList ∧
    ¬ "+required".toList <:+: "bar. Schema type is one of A or B.".toList ∧
    ¬ "+optional".toList <:+: "bar. Schema type is one of A or B.".toList ∧
    findAllStringSubmatch oneOfEntryPattern "bar. Schema type is one of A or B.".toList = [] ∧
    demoEnv.handleEnumComments (demoGen false).Importer demoDef
      "bar. Schema type is one of A or B.".toList = .ok (demoDef, none) ∧
    handleComment demoEnv (demoGen false) "Foo".toList
        "bar. Schema type is one of A or B.".toList demoDef =
      .error (.panic "error matching oneOf comment with regex".toList) :=
  ⟨rfl, rfl, rfl, by decide, by decide, by decide, rfl, rfl, by decide,
    rfl, rfl, by decide, by decide, by decide, rfl, rfl, rfl⟩

/-- C10, amended: when a non-strict call succeeds (enum pass recognising
nothing) and produces a description `D` that has no `+required` or `+optional`
token, matches neither the default, the type-override nor the example pattern,
does not contain the phrase "Schema type is one of ", and begins neither with
a white-space character nor with the name followed by a space, the call with
the same name on `D` as the comment (enum pass again recognising nothing)
succeeds and produces the description `D`. -/
theorem handleComment_idempotent {I G V X R : Type} (env : Env I G V X R)
    (dg : Generator I G) (rawName comment : Str) (d d1 d' d1' : Definition V R)
    (res : Meta × Definition V R × G)
    (hstrict : dg.Strict = false)
    (henum : env.handleEnumComments dg.Importer d comment = .ok (d1, none))
    (hok : handleComment env dg rawName comment d = .ok res)
    (hreq : ¬ "+required".toList <:+: res.2.1.Description)
    (hopt : ¬ "+optional".toList <:+: res.2.1.Description)
    (hdef : findStringSubmatch regexpDefaults res.2.1.Description = none)
    (hov : findStringSubmatch typeOverridePattern res.2.1.Description = none)
    (hex : findStringSubmatch regexpExample res.2.1.Description = none)
    (hphrase : ¬ oneOfPhrase <:+: res.2.1.Description)
    (hlead : noLeadingSpace res.2.1.Description)
    (hself : ¬ ((env.interpretReference rawName).2 ++ [' ']) <+: res.2.1.Description)
    (henum' : env.handleEnumComments dg.Importer d' res.2.1.Description = .ok (d1', none)) :
    ∃ res', handleComment env dg rawName res.2.1.Description d' = .ok res' ∧
      res'.2.1.Description = res.2.1.Description := by
  obtain ⟨hname, hnl, htr⟩ := handleComment_description_clean henum hok
  have hs0 : stripAnnotations res.2.1.Description = res.2.1.Description := by
    rw [stripAnnotations_of_no_token _ hreq hopt,
      replaceAll_absent _ _ _ (by decide) (fun h => hnl (h.subset (List.mem_singleton_self _))),
      trimSpace_eq_self _ hlead htr]
  have hpre : (dg.Strict && (env.interpretReference rawName).2 != [] &&
      !hasPrefix res.2.1.Description ((env.interpretReference rawName).2 ++ " ".toList)) =
        false := by
    rw [hstrict]; rfl
  have hno' : noClause (stripAnnotations (workingComment res.2.1.Description none)) := by
    simp only [workingComment, hs0]
    exact noClause_of_parts hdef hov hex hphrase
  rw [handleComment_plain env dg rawName _ d' d1' none hpre henum' hno',
    finishComment_lenient env _ _ _ _ _ _ _ _ hname (Or.inl hstrict)]
  refine ⟨_, rfl, ?_⟩
  simp only [workingComment, synthesizedFragment, joinIfNotEmpty_pair_nil, hs0]
  exact stripTypeName_of_not_prefix _ _ hself

set_option maxRecDepth 100000 in
/-- C10, amended, at the comment "Foo is the bar. Defaults to `1`.", whose
description is "bar.". -/
theorem handleComment_idempotent_witness :
    (demoGen false).Strict = false ∧
    demoEnv.handleEnumComments (demoGen false).Importer demoDef
      "Foo is the bar. Defaults to `1`.".toList = .ok (demoDef, none) ∧
    handleComment demoEnv (demoGen false) "Foo".toList
        "Foo is the bar. Defaults to `1`.".toList demoDef =
      .ok (⟨false, false⟩, ⟨"1".toList, [], [], "bar.".toList, "bar.".toList, []⟩, 0) ∧
    ¬ "+required".toList <:+: "bar.".toList ∧
    ¬ "+optional".toList <:+: "bar.".toList ∧
    ¬ oneOfPhrase <:+: "bar.".toList ∧
    noLeadingSpace "bar.".toList ∧
    ¬ ((demoEnv.interpretReference "Foo".toList).2 ++ [' ']) <+: "bar.".toList ∧
    demoEnv.handleEnumComments (demoGen false).Importer demoDef "bar.".toList =
      .ok (demoDef, none) ∧
    ∃ res', handleComment demoEnv (demoGen false) "Foo".toList "bar.".toList demoDef =
        .ok res' ∧
      res'.2.1.Description = "bar.".toList :=
  ⟨rfl, rfl, rfl, by decide, by decide, by decide, by decide, by decide, rfl,
    handleComment_idempotent demoEnv (demoGen false) "Foo".toList
      "Foo is the bar. Defaults to `1`.".toList demoDef demoDef demoDef demoDef
      (⟨false, false⟩, ⟨"1".toList, [], [], "bar.".toList, "bar.".toList, []⟩, 0)
      rfl rfl rfl (by decide) (by decide) rfl rfl rfl (by decide) (by decide) (by decide) rfl⟩

end Schemer
